import Mathlib

/-!
# The event module: registry, router and dispatch pipeline

A shallow embedding of the event bus (`module.go`, `context.go`, `default.go`,
`driver.go`, `external.go`) and the properties proved about it.

Conventions of the embedding

* Go maps are association lists (`GoMap`), read with `GoMap.get` and written with
  `GoMap.set`.  Go ranges over a map in an unspecified order; where the order
  is observable it is an explicit parameter (`RangeOrder`).
* A `ctxFunc` is a value of `Fn`: either a bound method of the instance
  (`Fn.method`) or a closure supplied by the application (`Fn.user`).  An
  application closure is a finite script of the things it can do to the
  context it receives: assign the exported data fields and call the exported
  methods `Next`, `Found`, `Error`, `Failed`, `Denied` and `Result`.
* The pipeline is re-entrant (a continuation calls `ctx.Next()`, which calls
  the following continuation, ...), so `Context.Next` carries a bound on the
  depth of nested `Next` calls; `none` means the bound was too small.
* A closure that branches on the context it receives does, on each run, what one
  of these scripts does; closures cannot reach the unexported `clear` and `next`.
  Replacing the resolved event (`ctx.Config = ...`) inside a closure is outside
  the model: the event of a context is the one `serving` resolved.
* The dispatch methods of `Instance` never read their receiver (they use it only
  to name each other), so it is not a parameter, and the package variable
  `module` they read is an explicit argument.
* Every context carries a ghost `trace` of the methods entered and closures
  called, in order.
* A panic is the error side of `Except String`.
* A channel of the default connection is a queue, oldest message first; a run of a
  connection (`defaultConnection.run`) is a sequence of publishes that return and
  receives of the consumers, each one step, in whatever order they interleave.
  `Start` spawns one consumer per subject, so the receive of a message and its
  hand-over to `Serve` are one step.
-/

namespace Bus

/-! ## Values of the host framework -/

/-- Dynamic value (`Any`): nil, `bool`, `int`, `int64`, `float64`, `string` or a
nested `Map`.  A `float64` is kept as the integer `int(v)` converts it to, the
only thing the module reads from one. -/
inductive Val where
  | null
  | bool (b : Bool)
  | int (i : Int)
  | int64 (i : Int)
  | float64 (whole : Int)
  | str (s : String)
  | map (entries : List (String × Val))
  deriving Repr

mutual
/-- Equality of dynamic values is decidable. -/
def Val.decEq : (a b : Val) → Decidable (a = b)
  | .null, .null => isTrue rfl
  | .bool a, .bool b =>
    if h : a = b then isTrue (by rw [h]) else isFalse (by intro e; cases e; exact h rfl)
  | .int a, .int b =>
    if h : a = b then isTrue (by rw [h]) else isFalse (by intro e; cases e; exact h rfl)
  | .int64 a, .int64 b =>
    if h : a = b then isTrue (by rw [h]) else isFalse (by intro e; cases e; exact h rfl)
  | .float64 a, .float64 b =>
    if h : a = b then isTrue (by rw [h]) else isFalse (by intro e; cases e; exact h rfl)
  | .str a, .str b =>
    if h : a = b then isTrue (by rw [h]) else isFalse (by intro e; cases e; exact h rfl)
  | .map a, .map b =>
    match Val.decEqList a b with
    | isTrue h => isTrue (by rw [h])
    | isFalse h => isFalse (by intro e; cases e; exact h rfl)
  | .null, .bool _ | .null, .int _ | .null, .int64 _ | .null, .float64 _ | .null, .str _
  | .null, .map _ => isFalse (by intro e; cases e)
  | .bool _, .null | .bool _, .int _ | .bool _, .int64 _ | .bool _, .float64 _ | .bool _, .str _
  | .bool _, .map _ => isFalse (by intro e; cases e)
  | .int _, .null | .int _, .bool _ | .int _, .int64 _ | .int _, .float64 _ | .int _, .str _
  | .int _, .map _ => isFalse (by intro e; cases e)
  | .int64 _, .null | .int64 _, .bool _ | .int64 _, .int _ | .int64 _, .float64 _
  | .int64 _, .str _ | .int64 _, .map _ => isFalse (by intro e; cases e)
  | .float64 _, .null | .float64 _, .bool _ | .float64 _, .int _ | .float64 _, .int64 _
  | .float64 _, .str _ | .float64 _, .map _ => isFalse (by intro e; cases e)
  | .str _, .null | .str _, .bool _ | .str _, .int _ | .str _, .int64 _ | .str _, .float64 _
  | .str _, .map _ => isFalse (by intro e; cases e)
  | .map _, .null | .map _, .bool _ | .map _, .int _ | .map _, .int64 _ | .map _, .float64 _
  | .map _, .str _ => isFalse (by intro e; cases e)
/-- Equality of the entries of a nested map is decidable. -/
def Val.decEqList : (a b : List (String × Val)) → Decidable (a = b)
  | [], [] => isTrue rfl
  | [], _ :: _ => isFalse (by intro e; cases e)
  | _ :: _, [] => isFalse (by intro e; cases e)
  | (k, v) :: as, (k', v') :: bs =>
    if hk : k = k' then
      match Val.decEq v v' with
      | isTrue hv =>
        match Val.decEqList as bs with
        | isTrue h => isTrue (by rw [hk, hv, h])
        | isFalse h => isFalse (by intro e; cases e; exact h rfl)
      | isFalse hv => isFalse (by intro e; cases e; exact hv rfl)
    else isFalse (by intro e; cases e; exact hk rfl)
end

instance Val.instDecidableEq : DecidableEq Val := Val.decEq

/-- Go map with string keys, as an association list. -/
abbrev GoMap (α : Type) := List (String × α)

/-- Read `m[k]`; `none` is the `!ok` answer. -/
def GoMap.get {α : Type} : GoMap α → String → Option α
  | [], _ => none
  | (k', v) :: rest, k => if k' = k then some v else GoMap.get rest k

/-- Write `m[k] = v`. -/
def GoMap.set {α : Type} : GoMap α → String → α → GoMap α
  | [], k, v => [(k, v)]
  | (k', v') :: rest, k, v =>
    if k' = k then (k, v) :: rest else (k', v') :: GoMap.set rest k v

/-- The keys of a map. -/
def GoMap.keys {α : Type} (m : GoMap α) : List String := m.map Prod.fst

/-- The framework's `Map` (`map[string]any`). -/
abbrev Map := GoMap Val

/-- The framework's `Vars`, an argument schema: field name and type name. -/
abbrev Vars := List (String × String)

/-- Byte strings. -/
abbrev Bytes := List Nat

/-- The framework's result value `Res`; `ok` and `fail` are what its methods
`OK()` and `Fail()` answer. A nil `Res` is `none : Option Res`. -/
structure Res where
  code : Int
  ok : Bool
  fail : Bool
  deriving DecidableEq, Repr

/-- The framework constant `DEFAULT`. -/
def DEFAULT : String := "default"

/-- The framework constant `GOB`, the default codec name. -/
def GOB : String := "gob"

/-- The framework constant `INFRAGO`, the fallback profile name. -/
def INFRAGO : String := "infrago"

def broadcastSubjectPrefix : String := "broadcast."

def publishSubjectPrefix : String := "publish."

/-- Errors returned to a publisher or by the default connection; `codec` is an
error of the codec collaborator. -/
inductive Err where
  | errInvalidEvent
  | errNoConnection
  | errEventRunning
  | errEventNotRunning
  | codec (msg : String)
  deriving DecidableEq, Repr

/-- The text `err.Error()` of an error. -/
def Err.Error : Err → String
  | .errInvalidEvent => "invalid event name"
  | .errNoConnection => "invalid event connection"
  | .errEventRunning => "event is running"
  | .errEventNotRunning => "event is not running"
  | .codec msg => msg

/-! ## Continuations -/

/-- Assignment to one of the exported data fields of a context (`ctx.Name = s`,
`ctx.Setting[k] = v`, `ctx.Value[k] = v`, `ctx.Args[k] = v`, `ctx.Locals[k] = v`,
`ctx.Body = v`), or the embedded `Result(res)` setter.  The field `Config` is
exported too, but `ctx.Config = ...` is not among the assignments: the closures of
this development leave the event that `serving` resolved in place, and what is
proved about a dispatch is proved for such closures. -/
inductive Assign where
  | Name (s : String)
  | Setting (k : String) (v : Val)
  | Value (k : String) (v : Val)
  | Args (k : String) (v : Val)
  | Locals (k : String) (v : Val)
  | Body (v : Val)
  | Result (res : Option Res)
  deriving DecidableEq, Repr

/-- One statement of an application closure `func(ctx *Context)`. -/
inductive Op where
  | assign (a : Assign)
  | Next
  | Found
  | Error (res : Option Res)
  | Failed (res : Option Res)
  | Denied (res : Option Res)
  deriving DecidableEq, Repr

/-- An application closure: a label (its identity in traces) and its statements. -/
structure UserFn where
  id : Nat
  body : List Op
  deriving DecidableEq, Repr

/-- The methods of `Instance` that take part in a dispatch. -/
inductive Method where
  | open | serve | request | execute | response
  | finding | authorizing | arguing
  | found | error | failed | denied
  | body
  deriving DecidableEq, Repr

/-- A non-nil `ctxFunc`. -/
inductive Fn where
  | method (x : Method)
  | user (f : UserFn)
  deriving DecidableEq, Repr

/-- A `ctxFunc` value; `none` is nil. -/
abbrev ctxFunc := Option Fn

/-- Ghost trace entries. -/
inductive Ev where
  | enter (x : Method)
  | call (id : Nat)
  deriving DecidableEq, Repr

/-! ## Registered entities -/

/-- Modelled from the spec: the `Event` declaration type is used by `module.go`
but declared in none of the source files; these are the fields the sources
read, as the data model describes them (connect target, argument schema and
nullable flag, settings, action list and single action, the four hooks). -/
structure Event where
  Connect : String
  Args : Option Vars
  Nullable : Bool
  Setting : Map
  Actions : List (Option UserFn)
  Action : Option UserFn
  Found : Option UserFn
  Error : Option UserFn
  Failed : Option UserFn
  Denied : Option UserFn
  deriving DecidableEq, Repr

/-- Modelled from the spec: the `Declare` type (outbound argument schema and
nullable flag) is declared in none of the source files. -/
structure Declare where
  Args : Option Vars
  Nullable : Bool
  deriving DecidableEq, Repr

/-- Modelled from the spec: the `Filter` type (four optional hooks) is declared
in none of the source files. -/
structure Filter where
  Serve : Option UserFn
  Request : Option UserFn
  Execute : Option UserFn
  Response : Option UserFn
  deriving DecidableEq, Repr

/-- Modelled from the spec: the `Handler` type (four optional hooks) is declared
in none of the source files. -/
structure Handler where
  Found : Option UserFn
  Error : Option UserFn
  Failed : Option UserFn
  Denied : Option UserFn
  deriving DecidableEq, Repr

structure Config where
  Driver : String
  External : Bool
  Codec : String
  Weight : Int
  Prefix : String
  Setting : Map
  deriving DecidableEq, Repr

structure msgEnvelope where
  Name : String
  Metadata : Map
  Payload : Option Map
  deriving DecidableEq, Repr

/-! ## The default in-process connection, instances and the module -/

/-- State of a `defaultConnection`. `events` maps a subject to the contents of
its buffered channel (capacity 64), oldest first. Ghost fields: `consumers`
lists the subjects with a live consumer goroutine, `published` logs the calls
of `Publish`. -/
structure defaultConnection where
  running : Bool
  events : GoMap (List Bytes)
  consumers : List String
  published : List (String × Bytes)
  deriving DecidableEq, Repr

/-- The `Driver` implementations of the repository. -/
inductive Driver where
  | defaultDriver
  deriving DecidableEq, Repr

/-- Runtime pairing of a config and a connection; `conn = none` is a nil
connection. -/
structure Instance where
  conn : Option defaultConnection
  Name : String
  Config : Config
  Setting : Map
  deriving DecidableEq, Repr

/-- The external hash ring, holding the weights table it was built from. -/
structure HashRing where
  weights : GoMap Int
  deriving DecidableEq, Repr

structure Module where
  opened : Bool
  started : Bool
  configs : GoMap Config
  drivers : GoMap Driver
  events : GoMap Event
  declares : GoMap Declare
  filters : GoMap Filter
  handlers : GoMap Handler
  serveFilters : List (Option UserFn)
  requestFilters : List (Option UserFn)
  executeFilters : List (Option UserFn)
  responseFilters : List (Option UserFn)
  foundHandlers : List (Option UserFn)
  errorHandlers : List (Option UserFn)
  failedHandlers : List (Option UserFn)
  deniedHandlers : List (Option UserFn)
  instances : GoMap Instance
  weights : Option (GoMap Int)
  hashring : Option HashRing
  deriving DecidableEq, Repr

/-- The external collaborators: argument mapping, codec, hash ring lookup,
metadata and process identity. `Mapping schema input nullable tz` answers the
filled output map and the result. -/
structure Infra where
  Mapping : Vars → Map → Bool → Option Map → Map × Option Res
  MarshalPayload : String → Map → Except String Bytes
  MarshalEnvelope : String → msgEnvelope → Except String Bytes
  UnmarshalPayload : String → Bytes → Option Map
  UnmarshalEnvelope : String → Bytes → Option msgEnvelope
  Locate : HashRing → String → String
  NewMetadata : Map
  Profile : String

/-! ## The execution context and the pipeline primitive -/

structure Context where
  index : Nat
  nexts : List ctxFunc
  Name : String
  Config : Option Event
  Setting : Map
  Value : Map
  Args : Map
  Locals : Map
  Body : Val
  Meta : Map
  result : Option Res
  trace : List Ev
  deriving DecidableEq, Repr

/-- A way of running `ctx.Next()` to completion; `none` when it does not
complete within the depth at hand. -/
abbrev Run := Context → Option Context

def Context.clear (ctx : Context) : Context :=
  { ctx with index := 0, nexts := [] }

def Context.next (ctx : Context) (nexts : List ctxFunc) : Context :=
  { ctx with nexts := ctx.nexts ++ nexts }

/-- Ghost: record a trace entry. -/
def Context.log (ctx : Context) (e : Ev) : Context :=
  { ctx with trace := ctx.trace ++ [e] }

/-- The closures of a module-wide chain as `ctxFunc` values. -/
def asFuncs (fs : List (Option UserFn)) : List ctxFunc :=
  fs.map (Option.map Fn.user)

/-- The setter `ctx.Result(res)`. -/
def Context.Result (ctx : Context) (res : Option Res) : Context :=
  { ctx with result := res }

def Assign.apply : Assign → Context → Context
  | .Name s, ctx => { ctx with Name := s }
  | .Setting k v, ctx => { ctx with Setting := GoMap.set ctx.Setting k v }
  | .Value k v, ctx => { ctx with Value := GoMap.set ctx.Value k v }
  | .Args k v, ctx => { ctx with Args := GoMap.set ctx.Args k v }
  | .Locals k v, ctx => { ctx with Locals := GoMap.set ctx.Locals k v }
  | .Body v, ctx => { ctx with Body := v }
  | .Result res, ctx => ctx.Result res

def Instance.body (ctx : Context) : Context :=
  ctx.log (.enter .body)

def Instance.found (K : Run) (m : Module) (ctx : Context) : Option Context :=
  let ctx := (ctx.log (.enter .found)).clear
  let ctx :=
    match ctx.Config with
    | some ev => if ev.Found.isSome then ctx.next [ev.Found.map Fn.user] else ctx
    | none => ctx
  let ctx := ctx.next (asFuncs m.foundHandlers)
  K ctx

def Instance.error (K : Run) (m : Module) (ctx : Context) : Option Context :=
  let ctx := (ctx.log (.enter .error)).clear
  let ctx :=
    match ctx.Config with
    | some ev => if ev.Error.isSome then ctx.next [ev.Error.map Fn.user] else ctx
    | none => ctx
  let ctx := ctx.next (asFuncs m.errorHandlers)
  K ctx

def Instance.failed (K : Run) (m : Module) (ctx : Context) : Option Context :=
  let ctx := (ctx.log (.enter .failed)).clear
  let ctx :=
    match ctx.Config with
    | some ev => if ev.Failed.isSome then ctx.next [ev.Failed.map Fn.user] else ctx
    | none => ctx
  let ctx := ctx.next (asFuncs m.failedHandlers)
  K ctx

def Instance.denied (K : Run) (m : Module) (ctx : Context) : Option Context :=
  let ctx := (ctx.log (.enter .denied)).clear
  let ctx :=
    match ctx.Config with
    | some ev => if ev.Denied.isSome then ctx.next [ev.Denied.map Fn.user] else ctx
    | none => ctx
  let ctx := ctx.next (asFuncs m.deniedHandlers)
  K ctx

def Context.Found (K : Run) (m : Module) (ctx : Context) : Option Context :=
  Instance.found K m ctx

def Context.Error (K : Run) (m : Module) (res : Option Res) (ctx : Context) :
    Option Context :=
  Instance.error K m (ctx.Result res)

def Context.Failed (K : Run) (m : Module) (res : Option Res) (ctx : Context) :
    Option Context :=
  Instance.failed K m (ctx.Result res)

def Context.Denied (K : Run) (m : Module) (res : Option Res) (ctx : Context) :
    Option Context :=
  Instance.denied K m (ctx.Result res)

def Instance.response (K : Run) (m : Module) (ctx : Context) : Option Context :=
  let ctx := (ctx.log (.enter .response)).clear
  let ctx := ctx.next (asFuncs m.responseFilters)
  (K ctx).map Instance.body

def Instance.execute (K : Run) (m : Module) (ctx : Context) : Option Context :=
  let ctx := (ctx.log (.enter .execute)).clear
  let ctx := ctx.next (asFuncs m.executeFilters)
  let ctx :=
    match ctx.Config with
    | some ev =>
      let ctx := if ev.Actions.length > 0 then ctx.next (asFuncs ev.Actions) else ctx
      if ev.Action.isSome then ctx.next [ev.Action.map Fn.user] else ctx
    | none => ctx
  K ctx

def Instance.finding (K : Run) (m : Module) (ctx : Context) : Option Context :=
  let ctx := ctx.log (.enter .finding)
  match ctx.Config with
  | none => Context.Found K m ctx
  | some _ => K ctx

def Instance.authorizing (K : Run) (ctx : Context) : Option Context :=
  K (ctx.log (.enter .authorizing))

/-- The loop `for k, v := range argsValue { ctx.Args[k] = v }`. -/
def mergeArgs (args argsValue : Map) : Map :=
  argsValue.foldl (fun acc kv => GoMap.set acc kv.1 kv.2) args

def Instance.arguing (K : Run) (m : Module) (I : Infra) (ctx : Context) :
    Option Context :=
  let ctx := ctx.log (.enter .arguing)
  match ctx.Config with
  | some ev =>
    match ev.Args with
    | some schema =>
      let out := I.Mapping schema ctx.Value ev.Nullable (some ctx.Meta)
      match out.2 with
      | some res =>
        if res.fail then Context.Failed K m (some res) ctx
        else K { ctx with Args := mergeArgs ctx.Args out.1 }
      | none => K { ctx with Args := mergeArgs ctx.Args out.1 }
    | none => K ctx
  | none => K ctx

def Instance.request (K : Run) (ctx : Context) : Option Context :=
  let ctx := (ctx.log (.enter .request)).clear
  let ctx := ctx.next [some (.method .finding)]
  let ctx := ctx.next [some (.method .authorizing)]
  let ctx := ctx.next [some (.method .arguing)]
  let ctx := ctx.next [some (.method .execute)]
  K ctx

def Instance.serve (K : Run) (m : Module) (ctx : Context) : Option Context :=
  let ctx := (ctx.log (.enter .serve)).clear
  let ctx := ctx.next (asFuncs m.requestFilters)
  let ctx := ctx.next [some (.method .request)]
  match K ctx with
  | none => none
  | some ctx => Instance.response K m ctx

def Instance.open (K : Run) (m : Module) (ctx : Context) : Option Context :=
  let ctx := (ctx.log (.enter .open)).clear
  let ctx := ctx.next (asFuncs m.serveFilters)
  let ctx := ctx.next [some (.method .serve)]
  K ctx

/-- One statement of an application closure. -/
def Op.exec (K : Run) (m : Module) : Op → Context → Option Context
  | .assign a, ctx => some (a.apply ctx)
  | .Next, ctx => K ctx
  | .Found, ctx => Context.Found K m ctx
  | .Error res, ctx => Context.Error K m res ctx
  | .Failed res, ctx => Context.Failed K m res ctx
  | .Denied res, ctx => Context.Denied K m res ctx

/-- The statements of an application closure, in order. -/
def runBody (K : Run) (m : Module) : List Op → Context → Option Context
  | [], ctx => some ctx
  | op :: rest, ctx =>
    match Op.exec K m op ctx with
    | none => none
    | some ctx => runBody K m rest ctx

/-- The call `next(ctx)` of a non-nil `ctxFunc`. -/
def invoke (K : Run) (m : Module) (I : Infra) : Fn → Context → Option Context
  | .method .open, ctx => Instance.open K m ctx
  | .method .serve, ctx => Instance.serve K m ctx
  | .method .request, ctx => Instance.request K ctx
  | .method .execute, ctx => Instance.execute K m ctx
  | .method .response, ctx => Instance.response K m ctx
  | .method .finding, ctx => Instance.finding K m ctx
  | .method .authorizing, ctx => Instance.authorizing K ctx
  | .method .arguing, ctx => Instance.arguing K m I ctx
  | .method .found, ctx => Instance.found K m ctx
  | .method .error, ctx => Instance.error K m ctx
  | .method .failed, ctx => Instance.failed K m ctx
  | .method .denied, ctx => Instance.denied K m ctx
  | .method .body, ctx => some (Instance.body ctx)
  | .user f, ctx => runBody K m f.body (ctx.log (.call f.id))

/-- The method `ctx.Next()`, with a bound on the depth of nested `Next` calls. -/
def Context.Next (m : Module) (I : Infra) : Nat → Context → Option Context
  | 0, _ => none
  | n + 1, ctx =>
    match ctx.nexts[ctx.index]? with
    | none => some ctx
    | some next =>
      let ctx := { ctx with index := ctx.index + 1 }
      match next with
      | some f => invoke (Context.Next m I n) m I f ctx
      | none => Context.Next m I n ctx

/-! ## The default in-process connection -/

/-- What a call that may block on a full channel does: it returns, or it stays
blocked in the send. -/
inductive Outcome (σ : Type) where
  | returned (err : Option Err) (s : σ)
  | blocked
  deriving DecidableEq, Repr

/-- The connection `defaultDriver.Connect` returns (it never fails). -/
def defaultDriver.Connect : defaultConnection :=
  { running := false, events := [], consumers := [], published := [] }

def defaultConnection.Open (c : defaultConnection) : Option Err × defaultConnection :=
  (none, c)

def defaultConnection.Close (c : defaultConnection) : Option Err × defaultConnection :=
  (none, c)

def defaultConnection.Register (c : defaultConnection) (name : String) (_group : String) :
    Option Err × defaultConnection :=
  match GoMap.get c.events name with
  | none => (none, { c with events := GoMap.set c.events name [] })
  | some _ => (none, c)

def defaultConnection.Start (c : defaultConnection) : Option Err × defaultConnection :=
  if c.running then (some .errEventRunning, c)
  else (none, { c with consumers := c.consumers ++ GoMap.keys c.events, running := true })

def defaultConnection.Stop (c : defaultConnection) : Option Err × defaultConnection :=
  if !c.running then (some .errEventNotRunning, c)
  else (none, { c with consumers := [], running := false })

def defaultConnection.Publish (c : defaultConnection) (name : String) (data : Bytes) :
    Outcome defaultConnection :=
  let c := { c with published := c.published ++ [(name, data)] }
  match GoMap.get c.events name with
  | none => .returned none c
  | some queue =>
    if queue.length < 64 then
      .returned none { c with events := GoMap.set c.events name (queue ++ [data]) }
    else .blocked

/-- One receive `data := <-eventCh` of the consumer goroutine of a subject: the
oldest queued message, which the consumer hands to `Instance.Serve`. -/
def defaultConnection.receive (c : defaultConnection) (name : String) :
    Option (Bytes × defaultConnection) :=
  if name ∈ c.consumers then
    match GoMap.get c.events name with
    | some (data :: queue) => some (data, { c with events := GoMap.set c.events name queue })
    | _ => none
  else none

/-! ## Registration and configuration -/

/-- The standard library's `strconv.Atoi` on a 64-bit platform: an optional sign,
then one or more decimal digits, within the range of `int`. -/
def Atoi (s : String) : Option Int :=
  let signed : Bool × List Char :=
    match s.data with
    | '-' :: ds => (true, ds)
    | '+' :: ds => (false, ds)
    | ds => (false, ds)
  if signed.2 = [] ∨ signed.2.all Char.isDigit = false then none
  else
    let n : Int := signed.2.foldl (fun acc c => acc * 10 + ((c.toNat : Int) - 48)) 0
    let v : Int := if signed.1 then -n else n
    if -(2 ^ 63) ≤ v ∧ v < 2 ^ 63 then some v else none

def Module.RegisterConfig (m : Module) (name : String) (cfg : Config) : Except String Module :=
  if m.opened ∨ m.started then .ok m
  else
    let name := if name = "" then DEFAULT else name
    match GoMap.get m.configs name with
    | some _ => .error ("event config already registered: " ++ name)
    | none => .ok { m with configs := GoMap.set m.configs name cfg }

/-- The loop of `RegisterConfigs` over the entries of `configs`; a panic of one
registration ends it. -/
def Module.RegisterConfigs (m : Module) : List (String × Config) → Except String Module
  | [] => .ok m
  | (name, cfg) :: rest =>
    match m.RegisterConfig name cfg with
    | .error e => .error e
    | .ok m => Module.RegisterConfigs m rest

def Module.configure (m : Module) (name : String) (conf : Map) : Module :=
  let cfg : Config :=
    { Driver := DEFAULT, External := false, Codec := GOB, Weight := 1, Prefix := "",
      Setting := [] }
  let cfg :=
    match GoMap.get m.configs name with
    | some existed => existed
    | none => cfg
  let cfg :=
    match GoMap.get conf "driver" with
    | some (.str v) => if v ≠ "" then { cfg with Driver := v } else cfg
    | _ => cfg
  let cfg :=
    match GoMap.get conf "external" with
    | some (.bool v) => { cfg with External := v }
    | _ => cfg
  let cfg :=
    match GoMap.get conf "codec" with
    | some (.str v) => if v ≠ "" then { cfg with Codec := v } else cfg
    | _ => cfg
  let cfg :=
    match GoMap.get conf "prefix" with
    | some (.str v) => { cfg with Prefix := v }
    | _ => cfg
  let cfg :=
    match GoMap.get conf "weight" with
    | some (.int v) => { cfg with Weight := v }
    | some (.int64 v) => { cfg with Weight := v }
    | some (.float64 v) => { cfg with Weight := v }
    | some (.str v) =>
      match Atoi v with
      | some w => { cfg with Weight := w }
      | none => cfg
    | _ => cfg
  let cfg :=
    match GoMap.get conf "setting" with
    | some (.map v) => { cfg with Setting := v }
    | _ => cfg
  { m with configs := GoMap.set m.configs name cfg }

/-- The loop of `Config` over the entries of the `event` section: a nested map
under a key other than `setting` configures the connection of that name, anything
else is collected in `root`.  The keys of a map are distinct, so the order of the
range decides nothing but the order of the entries written. -/
def configureEntries : List (String × Val) → Module → Map → Module × Map
  | [], m, root => (m, root)
  | (key, val) :: rest, m, root =>
    match val with
    | .map conf =>
      if key ≠ "setting" then configureEntries rest (m.configure key conf) root
      else configureEntries rest m (GoMap.set root key val)
    | _ => configureEntries rest m (GoMap.set root key val)

/-- The method `Config`; a nil `event` section has no entries, like an empty
one. -/
def Module.Config (m : Module) (global : Map) : Module :=
  if m.opened ∨ m.started then m
  else
    match GoMap.get global "event" with
    | some (.map cfgMap) =>
      let out := configureEntries cfgMap m []
      if out.2.length > 0 then out.1.configure DEFAULT out.2 else out.1
    | _ => m

/-- Modelled from the spec: a filter is registered by name in the filter map
(`m.filters[name] = filter`); the method itself is not among the sources. -/
def Module.RegisterFilter (m : Module) (name : String) (filter : Filter) : Module :=
  { m with filters := GoMap.set m.filters name filter }

/-! ## Module lifecycle -/

/-- The order in which one run of the program ranges over the filter and handler
maps. -/
structure RangeOrder where
  filters : GoMap Filter → GoMap Filter
  handlers : GoMap Handler → GoMap Handler

/-- A range visits every entry of the map once. -/
def RangeOrder.Valid (o : RangeOrder) : Prop :=
  (∀ fs, (o.filters fs).Perm fs) ∧ (∀ hs, (o.handlers hs).Perm hs)

/-- The body of the config loop of `Setup`. -/
def Config.defaults (cfg : Config) : Config :=
  let cfg := if cfg.Driver = "" then { cfg with Driver := DEFAULT } else cfg
  let cfg := if cfg.Codec = "" then { cfg with Codec := GOB } else cfg
  let cfg := if cfg.Weight = 0 then { cfg with Weight := 1 } else cfg
  cfg

/-- The statement `if h != nil { chain = append(chain, h) }`. -/
def appendHook (chain : List (Option UserFn)) (h : Option UserFn) : List (Option UserFn) :=
  if h.isSome then chain ++ [h] else chain

def Module.Setup (o : RangeOrder) (m : Module) : Module :=
  let configs :=
    if m.configs.length = 0 then
      GoMap.set m.configs DEFAULT
        { Driver := DEFAULT, External := false, Codec := GOB, Weight := 1,
          Prefix := "", Setting := [] }
    else m.configs
  let configs := configs.map (fun e => (e.1, Config.defaults e.2))
  let fs := (o.filters m.filters).map Prod.snd
  let hs := (o.handlers m.handlers).map Prod.snd
  { m with
    configs := configs
    serveFilters := fs.foldl (fun chain f => appendHook chain f.Serve) []
    requestFilters := fs.foldl (fun chain f => appendHook chain f.Request) []
    executeFilters := fs.foldl (fun chain f => appendHook chain f.Execute) []
    responseFilters := fs.foldl (fun chain f => appendHook chain f.Response) []
    foundHandlers := hs.foldl (fun chain h => appendHook chain h.Found) []
    errorHandlers := hs.foldl (fun chain h => appendHook chain h.Error) []
    failedHandlers := hs.foldl (fun chain h => appendHook chain h.Failed) []
    deniedHandlers := hs.foldl (fun chain h => appendHook chain h.Denied) [] }

/-- The event loop of `Open` for one connection: two subjects per matching
event. -/
def registerEvents (name pfx profile : String) :
    List (String × Event) → defaultConnection → Except String defaultConnection
  | [], conn => .ok conn
  | (evName, ev) :: rest, conn =>
    if ev.Connect = "" ∨ ev.Connect = "*" ∨ ev.Connect = name then
      match conn.Register (pfx ++ broadcastSubjectPrefix ++ evName) "" with
      | (some err, _) => .error ("failed to register event broadcast: " ++ err.Error)
      | (none, conn) =>
        match conn.Register (pfx ++ publishSubjectPrefix ++ evName) profile with
        | (some err, _) => .error ("failed to register event: " ++ err.Error)
        | (none, conn) => registerEvents name pfx profile rest conn
    else registerEvents name pfx profile rest conn

/-- The config loop of `Open`, threading the instance map and the local
`weights` map. -/
def openConfigs (m : Module) (profile : String) :
    List (String × Config) → GoMap Instance → GoMap Int →
      Except String (GoMap Instance × GoMap Int)
  | [], instances, weights => .ok (instances, weights)
  | (name, cfg) :: rest, instances, weights =>
    match GoMap.get m.drivers cfg.Driver with
    | none => .error ("missing event driver: " ++ cfg.Driver)
    | some .defaultDriver =>
      let inst : Instance := { conn := none, Name := name, Config := cfg, Setting := cfg.Setting }
      let conn := defaultDriver.Connect
      match conn.Open with
      | (some err, _) => .error ("failed to open event: " ++ err.Error)
      | (none, conn) =>
        match registerEvents name cfg.Prefix profile m.events conn with
        | .error e => .error e
        | .ok conn =>
          let inst := { inst with conn := some conn }
          let instances := GoMap.set instances name inst
          let weights := if cfg.Weight > 0 then GoMap.set weights name cfg.Weight else weights
          openConfigs m profile rest instances weights

def Module.Open (I : Infra) (m : Module) : Except String Module :=
  if m.opened then .ok m
  else
    let profile := if I.Profile = "" then INFRAGO else I.Profile
    match openConfigs m profile m.configs m.instances [] with
    | .error e => .error e
    | .ok (instances, weights) =>
      .ok { m with
            instances := instances
            weights := some weights
            hashring := some { weights := weights }
            opened := true }

/-- The instance loop of `Start`. -/
def startInstances : List (String × Instance) → Except String (GoMap Instance)
  | [] => .ok []
  | (name, inst) :: rest =>
    match inst.conn with
    | none => .error "nil connection"
    | some conn =>
      match conn.Start with
      | (some err, _) => .error ("failed to start event: " ++ err.Error)
      | (none, conn) =>
        match startInstances rest with
        | .error e => .error e
        | .ok rest => .ok ((name, { inst with conn := some conn }) :: rest)

def Module.Start (m : Module) : Except String Module :=
  if m.started then .ok m
  else
    match startInstances m.instances with
    | .error e => .error e
    | .ok instances => .ok { m with instances := instances, started := true }

/-- The instance loop of `Stop`. -/
def stopInstances : List (String × Instance) → Except String (GoMap Instance)
  | [] => .ok []
  | (name, inst) :: rest =>
    match inst.conn with
    | none => .error "nil connection"
    | some conn =>
      match stopInstances rest with
      | .error e => .error e
      | .ok rest => .ok ((name, { inst with conn := some (conn.Stop).2 }) :: rest)

def Module.Stop (m : Module) : Except String Module :=
  if !m.started then .ok m
  else
    match stopInstances m.instances with
    | .error e => .error e
    | .ok instances => .ok { m with instances := instances, started := false }

def Module.Close (m : Module) : Module :=
  if !m.opened then m
  else { m with instances := [], weights := none, hashring := none, opened := false }

/-! ## Publishing -/

def Module.publishMode (I : Infra) (m : Module) (connName mode name : String)
    (values : List (Option Map)) : Outcome Module :=
  if name = "" then .returned (some .errInvalidEvent) m
  else
    let located : Option String :=
      if connName = "" then
        match m.hashring with
        | none => none
        | some ring => some (I.Locate ring name)
      else some connName
    match located with
    | none => .returned (some .errNoConnection) m
    | some connName =>
      match GoMap.get m.instances connName with
      | none => .returned (some .errNoConnection) m
      | some inst =>
        match inst.conn with
        | none => .returned (some .errNoConnection) m
        | some conn =>
          let payload : Map :=
            match values with
            | some p :: _ => p
            | _ => []
          let payload : Map :=
            match GoMap.get m.declares name with
            | some dec =>
              match dec.Args with
              | some schema =>
                let out := I.Mapping schema payload dec.Nullable none
                match out.2 with
                | none => out.1
                | some res => if res.ok then out.1 else payload
              | none => payload
            | none => payload
          let encoded : Except String Bytes :=
            if inst.Config.External then I.MarshalPayload inst.Config.Codec payload
            else
              I.MarshalEnvelope inst.Config.Codec
                { Name := name, Metadata := I.NewMetadata, Payload := some payload }
          match encoded with
          | .error e => .returned (some (.codec e)) m
          | .ok data =>
            match conn.Publish (inst.Config.Prefix ++ mode ++ name) data with
            | .blocked => .blocked
            | .returned err conn =>
              .returned err
                { m with instances := GoMap.set m.instances connName { inst with conn := some conn } }

def Module.publish (I : Infra) (m : Module) (connName name : String)
    (values : List (Option Map)) : Outcome Module :=
  m.publishMode I connName publishSubjectPrefix name values

def Module.broadcast (I : Infra) (m : Module) (connName name : String)
    (values : List (Option Map)) : Outcome Module :=
  m.publishMode I connName broadcastSubjectPrefix name values

def Publish (I : Infra) (module : Module) (name : String) (values : List (Option Map)) :
    Outcome Module :=
  module.publish I "" name values

def PublishTo (I : Infra) (module : Module) (conn name : String)
    (values : List (Option Map)) : Outcome Module :=
  module.publish I conn name values

def Broadcast (I : Infra) (module : Module) (name : String) (values : List (Option Map)) :
    Outcome Module :=
  module.broadcast I "" name values

def BroadcastTo (I : Infra) (module : Module) (conn name : String)
    (values : List (Option Map)) : Outcome Module :=
  module.broadcast I conn name values

/-! ## Receiving -/

/-- The test `len(name) >= len(p) && name[:len(p)] == p`. Strings are sequences of
characters here; on well-formed UTF-8 a lead in bytes is a lead in characters. -/
def hasLead (p name : String) : Bool :=
  p.data.isPrefixOf name.data

/-- The slice `name[len(p):]`. -/
def dropLead (p name : String) : String :=
  ⟨name.data.drop p.data.length⟩

/-- The event name `serving` recovers from a subject. -/
def recoverName (cfg : Config) (name : String) : String :=
  let name := if cfg.Prefix ≠ "" ∧ hasLead cfg.Prefix name then dropLead cfg.Prefix name else name
  if hasLead broadcastSubjectPrefix name then dropLead broadcastSubjectPrefix name
  else if hasLead publishSubjectPrefix name then dropLead publishSubjectPrefix name
  else name

/-- The context `serving` builds before it starts the dispatch. -/
def Instance.newContext (I : Infra) (m : Module) (inst : Instance) (name : String)
    (data : Bytes) : Context :=
  let name := recoverName inst.Config name
  let ctx : Context :=
    { index := 0, nexts := [], Name := "", Config := none, Setting := [], Value := [],
      Args := [], Locals := [], Body := .null, Meta := I.NewMetadata, result := none,
      trace := [] }
  let ctx :=
    match GoMap.get m.events name with
    | some cfg => { ctx with Name := name, Config := some cfg, Setting := cfg.Setting }
    | none => ctx
  if inst.Config.External then
    match I.UnmarshalPayload inst.Config.Codec data with
    | some payload => { ctx with Value := payload }
    | none => ctx
  else
    match I.UnmarshalEnvelope inst.Config.Codec data with
    | some env =>
      let ctx := { ctx with Meta := env.Metadata }
      let ctx :=
        match env.Payload with
        | some payload => { ctx with Value := payload }
        | none => ctx
      if env.Name ≠ "" then { ctx with Name := env.Name } else ctx
    | none => ctx

/-- The method `serving`, run with depth bound `n`; the tracing span around the
dispatch is not part of the model. -/
def Instance.serving (I : Infra) (m : Module) (n : Nat) (inst : Instance) (name : String)
    (data : Bytes) : Option Context :=
  Instance.open (Context.Next m I n) m (Instance.newContext I m inst name data)

/-! ## Classes of application closures -/

/-- The statement calls one of the terminal outcomes. -/
def Op.isTerminal : Op → Bool
  | .Found => true
  | .Error _ => true
  | .Failed _ => true
  | .Denied _ => true
  | _ => false

/-- A closure that calls no terminal outcome (it may assign, and call `Next` any
number of times). -/
def UserFn.quiet (f : UserFn) : Bool :=
  f.body.all fun op => !op.isTerminal

/-- A chain all of whose closures call no terminal outcome. -/
def quietChain (fs : List (Option UserFn)) : Bool :=
  fs.all fun x =>
    match x with
    | some f => f.quiet
    | none => true

/-- A run of assignments. -/
def applyAssigns (as : List Assign) (ctx : Context) : Context :=
  as.foldl (fun c a => a.apply c) ctx

/-- One way of running `Next` completes wherever the other does, with the same
result. -/
def Run.le (K K' : Run) : Prop :=
  ∀ c c', K c = some c' → K' c = some c'

/-- The trace of the second context extends the trace of the first. -/
def Context.Extends (c c' : Context) : Prop :=
  ∃ t, c'.trace = c.trace ++ t

/-! ## Chains, traces and module states -/

/-- The context at which a terminal outcome starts its chain: the trace entry of
the method, cursor zero, and the event's hook (when there is one) followed by the
module-wide handlers as the queue. -/
def chainStart (x : Method) (hook : Option UserFn) (handlers : List (Option UserFn))
    (ctx : Context) : Context :=
  { ctx with
    index := 0
    nexts := (hook.toList.map fun h => some (Fn.user h)) ++ asFuncs handlers
    trace := ctx.trace ++ [Ev.enter x] }

/-- Trace entries of terminal chains: a closure call, or the entry of one of
`found`, `error`, `failed`, `denied`. -/
def Ev.isHandler : Ev → Bool
  | .call _ => true
  | .enter .found => true
  | .enter .error => true
  | .enter .failed => true
  | .enter .denied => true
  | _ => false

/-- No bound method of the instance is queued. -/
def userOnly (l : List ctxFunc) : Prop :=
  ∀ x ∈ l, ∀ y, x ≠ some (Fn.method y)

/-- Every subject of every connection is the broadcast or publish subject of a
declared event under the lead of the connection's config: what `Open` registers,
and what publishing keeps. -/
def Module.SubjectsDeclared (m : Module) : Prop :=
  ∀ k inst conn, GoMap.get m.instances k = some inst → inst.conn = some conn →
    ∀ x, x ∈ GoMap.keys conn.events → ∃ ev, ev ∈ GoMap.keys m.events ∧
      (x = inst.Config.Prefix ++ broadcastSubjectPrefix ++ ev ∨
        x = inst.Config.Prefix ++ publishSubjectPrefix ++ ev)

/-! ## Bounds and states used to show that a dispatch completes -/

/-- The hooks of an event and the module-wide handlers call no terminal outcome
themselves. -/
def quietTerminals (m : Module) (C : Option Event) : Bool :=
  quietChain m.foundHandlers && quietChain m.errorHandlers && quietChain m.failedHandlers
    && quietChain m.deniedHandlers
    && match C with
      | some ev => quietChain [ev.Found, ev.Error, ev.Failed, ev.Denied]
      | none => true

/-- A bound on the length of every terminal chain. -/
def handlersBound (m : Module) : Nat :=
  m.foundHandlers.length + m.errorHandlers.length + m.failedHandlers.length
    + m.deniedHandlers.length + 1

/-- A bound on the length of every chain of closures a dispatch installs: a terminal
chain, the execute chain, the response chain. -/
def chainBound (m : Module) (C : Option Event) : Nat :=
  handlersBound m + m.responseFilters.length + m.executeFilters.length
    + match C with
      | some ev => ev.Actions.length + 1
      | none => 0

/-- A depth within which every dispatch of a module with quiet terminal chains
completes. -/
def depthBound (m : Module) (C : Option Event) : Nat :=
  m.serveFilters.length + m.requestFilters.length + chainBound m C + handlersBound m + 12

/-- A context on a terminal chain: closures that call no terminal outcome. -/
def Context.OnHandlers (m : Module) (C : Option Event) (c : Context) : Prop :=
  c.Config = C ∧ (∀ x ∈ c.nexts, x = none ∨ ∃ f, x = some (Fn.user f) ∧ f.quiet = true) ∧
    c.nexts.length ≤ handlersBound m

/-- A context on a chain of closures only. -/
def Context.OnClosures (m : Module) (C : Option Event) (c : Context) : Prop :=
  c.Config = C ∧ userOnly c.nexts ∧ c.nexts.length ≤ chainBound m C

/-! ## Concrete modules on which the model is evaluated -/

/-- The package variable `module` once `default.go` has registered the default
driver: every registry empty, nothing opened. -/
def Module.initial : Module :=
  { opened := false, started := false, configs := [],
    drivers := [(DEFAULT, .defaultDriver)], events := [], declares := [],
    filters := [], handlers := [],
    serveFilters := [], requestFilters := [], executeFilters := [], responseFilters := [],
    foundHandlers := [], errorHandlers := [], failedHandlers := [], deniedHandlers := [],
    instances := [], weights := none, hashring := none }

/-- Collaborators for evaluation: the mapping copies its input, the codec encodes
everything as the empty byte string and decodes nothing, and the ring answers the
last name of its table. -/
def sampleInfra : Infra :=
  { Mapping := fun _ input _ _ => (input, none)
    MarshalPayload := fun _ _ => .ok []
    MarshalEnvelope := fun _ _ => .ok []
    UnmarshalPayload := fun _ _ => none
    UnmarshalEnvelope := fun _ _ => none
    Locate := fun ring _ => (ring.weights.getLast?.map Prod.fst).getD ""
    NewMetadata := []
    Profile := "" }

/-- Ranging over the filter and handler maps in list order. -/
def listOrder : RangeOrder :=
  { filters := id, handlers := id }

/-- A config that only sets a weight. -/
def weighted (w : Int) : Config :=
  { Driver := "", External := false, Codec := "", Weight := w, Prefix := "", Setting := [] }

/-- Connections "a" (weight 1) and "b" (weight 0). -/
def weightZeroModule : Module :=
  { Module.initial with configs := [("a", weighted 1), ("b", weighted 0)] }

/-- Connections "a" (weight 1) and "b" (weight -1). -/
def weightNegativeModule : Module :=
  { Module.initial with configs := [("a", weighted 1), ("b", weighted (-1))] }

/-- The module after `Open` and `Start`, when neither panics. -/
def openedAndStarted (I : Infra) (m : Module) : Option Module :=
  match Module.Open I m with
  | .ok m1 =>
    match Module.Start m1 with
    | .ok m2 => some m2
    | .error _ => none
  | .error _ => none

/-- An event without schema, actions or hooks. -/
def plainEvent : Event :=
  { Connect := "", Args := none, Nullable := false, Setting := [], Actions := [],
    Action := none, Found := none, Error := none, Failed := none, Denied := none }

/-- One connection "c1", one declared event "user.created", one found handler. -/
def oneEventModule : Module :=
  { Module.initial with
    configs := [("c1", { weighted 1 with Driver := DEFAULT, Codec := GOB })]
    events := [("user.created", plainEvent)]
    foundHandlers := [some { id := 1, body := [] }] }

/-- The module `oneEventModule` with a pass-through serve filter, request filter
and response filter. -/
def passThroughModule : Module :=
  { oneEventModule with
    serveFilters := [some { id := 10, body := [.Next] }]
    requestFilters := [some { id := 11, body := [.assign (.Locals "seen" (.bool true)), .Next] }]
    responseFilters := [some { id := 12, body := [.Next] }] }

/-- The module `passThroughModule` with a found handler that reports an error. -/
def foundRaisesModule : Module :=
  { passThroughModule with
    foundHandlers := [some { id := 1, body := [.Error (some { code := 404, ok := false, fail := true })] }] }

/-- The instance `Open` creates for connection "c1" of `oneEventModule`, before
its connection is set. -/
def sampleInstance : Instance :=
  { conn := none, Name := "c1", Config := { weighted 1 with Driver := DEFAULT, Codec := GOB },
    Setting := [] }

/-- Collaborators whose mapping always fails. -/
def failingInfra : Infra :=
  { sampleInfra with
    Mapping := fun _ _ _ _ => ([("id", .int 1)], some { code := 400, ok := false, fail := true }) }

/-- One connection "c1" and one event "user.created" with an argument schema, two
actions and a failed hook; one execute filter and one module-wide failed handler. -/
def schemaModule : Module :=
  { oneEventModule with
    events :=
      [("user.created",
        { plainEvent with
          Args := some [("id", "int"), ("name", "string")]
          Actions := [some { id := 20, body := [.Next] }]
          Action := some { id := 21, body := [] }
          Failed := some { id := 22, body := [.Next] } })]
    executeFilters := [some { id := 23, body := [.Next] }]
    failedHandlers := [some { id := 24, body := [] }] }

/-- The module `passThroughModule` with a second request filter, which returns
without calling `Next`, and a third one behind it. -/
def requestStopsModule : Module :=
  { passThroughModule with
    requestFilters :=
      [some { id := 11, body := [.Next] },
       some { id := 13, body := [.assign (.Locals "stopped" (.bool true))] },
       some { id := 14, body := [.Next] }] }

/-- The module `schemaModule` with a request filter that denies every message. -/
def denyingModule : Module :=
  { schemaModule with
    requestFilters :=
      [some { id := 30, body := [.Denied (some { code := 403, ok := false, fail := true })] }]
    deniedHandlers := [some { id := 31, body := [] }] }

/-- Registers the subjects on a connection, in order. -/
def defaultConnection.registerAll (c : defaultConnection) :
    List (String × String) → defaultConnection
  | [] => c
  | (name, group) :: rest => defaultConnection.registerAll (c.Register name group).2 rest

/-- The non-nil hooks of one kind of the filters of a map, in the order of the
entries listed. -/
def hooksOf (kind : Filter → Option UserFn) (fs : GoMap Filter) : List (Option UserFn) :=
  (fs.map fun e => kind e.2).filter Option.isSome

/-- Ranging over the filter and handler maps from the last entry written to the
first. -/
def reverseOrder : RangeOrder :=
  { filters := List.reverse, handlers := List.reverse }

/-- A filter that only has a serve hook, the closure `id`. -/
def serveOnly (id : Nat) : Filter :=
  { Serve := some { id := id, body := [.Next] }, Request := none, Execute := none,
    Response := none }

/-- The initial module after filter "a" and then filter "b" are registered. -/
def twoFiltersModule : Module :=
  (Module.initial.RegisterFilter "a" (serveOnly 1)).RegisterFilter "b" (serveOnly 2)

/-- The config `Setup` creates when none is registered. -/
def defaultConfig : Config :=
  { Driver := DEFAULT, External := false, Codec := GOB, Weight := 1, Prefix := "",
    Setting := [] }

/-- The module `oneEventModule` once opened. -/
def frozenModule : Module :=
  { oneEventModule with opened := true }

/-- A settings tree with a section for connection "c2" and a root weight. -/
def sampleGlobal : Map :=
  [("event", .map [("c2", .map [("driver", .str "default"), ("weight", .str "3")]),
                   ("weight", .int 2)])]

/-- The connection name `publishMode` resolves: the one given, or the one the ring
locates for the event name. -/
def Module.resolve (I : Infra) (m : Module) (connName name : String) : Option String :=
  if connName = "" then
    match m.hashring with
    | none => none
    | some ring => some (I.Locate ring name)
  else some connName

/-- The payload `publishMode` takes from its arguments: the first value when it is
a non-nil map, else an empty map. -/
def firstPayload (values : List (Option Map)) : Map :=
  match values with
  | some p :: _ => p
  | _ => []

/-- The bytes `publishMode` sends for a payload: the bare payload on an external
connection, else the envelope around it. -/
def Instance.encode (I : Infra) (inst : Instance) (name : String) (payload : Map) :
    Except String Bytes :=
  if inst.Config.External then I.MarshalPayload inst.Config.Codec payload
  else
    I.MarshalEnvelope inst.Config.Codec
      { Name := name, Metadata := I.NewMetadata, Payload := some payload }

/-- The end of `publishMode`: encode the payload and publish it on the subject of
the event. -/
def Module.sendPayload (I : Infra) (m : Module) (connName : String) (inst : Instance)
    (conn : defaultConnection) (mode name : String) (payload : Map) : Outcome Module :=
  match Instance.encode I inst name payload with
  | .error e => .returned (some (.codec e)) m
  | .ok data =>
    match conn.Publish (inst.Config.Prefix ++ mode ++ name) data with
    | .blocked => .blocked
    | .returned err conn =>
      .returned err
        { m with instances := GoMap.set m.instances connName { inst with conn := some conn } }

/-- The module `oneEventModule` with a schema declared for "user.created", after
Open. -/
def declaredModule : Module :=
  (Module.Open sampleInfra
    { oneEventModule with
      declares := [("user.created", { Args := some [("id", "int")], Nullable := false })] }
    ).toOption.getD Module.initial

/-- One step of a run of a default connection: a `Publish` that returns, or one
receive of the consumer goroutine of a subject, which hands the message to
`Instance.Serve`. -/
inductive Step where
  | publish (name : String) (data : Bytes)
  | receive (name : String)
  deriving DecidableEq, Repr

/-- Runs the steps in the order in which they happen, starting from the messages
`served` so far; the answer is the connection and the messages handed to `Serve`,
oldest first.  `none` when a step cannot happen where it stands: a send into a full
queue has not returned, and a consumer that finds no message hands over nothing. -/
def defaultConnection.run :
    List Step → defaultConnection → List (String × Bytes) →
      Option (defaultConnection × List (String × Bytes))
  | [], c, served => some (c, served)
  | .publish name data :: rest, c, served =>
    match c.Publish name data with
    | .returned _ c => defaultConnection.run rest c served
    | .blocked => none
  | .receive name :: rest, c, served =>
    match c.receive name with
    | some (data, c) => defaultConnection.run rest c (served ++ [(name, data)])
    | none => none

/-- The payloads the steps send on a subject, in the order of the sends. -/
def sentTo (name : String) : List Step → List Bytes
  | [] => []
  | .publish n data :: rest => if n = name then data :: sentTo name rest else sentTo name rest
  | .receive _ :: rest => sentTo name rest

/-- The payloads of a subject among the messages handed to `Serve`, in the order
in which they were handed over. -/
def servedOf (name : String) (served : List (String × Bytes)) : List Bytes :=
  (served.filter fun e => e.1 = name).map Prod.snd

/-- The schedule can happen on a subject whose queue holds `len` messages: every
step is on the subject, each send finds room in the queue (it returns) and each
receive finds a message (the consumer has something to hand over). -/
def feasible (name : String) : Nat → List Step → Bool
  | _, [] => true
  | len, .publish n _ :: rest => decide (n = name) && decide (len < 64) && feasible name (len + 1) rest
  | len, .receive n :: rest => decide (n = name) && decide (0 < len) && feasible name (len - 1) rest

/-- The number of receives among the steps. -/
def receives : List Step → Nat
  | [] => 0
  | .publish _ _ :: rest => receives rest
  | .receive _ :: rest => receives rest + 1

/-- A connection on which the subject "publish.user.created" is registered, with
one message queued, before `Start`. -/
def registeredConnection : defaultConnection :=
  { running := false, events := [("publish.user.created", [[0]])],
    consumers := [], published := [] }

/-- The cursor invariant of a context: `0 <= index <= len(nexts)`. -/
def Context.CursorOk (c : Context) : Prop :=
  c.index ≤ c.nexts.length

/-- The trace entry a queued continuation writes when it is invoked. -/
def Fn.event : Fn → Ev
  | .method x => .enter x
  | .user f => .call f.id

/-- The trace entry marks a call of `clear`: it is the entry of one of the methods
that reset the chain before they install their own. -/
def Ev.clears : Ev → Bool
  | .enter .open => true
  | .enter .serve => true
  | .enter .request => true
  | .enter .execute => true
  | .enter .response => true
  | .enter .found => true
  | .enter .error => true
  | .enter .failed => true
  | .enter .denied => true
  | _ => false

/-- The trace entries of the slots at the positions from `i` up to, not including,
`j`, in the order of the positions; a nil slot writes none. -/
def slotEvents (nexts : List ctxFunc) (i j : Nat) : List Ev :=
  ((nexts.drop i).take (j - i)).filterMap (Option.map Fn.event)

/-- A context with three queued closures; the first calls `Next` twice. -/
def twiceContext : Context :=
  { index := 0
    nexts := [some (.user { id := 1, body := [.Next, .Next] }),
              some (.user { id := 2, body := [] }),
              some (.user { id := 3, body := [] })]
    Name := "", Config := none, Setting := [], Value := [], Args := [], Locals := [],
    Body := .null, Meta := [], result := none, trace := [] }

/-- The statements start with assignments followed by `ctx.Next()`: `Next` is called
before any terminal outcome. -/
def callsNextFirst : List Op → Bool
  | .assign _ :: rest => callsNextFirst rest
  | .Next :: _ => true
  | _ => false

/-- A closure that calls `Next` before it calls any terminal outcome; what it does
after that call is not restricted. -/
def UserFn.callsNextFirst (f : UserFn) : Bool :=
  Bus.callsNextFirst f.body

/-- Trace entries of a dispatch that goes to the found chain and to nothing else:
calls of closures and the entries of `open`, `serve`, `request`, `finding`, `found`,
`response` and `body`. -/
def Ev.onFoundPath : Ev → Bool
  | .call _ => true
  | .enter .open => true
  | .enter .serve => true
  | .enter .request => true
  | .enter .finding => true
  | .enter .found => true
  | .enter .response => true
  | .enter .body => true
  | _ => false

/-- The second context continues the first on the way to the found chain: its
trace adds only entries of that way. -/
def Context.FoundPath (c c' : Context) : Prop :=
  ∃ t, c'.trace = c.trace ++ t ∧ ∀ e ∈ t, Ev.onFoundPath e = true

/-- The module `passThroughModule` with a request filter that calls `Next` and then
`Denied`. -/
def requestDeniesAfterModule : Module :=
  { passThroughModule with
    requestFilters :=
      [some { id := 11, body := [.Next, .Denied (some { code := 403, ok := false, fail := true })] }] }

/-- The module `passThroughModule` with a response filter that calls `Failed`. -/
def responseFailsModule : Module :=
  { passThroughModule with
    responseFilters :=
      [some { id := 12, body := [.Failed (some { code := 500, ok := false, fail := true })] }] }

/-- The module `passThroughModule` with a serve filter and a request filter that
call `Next` twice. -/
def nextTwiceModule : Module :=
  { passThroughModule with
    serveFilters := [some { id := 10, body := [.Next, .Next] }]
    requestFilters :=
      [some { id := 11, body := [.assign (.Locals "seen" (.bool true)), .Next,
                                 .assign (.Locals "back" (.bool true)), .Next] }] }

/-- The statement calls one of `Error`, `Failed`, `Denied`. -/
def Op.raises : Op → Bool
  | .Error _ => true
  | .Failed _ => true
  | .Denied _ => true
  | _ => false

/-- A closure that calls none of `Error`, `Failed` and `Denied`; it may assign, call
`Next` and call `Found`, any number of times. -/
def UserFn.mild (f : UserFn) : Bool :=
  f.body.all fun op => !op.raises

/-- A chain all of whose closures call none of `Error`, `Failed` and `Denied`. -/
def mildChain (fs : List (Option UserFn)) : Bool :=
  fs.all fun x =>
    match x with
    | some f => f.mild
    | none => true

/-- The serve filters, request filters, found handlers and response filters of the
module call none of `Error`, `Failed` and `Denied`. -/
def Module.mildChains (m : Module) : Bool :=
  mildChain m.serveFilters && mildChain m.requestFilters && mildChain m.foundHandlers
    && mildChain m.responseFilters

/-- A context without event whose queue holds only closures that call none of
`Error`, `Failed`, `Denied`, and the methods `serve` and `request`. -/
def Context.Mild (c : Context) : Prop :=
  c.Config = none ∧
    ∀ x ∈ c.nexts, x = none ∨ (∃ f, x = some (Fn.user f) ∧ f.mild = true) ∨
      x = some (Fn.method Method.serve) ∨ x = some (Fn.method Method.request)

/-- A context without event at the start of the chain `request` installs. -/
def Context.AtRequestChain (c : Context) : Prop :=
  c.Config = none ∧ c.index = 0 ∧
    c.nexts = [some (Fn.method Method.finding), some (Fn.method Method.authorizing),
      some (Fn.method Method.arguing), some (Fn.method Method.execute)]

/-- The module `passThroughModule` with a serve filter that calls `Next` twice and
a request filter that calls `Next` and then `Found`. -/
def nextThenFoundModule : Module :=
  { passThroughModule with
    serveFilters := [some { id := 10, body := [.Next, .Next] }]
    requestFilters := [some { id := 11, body := [.Next, .Found] }] }

/-- The module `passThroughModule` with a serve filter that calls `Next` and then
`Error`. -/
def serveErrorsAfterModule : Module :=
  { passThroughModule with
    serveFilters :=
      [some { id := 10, body := [.Next, .Error (some { code := 500, ok := false, fail := true })] }] }

/-- The module with its error, failed and denied handlers taken out. -/
def Module.withoutRaised (m : Module) : Module :=
  { m with errorHandlers := [], failedHandlers := [], deniedHandlers := [] }

/-! # Properties -/

/-! ### Association lists -/

theorem GoMap.get_set_self {α : Type} (m : GoMap α) (k : String) (v : α) :
    GoMap.get (GoMap.set m k v) k = some v := by
  induction m with
  | nil => simp [GoMap.set, GoMap.get]
  | cons e rest ih =>
    obtain ⟨k', v'⟩ := e
    by_cases h : k' = k
    · simp [GoMap.set, GoMap.get, h]
    · simp [GoMap.set, GoMap.get, h, ih]

theorem GoMap.get_set_ne {α : Type} (m : GoMap α) (k k' : String) (v : α) (h : k ≠ k') :
    GoMap.get (GoMap.set m k v) k' = GoMap.get m k' := by
  induction m with
  | nil => simp [GoMap.set, GoMap.get, h]
  | cons e rest ih =>
    obtain ⟨k0, v0⟩ := e
    by_cases h0 : k0 = k
    · subst h0
      simp [GoMap.set, GoMap.get, h]
    · by_cases h1 : k0 = k'
      · subst h1
        simp [GoMap.set, GoMap.get, h0]
      · simp [GoMap.set, GoMap.get, h0, h1, ih]

theorem GoMap.get_eq_none_iff {α : Type} (m : GoMap α) (k : String) :
    GoMap.get m k = none ↔ k ∉ GoMap.keys m := by
  induction m with
  | nil => simp [GoMap.get, GoMap.keys]
  | cons e rest ih =>
    obtain ⟨k0, v0⟩ := e
    by_cases h0 : k0 = k
    · simp [GoMap.get, GoMap.keys, h0]
    · have h1 : ¬ k = k0 := fun h => h0 h.symm
      simpa [GoMap.get, GoMap.keys, h0, h1] using ih

theorem GoMap.mem_keys_set {α : Type} (m : GoMap α) (k x : String) (v : α) :
    x ∈ GoMap.keys (GoMap.set m k v) ↔ x = k ∨ x ∈ GoMap.keys m := by
  induction m with
  | nil => simp [GoMap.set, GoMap.keys]
  | cons e rest ih =>
    obtain ⟨k0, v0⟩ := e
    by_cases h0 : k0 = k
    · subst h0
      simp [GoMap.set, GoMap.keys]
    · have ih' : x ∈ List.map Prod.fst (GoMap.set rest k v) ↔ x = k ∨ x ∈ List.map Prod.fst rest := ih
      simp only [GoMap.set, GoMap.keys, h0, if_false, List.map_cons, List.mem_cons, ih']
      tauto

theorem GoMap.get_map_values {α β : Type} (f : α → β) (m : GoMap α) (k : String) :
    GoMap.get (m.map fun e => (e.1, f e.2)) k = (GoMap.get m k).map f := by
  induction m with
  | nil => simp [GoMap.get]
  | cons e rest ih =>
    obtain ⟨k0, v0⟩ := e
    by_cases h0 : k0 = k
    · simp [GoMap.get, h0]
    · simpa [GoMap.get, h0] using ih

theorem GoMap.mem_of_get {α : Type} (m : GoMap α) (k : String) (v : α)
    (h : GoMap.get m k = some v) : (k, v) ∈ m := by
  induction m with
  | nil => simp [GoMap.get] at h
  | cons e rest ih =>
    obtain ⟨k0, v0⟩ := e
    by_cases h0 : k0 = k
    · simp [GoMap.get, h0] at h
      simp [h0, h]
    · simp [GoMap.get, h0] at h
      exact List.mem_cons_of_mem _ (ih h)

theorem GoMap.get_of_mem_nodup {α : Type} (m : GoMap α) (k : String) (v : α)
    (hn : (GoMap.keys m).Nodup) (h : (k, v) ∈ m) : GoMap.get m k = some v := by
  induction m with
  | nil => simp at h
  | cons e rest ih =>
    obtain ⟨k0, v0⟩ := e
    simp only [GoMap.keys, List.map_cons, List.nodup_cons] at hn
    rcases List.mem_cons.mp h with h1 | h1
    · cases h1
      simp [GoMap.get]
    · have hk : k ∈ List.map Prod.fst rest := List.mem_map.mpr ⟨(k, v), h1, rfl⟩
      have h0 : k0 ≠ k := fun hh => hn.1 (hh ▸ hk)
      simpa [GoMap.get, h0] using ih hn.2 h1

theorem GoMap.keys_set_of_get {α : Type} (m : GoMap α) (k : String) (v v' : α)
    (h : GoMap.get m k = some v) : GoMap.keys (GoMap.set m k v') = GoMap.keys m := by
  induction m with
  | nil => simp [GoMap.get] at h
  | cons e rest ih =>
    obtain ⟨k0, v0⟩ := e
    by_cases h0 : k0 = k
    · simp [GoMap.set, GoMap.keys, h0]
    · simp only [GoMap.get, h0, if_false] at h
      have := ih h
      simp only [GoMap.keys] at this
      simp [GoMap.set, GoMap.keys, h0, this]

/-! ### Setup and Open -/

theorem Config.defaults_weight_of_ne_zero (cfg : Config) (h : cfg.Weight ≠ 0) :
    (Config.defaults cfg).Weight = cfg.Weight := by
  unfold Config.defaults
  by_cases h1 : cfg.Driver = "" <;> by_cases h2 : cfg.Codec = "" <;> simp [h1, h2, h]

theorem Module.Setup_configs_get (o : RangeOrder) (m : Module) (name : String) (cfg : Bus.Config)
    (h : GoMap.get m.configs name = some cfg) :
    GoMap.get (Module.Setup o m).configs name = some (Config.defaults cfg) := by
  have hne : m.configs.length ≠ 0 := by
    intro h0
    have : m.configs = [] := List.length_eq_zero.mp h0
    rw [this] at h
    simp [GoMap.get] at h
  simp only [Module.Setup, hne, if_false]
  rw [GoMap.get_map_values, h]
  rfl

theorem Module.Setup_configs_keys (o : RangeOrder) (m : Module)
    (hne : m.configs ≠ []) :
    GoMap.keys (Module.Setup o m).configs = GoMap.keys m.configs := by
  have hne' : m.configs.length ≠ 0 := by
    intro h0
    exact hne (List.length_eq_zero.mp h0)
  simp only [Module.Setup, hne', if_false, GoMap.keys, List.map_map]
  rfl

/-- The weights table `openConfigs` builds holds a name only if it held it before
or some visited config of that name has a positive weight. -/
theorem openConfigs_weights_mem (m : Module) (profile name : String) :
    ∀ (cfgs : List (String × Config)) (i : GoMap Instance) (w : GoMap Int)
      (i' : GoMap Instance) (w' : GoMap Int),
      openConfigs m profile cfgs i w = .ok (i', w') →
      name ∈ GoMap.keys w' →
      name ∈ GoMap.keys w ∨ ∃ c, (name, c) ∈ cfgs ∧ 0 < c.Weight := by
  intro cfgs
  induction cfgs with
  | nil =>
    intro i w i' w' h hmem
    simp [openConfigs] at h
    rw [h.2]
    exact Or.inl hmem
  | cons e rest ih =>
    intro i w i' w' h hmem
    obtain ⟨k, c⟩ := e
    unfold openConfigs at h
    cases hd : GoMap.get m.drivers c.Driver with
    | none => simp [hd] at h
    | some d =>
      cases d
      simp only [hd, defaultConnection.Open] at h
      cases hr : registerEvents k c.Prefix profile m.events defaultDriver.Connect with
      | error e => simp [hr] at h
      | ok conn =>
        simp only [hr] at h
        rcases ih _ _ _ _ h hmem with h1 | ⟨c', hc', hpos⟩
        · by_cases hw : c.Weight > 0
          · simp only [hw, if_true] at h1
            rcases (GoMap.mem_keys_set _ _ _ _).mp h1 with h2 | h2
            · right
              exact ⟨c, by simp [h2], hw⟩
            · exact Or.inl h2
          · simp only [hw, if_false] at h1
            exact Or.inl h1
        · right
          exact ⟨c', List.mem_cons_of_mem _ hc', hpos⟩

/-- What `openConfigs` leaves in the instance map: the instances of names it did
not visit are untouched, and a visited name holds an instance of that name, with
a connection obtained by registering the module's events on a fresh default
connection under the instance's own config. -/
theorem openConfigs_instances (m : Module) (profile : String) :
    ∀ (cfgs : List (String × Config)) (i : GoMap Instance) (w : GoMap Int)
      (i' : GoMap Instance) (w' : GoMap Int),
      openConfigs m profile cfgs i w = .ok (i', w') →
      ∀ name,
        (name ∉ GoMap.keys cfgs → GoMap.get i' name = GoMap.get i name) ∧
        (name ∈ GoMap.keys cfgs → ∃ inst conn, GoMap.get i' name = some inst ∧
          inst.conn = some conn ∧ inst.Name = name ∧ (name, inst.Config) ∈ cfgs ∧
          registerEvents name inst.Config.Prefix profile m.events defaultDriver.Connect
            = .ok conn) := by
  intro cfgs
  induction cfgs with
  | nil =>
    intro i w i' w' h name
    simp [openConfigs] at h
    simp [GoMap.keys, h.1]
  | cons e rest ih =>
    intro i w i' w' h name
    obtain ⟨k, c⟩ := e
    unfold openConfigs at h
    cases hd : GoMap.get m.drivers c.Driver with
    | none => simp [hd] at h
    | some d =>
      cases d
      simp only [hd, defaultConnection.Open] at h
      cases hr : registerEvents k c.Prefix profile m.events defaultDriver.Connect with
      | error e => simp [hr] at h
      | ok conn =>
        simp only [hr] at h
        have hrest := ih _ _ _ _ h name
        constructor
        · intro hn
          have hn' : name ≠ k ∧ name ∉ GoMap.keys rest := by
            simpa [GoMap.keys] using hn
          rw [hrest.1 hn'.2]
          exact GoMap.get_set_ne _ _ _ _ (fun hh => hn'.1 hh.symm)
        · intro hn
          by_cases hin : name ∈ GoMap.keys rest
          · obtain ⟨inst, conn', h1, h2, h3, h4, h5⟩ := hrest.2 hin
            exact ⟨inst, conn', h1, h2, h3, List.mem_cons_of_mem _ h4, h5⟩
          · have hk : name = k := by
              have : name = k ∨ name ∈ GoMap.keys rest := by simpa [GoMap.keys] using hn
              rcases this with h1 | h1
              · exact h1
              · exact absurd h1 hin
            subst hk
            refine ⟨{ conn := some conn, Name := name, Config := c, Setting := c.Setting },
              conn, ?_, rfl, rfl, ?_, hr⟩
            · rw [hrest.1 hin]
              exact GoMap.get_set_self _ _ _
            · simp

/-- With distinct config names, the weights table `openConfigs` builds maps a
visited name to its config weight when that is positive and leaves it as it was
otherwise; names it did not visit are untouched. -/
theorem openConfigs_weights_get (m : Module) (profile : String) :
    ∀ (cfgs : List (String × Config)) (i : GoMap Instance) (w : GoMap Int)
      (i' : GoMap Instance) (w' : GoMap Int),
      openConfigs m profile cfgs i w = .ok (i', w') → (GoMap.keys cfgs).Nodup →
      ∀ name,
        (name ∉ GoMap.keys cfgs → GoMap.get w' name = GoMap.get w name) ∧
        (∀ c, (name, c) ∈ cfgs →
          GoMap.get w' name = if c.Weight > 0 then some c.Weight else GoMap.get w name) := by
  intro cfgs
  induction cfgs with
  | nil =>
    intro i w i' w' h _ name
    simp [openConfigs] at h
    simp [h.2]
  | cons e rest ih =>
    intro i w i' w' h hnd name
    obtain ⟨k, c⟩ := e
    simp only [GoMap.keys, List.map_cons, List.nodup_cons] at hnd
    unfold openConfigs at h
    cases hd : GoMap.get m.drivers c.Driver with
    | none => simp [hd] at h
    | some d =>
      cases d
      simp only [hd, defaultConnection.Open] at h
      cases hr : registerEvents k c.Prefix profile m.events defaultDriver.Connect with
      | error e => simp [hr] at h
      | ok conn =>
        simp only [hr] at h
        obtain ⟨ih1, ih2⟩ := ih _ _ _ _ h hnd.2 name
        have hstep : name ≠ k →
            GoMap.get (if c.Weight > 0 then GoMap.set w k c.Weight else w) name
              = GoMap.get w name := by
          intro hne
          split
          · exact GoMap.get_set_ne _ _ _ _ (fun hh => hne hh.symm)
          · rfl
        constructor
        · intro hn
          have hn' : name ≠ k ∧ name ∉ GoMap.keys rest := by
            simpa [GoMap.keys] using hn
          rw [ih1 hn'.2]
          exact hstep hn'.1
        · intro c0 hc0
          rcases List.mem_cons.mp hc0 with h0 | h0
          · cases h0
            rw [ih1 hnd.1]
            split
            · exact GoMap.get_set_self _ _ _
            · rfl
          · have hk : name ∈ List.map Prod.fst rest := List.mem_map.mpr ⟨(name, c0), h0, rfl⟩
            have hne : name ≠ k := fun hh => hnd.1 (hh ▸ hk)
            rw [ih2 c0 h0, hstep hne]

theorem Module.publishMode_found (I : Infra) (m : Module) (connName mode name : String)
    (values : List (Option Map)) (inst : Instance) (conn : defaultConnection)
    (hname : name ≠ "") (hconn : connName ≠ "")
    (hinst : GoMap.get m.instances connName = some inst) (hc : inst.conn = some conn) :
    ∀ m', m.publishMode I connName mode name values ≠ .returned (some Err.errNoConnection) m' := by
  intro m'
  simp only [Module.publishMode, hname, hconn, hinst, hc, if_false]
  split
  · simp
  · rename_i data _
    simp only [defaultConnection.Publish]
    split <;> rename_i hp
    · exact fun h => by cases h
    · revert hp
      split
      · intro hp; cases hp
        simp
      · split
        · intro hp; cases hp; simp
        · intro hp; cases hp

/-! ### Subjects -/

theorem subject_eq_cancel (pfx a b x y : String) (h : pfx ++ a ++ x = pfx ++ b ++ y) :
    a.data ++ x.data = b.data ++ y.data := by
  have h1 := congrArg String.data h
  simp only [String.data_append, List.append_assoc] at h1
  exact List.append_cancel_left h1

theorem publish_subject_ne_broadcast (pfx x y : String) :
    pfx ++ publishSubjectPrefix ++ x ≠ pfx ++ broadcastSubjectPrefix ++ y := by
  intro h
  have h1 := subject_eq_cancel _ _ _ _ _ h
  simp [publishSubjectPrefix, broadcastSubjectPrefix] at h1

theorem publish_subject_inj (pfx x y : String)
    (h : pfx ++ publishSubjectPrefix ++ x = pfx ++ publishSubjectPrefix ++ y) : x = y := by
  have h1 := subject_eq_cancel _ _ _ _ _ h
  have h2 : x.data = y.data := List.append_cancel_left h1
  exact String.ext h2

theorem broadcast_subject_inj (pfx x y : String)
    (h : pfx ++ broadcastSubjectPrefix ++ x = pfx ++ broadcastSubjectPrefix ++ y) : x = y := by
  have h1 := subject_eq_cancel _ _ _ _ _ h
  have h2 : x.data = y.data := List.append_cancel_left h1
  exact String.ext h2

/-! ### The default connection after Open and Start -/

theorem defaultConnection.Register_spec (c : defaultConnection) (s group : String) :
    (c.Register s group).1 = none ∧
    (c.Register s group).2.running = c.running ∧
    (c.Register s group).2.consumers = c.consumers ∧
    (c.Register s group).2.published = c.published ∧
    (∀ x, x ∈ GoMap.keys (c.Register s group).2.events → x = s ∨ x ∈ GoMap.keys c.events) ∧
    ((∀ e ∈ c.events, e.2 = []) → ∀ e ∈ (c.Register s group).2.events, e.2 = []) := by
  unfold defaultConnection.Register
  cases hg : GoMap.get c.events s with
  | some q => exact ⟨rfl, rfl, rfl, rfl, fun x hx => Or.inr hx, fun h => h⟩
  | none =>
    refine ⟨rfl, rfl, rfl, rfl, ?_, ?_⟩
    · intro x hx
      exact (GoMap.mem_keys_set _ _ _ _).mp hx
    · intro hall e he
      have hnot : s ∉ GoMap.keys c.events := (GoMap.get_eq_none_iff _ _).mp hg
      have : ∀ (l : GoMap (List Bytes)), (∀ e ∈ l, e.2 = []) →
          ∀ e ∈ GoMap.set l s [], e.2 = [] := by
        intro l
        induction l with
        | nil => intro _ e he; simp [GoMap.set] at he; simp [he]
        | cons a rest ih =>
          intro hl e he
          obtain ⟨k0, v0⟩ := a
          by_cases h0 : k0 = s
          · simp only [GoMap.set, h0, if_true, List.mem_cons] at he
            rcases he with he | he
            · simp [he]
            · exact hl e (List.mem_cons_of_mem _ he)
          · simp only [GoMap.set, h0, if_false, List.mem_cons] at he
            rcases he with he | he
            · exact hl e (by simp [he])
            · exact ih (fun e he => hl e (List.mem_cons_of_mem _ he)) e he
      exact this c.events hall e he

/-- The subjects `registerEvents` adds are the broadcast and publish subjects of
the module's events under the given lead, each with an empty queue. -/
theorem registerEvents_spec (name pfx profile : String) :
    ∀ (evs : List (String × Event)) (c c' : defaultConnection),
      registerEvents name pfx profile evs c = .ok c' →
      c'.running = c.running ∧ c'.consumers = c.consumers ∧ c'.published = c.published ∧
      (∀ x, x ∈ GoMap.keys c'.events → x ∈ GoMap.keys c.events ∨
        ∃ ev, ev ∈ GoMap.keys evs ∧
          (x = pfx ++ broadcastSubjectPrefix ++ ev ∨ x = pfx ++ publishSubjectPrefix ++ ev)) ∧
      ((∀ e ∈ c.events, e.2 = []) → ∀ e ∈ c'.events, e.2 = []) := by
  intro evs
  induction evs with
  | nil =>
    intro c c' h
    simp [registerEvents] at h
    subst h
    exact ⟨rfl, rfl, rfl, fun x hx => Or.inl hx, fun h => h⟩
  | cons e rest ih =>
    intro c c' h
    obtain ⟨evName, ev⟩ := e
    unfold registerEvents at h
    by_cases hm : ev.Connect = "" ∨ ev.Connect = "*" ∨ ev.Connect = name
    · simp only [hm, if_true] at h
      have r1 := defaultConnection.Register_spec c (pfx ++ broadcastSubjectPrefix ++ evName) ""
      generalize c.Register (pfx ++ broadcastSubjectPrefix ++ evName) "" = o1 at h r1
      obtain ⟨e1, c1⟩ := o1
      simp only at r1
      obtain ⟨r1e, r1a, r1b, r1c, r1d, r1f⟩ := r1
      subst r1e
      simp only at h
      have r2 := defaultConnection.Register_spec c1 (pfx ++ publishSubjectPrefix ++ evName) profile
      generalize c1.Register (pfx ++ publishSubjectPrefix ++ evName) profile = o2 at h r2
      obtain ⟨e2, c2⟩ := o2
      simp only at r2
      obtain ⟨r2e, r2a, r2b, r2c, r2d, r2f⟩ := r2
      subst r2e
      simp only at h
      obtain ⟨i1, i2, i3, i4, i5⟩ := ih c2 c' h
      refine ⟨by rw [i1, r2a, r1a], by rw [i2, r2b, r1b], by rw [i3, r2c, r1c], ?_, ?_⟩
      · intro x hx
        rcases i4 x hx with h1 | ⟨ev', hev', hx'⟩
        · rcases r2d x h1 with h2 | h2
          · right
            exact ⟨evName, by simp [GoMap.keys], Or.inr h2⟩
          · rcases r1d x h2 with h3 | h3
            · right
              exact ⟨evName, by simp [GoMap.keys], Or.inl h3⟩
            · exact Or.inl h3
        · right
          refine ⟨ev', ?_, hx'⟩
          simp only [GoMap.keys, List.map_cons, List.mem_cons]
          exact Or.inr hev'
      · intro hall
        exact i5 (r2f (r1f hall))
    · simp only [hm, if_false] at h
      obtain ⟨i1, i2, i3, i4, i5⟩ := ih c c' h
      refine ⟨i1, i2, i3, ?_, i5⟩
      intro x hx
      rcases i4 x hx with h1 | ⟨ev', hev', hx'⟩
      · exact Or.inl h1
      · right
        refine ⟨ev', ?_, hx'⟩
        simp only [GoMap.keys, List.map_cons, List.mem_cons]
        exact Or.inr hev'

/-- An instance after `startInstances` is the instance before with its connection
started. -/
theorem startInstances_get :
    ∀ (l l' : GoMap Instance), startInstances l = .ok l' →
      ∀ k inst', GoMap.get l' k = some inst' →
        ∃ inst conn, GoMap.get l k = some inst ∧ inst.conn = some conn ∧
          conn.running = false ∧
          inst' = { inst with conn := some (conn.Start).2 } := by
  intro l
  induction l with
  | nil =>
    intro l' h k inst' hg
    simp [startInstances] at h
    subst h
    simp [GoMap.get] at hg
  | cons e rest ih =>
    intro l' h k inst' hg
    obtain ⟨name, inst⟩ := e
    unfold startInstances at h
    cases hc : inst.conn with
    | none => simp [hc] at h
    | some conn =>
      simp only [hc] at h
      cases hrun : conn.running with
      | true => simp [defaultConnection.Start, hrun] at h
      | false =>
        have hs : (conn.Start).1 = none := by simp [defaultConnection.Start, hrun]
        generalize hS : conn.Start = o at h hs
        obtain ⟨e1, c1⟩ := o
        simp only at hs
        subst hs
        simp only at h
        cases hr : startInstances rest with
        | error e => simp [hr] at h
        | ok rest' =>
          simp only [hr] at h
          cases h
          by_cases hk : name = k
          · subst hk
            simp only [GoMap.get, if_true] at hg
            cases hg
            exact ⟨inst, conn, by simp [GoMap.get], hc, hrun, by rw [hS]⟩
          · simp only [GoMap.get, hk, if_false] at hg
            obtain ⟨i0, c0, h1, h2, h3, h4⟩ := ih rest' hr k inst' hg
            exact ⟨i0, c0, by simp [GoMap.get, hk, h1], h2, h3, h4⟩

theorem defaultConnection.receive_of_empty (c : defaultConnection) (s : String)
    (h : ∀ e ∈ c.events, e.2 = []) : c.receive s = none := by
  unfold defaultConnection.receive
  split
  · cases hg : GoMap.get c.events s with
    | none => rfl
    | some q =>
      have := h _ (GoMap.mem_of_get _ _ _ hg)
      simp only at this
      subst this
      rfl
  · rfl

/-- A publish whose subject has no queue on the resolved connection returns without
touching any queue: either the module is unchanged, or only the `published` log of
the resolved connection has grown. -/
theorem Module.publishMode_no_queue (I : Infra) (m : Module) (connName mode name : String)
    (values : List (Option Map))
    (h : ∀ cn inst conn, GoMap.get m.instances cn = some inst → inst.conn = some conn →
      GoMap.get conn.events (inst.Config.Prefix ++ mode ++ name) = none) :
    (∃ err, m.publishMode I connName mode name values = .returned err m) ∨
    ∃ cn inst conn data, GoMap.get m.instances cn = some inst ∧ inst.conn = some conn ∧
      m.publishMode I connName mode name values
        = .returned none
            { m with
              instances := GoMap.set m.instances cn
                { inst with
                  conn := some
                    { conn with
                      published :=
                        conn.published ++ [(inst.Config.Prefix ++ mode ++ name, data)] } } } := by
  unfold Module.publishMode
  by_cases hname : name = ""
  · left
    exact ⟨some Err.errInvalidEvent, by simp [hname]⟩
  · simp only [hname, if_false]
    split
    · left; exact ⟨_, rfl⟩
    · rename_i cn _
      cases hi : GoMap.get m.instances cn with
      | none => left; exact ⟨_, rfl⟩
      | some inst =>
        cases hc : inst.conn with
        | none => left; exact ⟨some Err.errNoConnection, by simp [hc]⟩
        | some conn =>
          simp only [hc]
          split
          · left; exact ⟨_, rfl⟩
          · rename_i data _
            right
            have hq := h cn inst conn hi hc
            refine ⟨cn, inst, conn, data, hi, hc, ?_⟩
            simp [defaultConnection.Publish, hq]

/-- After `Open` on a module without instances, every instance holds a connection
whose subjects are the broadcast and publish subjects of the declared events under
the instance's own lead, all with empty queues. -/
theorem Module.Open_subjects (I : Infra) (m0 m1 : Module)
    (hclosed : m0.opened = false) (hnone : m0.instances = [])
    (hopen : Module.Open I m0 = .ok m1) :
    m1.events = m0.events ∧
    ∀ k inst, GoMap.get m1.instances k = some inst →
      ∃ conn, inst.conn = some conn ∧
        (∀ x, x ∈ GoMap.keys conn.events → ∃ ev, ev ∈ GoMap.keys m0.events ∧
          (x = inst.Config.Prefix ++ broadcastSubjectPrefix ++ ev ∨
            x = inst.Config.Prefix ++ publishSubjectPrefix ++ ev)) ∧
        (∀ e ∈ conn.events, e.2 = []) := by
  simp only [Module.Open, hclosed] at hopen
  cases hoc : openConfigs m0 (if I.Profile = "" then INFRAGO else I.Profile)
      m0.configs m0.instances [] with
  | error e => simp [hoc] at hopen
  | ok r =>
    obtain ⟨i', w'⟩ := r
    simp [hoc] at hopen
    subst hopen
    refine ⟨rfl, ?_⟩
    intro k inst hg
    have hspec := openConfigs_instances _ _ _ _ _ _ _ hoc k
    by_cases hk : k ∈ GoMap.keys m0.configs
    · obtain ⟨inst', conn, h1, h2, -, -, h5⟩ := hspec.2 hk
      have hi : inst' = inst := by
        have : some inst' = some inst := by rw [← h1]; exact hg
        exact Option.some.inj this
      subst hi
      obtain ⟨-, -, -, r4, r5⟩ := registerEvents_spec _ _ _ _ _ _ h5
      refine ⟨conn, h2, ?_, ?_⟩
      · intro x hx
        rcases r4 x hx with h0 | h0
        · simp [defaultDriver.Connect, GoMap.keys] at h0
        · exact h0
      · exact r5 (by simp [defaultDriver.Connect])
    · have := hspec.1 hk
      simp only at hg
      rw [this, hnone] at hg
      simp [GoMap.get] at hg

/-- `Start` keeps the config and the queues of every instance. -/
theorem Module.Start_subjects (m1 m2 : Module) (hstart : Module.Start m1 = .ok m2) :
    ∀ k inst2, GoMap.get m2.instances k = some inst2 →
      ∃ inst1, GoMap.get m1.instances k = some inst1 ∧ inst2.Config = inst1.Config ∧
        (inst2.conn.map defaultConnection.events = inst1.conn.map defaultConnection.events) ∧
        (inst1.conn.isSome → inst2.conn.isSome) := by
  intro k inst2 hg
  unfold Module.Start at hstart
  by_cases hs : m1.started = true
  · simp only [hs, if_true] at hstart
    cases hstart
    exact ⟨inst2, hg, rfl, rfl, fun h => h⟩
  · simp only [hs] at hstart
    cases hsi : startInstances m1.instances with
    | error e => simp [hsi] at hstart
    | ok l' =>
      simp [hsi] at hstart
      subst hstart
      obtain ⟨inst1, conn, h1, h2, h3, h4⟩ := startInstances_get _ _ hsi k inst2 hg
      refine ⟨inst1, h1, by rw [h4], ?_, ?_⟩
      · rw [h4, h2]
        simp [defaultConnection.Start, h3]
      · intro _
        rw [h4]
        rfl

/-! ### The pipeline: assignments, depth and traces -/

theorem Assign.apply_control (a : Assign) (c : Context) :
    (a.apply c).nexts = c.nexts ∧ (a.apply c).index = c.index ∧
    (a.apply c).Config = c.Config ∧ (a.apply c).trace = c.trace := by
  cases a <;> exact ⟨rfl, rfl, rfl, rfl⟩

theorem applyAssigns_control (as : List Assign) (c : Context) :
    (applyAssigns as c).nexts = c.nexts ∧ (applyAssigns as c).index = c.index ∧
    (applyAssigns as c).Config = c.Config ∧ (applyAssigns as c).trace = c.trace := by
  induction as generalizing c with
  | nil => exact ⟨rfl, rfl, rfl, rfl⟩
  | cons a rest ih =>
    obtain ⟨h1, h2, h3, h4⟩ := ih (a.apply c)
    obtain ⟨g1, g2, g3, g4⟩ := Assign.apply_control a c
    exact ⟨h1.trans g1, h2.trans g2, h3.trans g3, h4.trans g4⟩

theorem runBody_assigns (K : Run) (m : Module) (as : List Assign) (rest : List Op)
    (c : Context) :
    runBody K m (as.map Op.assign ++ rest) c = runBody K m rest (applyAssigns as c) := by
  induction as generalizing c with
  | nil => rfl
  | cons a tl ih =>
    simp only [List.map_cons, List.cons_append, runBody, Op.exec]
    exact ih (a.apply c)

theorem getElem?_append_cons_length {α : Type} (pre : List α) (x : α) (rest : List α) :
    (pre ++ x :: rest)[pre.length]? = some x := by
  induction pre with
  | nil => simp
  | cons a tl ih => simpa using ih

/-! ### A deeper bound never changes a completed run -/

theorem Instance.found_mono {K K' : Run} (h : Run.le K K') (m : Module) (c c' : Context)
    (hr : Instance.found K m c = some c') : Instance.found K' m c = some c' :=
  h _ _ hr

theorem Instance.error_mono {K K' : Run} (h : Run.le K K') (m : Module) (c c' : Context)
    (hr : Instance.error K m c = some c') : Instance.error K' m c = some c' :=
  h _ _ hr

theorem Instance.failed_mono {K K' : Run} (h : Run.le K K') (m : Module) (c c' : Context)
    (hr : Instance.failed K m c = some c') : Instance.failed K' m c = some c' :=
  h _ _ hr

theorem Instance.denied_mono {K K' : Run} (h : Run.le K K') (m : Module) (c c' : Context)
    (hr : Instance.denied K m c = some c') : Instance.denied K' m c = some c' :=
  h _ _ hr

theorem Instance.response_mono {K K' : Run} (h : Run.le K K') (m : Module) (c c' : Context)
    (hr : Instance.response K m c = some c') : Instance.response K' m c = some c' := by
  unfold Instance.response at hr ⊢
  simp only [Option.map_eq_some'] at hr ⊢
  obtain ⟨a, ha, hb⟩ := hr
  exact ⟨a, h _ _ ha, hb⟩

theorem Op.exec_mono {K K' : Run} (h : Run.le K K') (m : Module) (op : Op) (c c' : Context)
    (hr : Op.exec K m op c = some c') : Op.exec K' m op c = some c' := by
  cases op with
  | assign a => exact hr
  | Next => exact h _ _ hr
  | Found => exact Instance.found_mono h m _ _ hr
  | Error res => exact Instance.error_mono h m _ _ hr
  | Failed res => exact Instance.failed_mono h m _ _ hr
  | Denied res => exact Instance.denied_mono h m _ _ hr

theorem runBody_mono {K K' : Run} (h : Run.le K K') (m : Module) :
    ∀ (body : List Op) (c c' : Context),
      runBody K m body c = some c' → runBody K' m body c = some c' := by
  intro body
  induction body with
  | nil => intro c c' hr; exact hr
  | cons op rest ih =>
    intro c c' hr
    simp only [runBody] at hr ⊢
    cases h1 : Op.exec K m op c with
    | none => simp [h1] at hr
    | some c1 =>
      rw [h1] at hr
      rw [Op.exec_mono h m op c c1 h1]
      exact ih c1 c' hr

theorem invoke_mono {K K' : Run} (h : Run.le K K') (m : Module) (I : Infra) (f : Fn)
    (c c' : Context) (hr : invoke K m I f c = some c') : invoke K' m I f c = some c' := by
  cases f with
  | user g => exact runBody_mono h m _ _ _ hr
  | method x =>
    cases x with
    | «open» => exact h _ _ hr
    | serve =>
      simp only [invoke, Instance.serve] at hr ⊢
      split at hr
      · cases hr
      · rename_i c1 h1
        rw [h _ _ h1]
        exact Instance.response_mono h m _ _ hr
    | request => exact h _ _ hr
    | execute => exact h _ _ hr
    | response => exact Instance.response_mono h m _ _ hr
    | finding =>
      cases hcfg : c.Config with
      | none =>
        simp only [invoke, Instance.finding, Context.log, hcfg] at hr ⊢
        exact Instance.found_mono h m _ _ hr
      | some ev =>
        simp only [invoke, Instance.finding, Context.log, hcfg] at hr ⊢
        exact h _ _ hr
    | authorizing => exact h _ _ hr
    | arguing =>
      cases hcfg : c.Config with
      | none =>
        simp only [invoke, Instance.arguing, Context.log, hcfg] at hr ⊢
        exact h _ _ hr
      | some ev =>
        cases hargs : ev.Args with
        | none =>
          simp only [invoke, Instance.arguing, Context.log, hcfg, hargs] at hr ⊢
          exact h _ _ hr
        | some schema =>
          simp only [invoke, Instance.arguing, Context.log, hcfg, hargs] at hr ⊢
          cases hres : (I.Mapping schema c.Value ev.Nullable (some c.Meta)).2 with
          | none =>
            simp only [hres] at hr ⊢
            exact h _ _ hr
          | some res =>
            cases hf : res.fail with
            | true =>
              simp only [hres, hf, if_true] at hr ⊢
              exact Instance.failed_mono h m _ _ hr
            | false =>
              simp only [hres, hf] at hr ⊢
              exact h _ _ hr
    | found => exact Instance.found_mono h m _ _ hr
    | error => exact Instance.error_mono h m _ _ hr
    | failed => exact Instance.failed_mono h m _ _ hr
    | denied => exact Instance.denied_mono h m _ _ hr
    | body => exact hr

theorem Next_succ (m : Module) (I : Infra) :
    ∀ n, Run.le (Context.Next m I n) (Context.Next m I (n + 1)) := by
  intro n
  induction n with
  | zero => intro c c' h; simp [Context.Next] at h
  | succ n ih =>
    intro c c' h
    rw [Context.Next] at h ⊢
    cases hs : c.nexts[c.index]? with
    | none => simpa [hs] using h
    | some slot =>
      cases slot with
      | none =>
        simp only [hs] at h ⊢
        exact ih _ _ h
      | some f =>
        simp only [hs] at h ⊢
        exact invoke_mono ih m I f _ _ h

theorem Next_mono (m : Module) (I : Infra) {n k : Nat} (hle : n ≤ k) :
    Run.le (Context.Next m I n) (Context.Next m I k) := by
  induction hle with
  | refl => intro c c' h; exact h
  | step _ ih => intro c c' h; exact Next_succ m I _ _ _ (ih _ _ h)

/-! ### Chains of closures that call no terminal outcome -/

theorem runBody_total (K : Run) (m : Module) (Inv : Context → Prop)
    (hassign : ∀ a c, Inv c → Inv (Assign.apply a c))
    (hK : ∀ c, Inv c → ∃ c', K c = some c' ∧ Inv c') :
    ∀ body : List Op, (∀ op ∈ body, op.isTerminal = false) →
      ∀ c, Inv c → ∃ c', runBody K m body c = some c' ∧ Inv c' := by
  intro body
  induction body with
  | nil => intro _ c hc; exact ⟨c, rfl, hc⟩
  | cons op rest ih =>
    intro hq c hc
    have hrest : ∀ op ∈ rest, op.isTerminal = false :=
      fun o ho => hq o (List.mem_cons_of_mem _ ho)
    have hop := hq op (List.mem_cons_self _ _)
    cases op with
    | assign a =>
      simp only [runBody, Op.exec]
      exact ih hrest _ (hassign a c hc)
    | Next =>
      obtain ⟨c1, h1, h2⟩ := hK c hc
      simp only [runBody, Op.exec, h1]
      exact ih hrest _ h2
    | Found => simp [Op.isTerminal] at hop
    | Error res => simp [Op.isTerminal] at hop
    | Failed res => simp [Op.isTerminal] at hop
    | Denied res => simp [Op.isTerminal] at hop

theorem mem_of_getElem?_eq_some {α : Type} (l : List α) (i : Nat) (x : α)
    (h : l[i]? = some x) : x ∈ l := by
  obtain ⟨hi, hx⟩ := List.getElem?_eq_some.mp h
  exact hx ▸ List.getElem_mem hi

/-- A chain of closures that call no terminal outcome runs to completion within a
depth of one more than what is left of it; the queue stays, the cursor does not
move back, and the trace grows by closure calls only. -/
theorem Next_quiet (m : Module) (I : Infra) :
    ∀ (d : Nat) (c : Context),
      (∀ x ∈ c.nexts, x = none ∨ ∃ f, x = some (Fn.user f) ∧ f.quiet = true) →
      c.nexts.length - c.index ≤ d →
      ∃ c', Context.Next m I (d + 1) c = some c' ∧ c'.nexts = c.nexts ∧
        c.index ≤ c'.index ∧ c'.Config = c.Config ∧
        ∃ ids : List Nat, c'.trace = c.trace ++ ids.map Ev.call := by
  intro d
  induction d with
  | zero =>
    intro c _ hd
    have : c.nexts[c.index]? = none := List.getElem?_eq_none (by omega)
    exact ⟨c, by simp [Context.Next, this], rfl, le_refl _, rfl, [], by simp⟩
  | succ d ih =>
    intro c hq hd
    rw [Context.Next]
    cases hs : c.nexts[c.index]? with
    | none => exact ⟨c, rfl, rfl, le_refl _, rfl, [], by simp⟩
    | some slot =>
      have hlt : c.index < c.nexts.length := (List.getElem?_eq_some.mp hs).1
      cases slot with
      | none =>
        obtain ⟨c', h1, h2, h3, h4, h5⟩ :=
          ih { c with index := c.index + 1 } hq (by simp only; omega)
        exact ⟨c', h1, h2, by simp only at h3; omega, h4, h5⟩
      | some f =>
        rcases hq _ (mem_of_getElem?_eq_some _ _ _ hs) with h0 | ⟨g, hg, hquiet⟩
        · cases h0
        · cases hg
          simp only [invoke]
          have hbody : ∀ op ∈ g.body, op.isTerminal = false := by
            intro op hop
            have := List.all_eq_true.mp hquiet op hop
            simpa using this
          obtain ⟨c', h1, h2, h3, h4, h5⟩ :=
            runBody_total (Context.Next m I (d + 1)) m
              (fun cur => cur.nexts = c.nexts ∧ c.index + 1 ≤ cur.index ∧
                cur.Config = c.Config ∧ ∃ ids : List Nat, cur.trace = c.trace ++ ids.map Ev.call)
              (by
                intro a cur ⟨i1, i2, i3, i4⟩
                obtain ⟨a1, a2, a3, a4⟩ := Assign.apply_control a cur
                exact ⟨a1.trans i1, by omega, a3.trans i3, by rw [a4]; exact i4⟩)
              (by
                intro cur ⟨i1, i2, i3, ids, i4⟩
                obtain ⟨c', j1, j2, j3, j4, ids', j5⟩ :=
                  ih cur (by rw [i1]; exact hq) (by rw [i1]; omega)
                refine ⟨c', j1, j2.trans i1, by omega, j4.trans i3, ids ++ ids', ?_⟩
                rw [j5, i4]
                simp)
              g.body hbody
              ({ c with index := c.index + 1 }.log (Ev.call g.id))
              ⟨rfl, le_refl _, rfl, [g.id], by simp [Context.log]⟩
          exact ⟨c', h1, h2, by omega, h4, h5⟩

theorem Next_quiet_of_le (m : Module) (I : Infra) (c : Context)
    (hq : ∀ x ∈ c.nexts, x = none ∨ ∃ f, x = some (Fn.user f) ∧ f.quiet = true) :
    ∃ c', c'.nexts = c.nexts ∧ c.index ≤ c'.index ∧ c'.Config = c.Config ∧
      (∃ ids : List Nat, c'.trace = c.trace ++ ids.map Ev.call) ∧
      ∀ n, c.nexts.length - c.index + 1 ≤ n → Context.Next m I n c = some c' := by
  obtain ⟨c', h1, h2, h3, h4, h5⟩ := Next_quiet m I (c.nexts.length - c.index) c hq (le_refl _)
  exact ⟨c', h2, h3, h4, h5, fun n hn => Next_mono m I hn _ _ h1⟩

theorem asFuncs_quiet (fs : List (Option UserFn)) (h : quietChain fs = true) :
    ∀ x ∈ asFuncs fs, x = none ∨ ∃ f, x = some (Fn.user f) ∧ f.quiet = true := by
  intro x hx
  simp only [asFuncs, List.mem_map] at hx
  obtain ⟨y, hy, rfl⟩ := hx
  have := List.all_eq_true.mp h y hy
  cases y with
  | none => exact Or.inl rfl
  | some f => exact Or.inr ⟨f, rfl, by simpa using this⟩

/-! ### The dispatch of a message without a declaration -/

theorem Next_method (m : Module) (I : Infra) (n : Nat) (c : Context) (x : Method)
    (h : c.nexts[c.index]? = some (some (Fn.method x))) :
    Context.Next m I (n + 1) c
      = invoke (Context.Next m I n) m I (Fn.method x) { c with index := c.index + 1 } := by
  simp [Context.Next, h]

/-! ### Terminal chains -/

theorem Instance.found_eq (K : Run) (m : Module) (ctx : Context) :
    Instance.found K m ctx
      = K (chainStart Method.found (ctx.Config.bind Event.Found) m.foundHandlers ctx) := by
  cases hc : ctx.Config with
  | none => simp [Instance.found, chainStart, Context.log, Context.clear, Context.next, hc]
  | some ev =>
    cases hh : ev.Found <;>
      simp [Instance.found, chainStart, Context.log, Context.clear, Context.next, hc, hh]

theorem Instance.error_eq (K : Run) (m : Module) (ctx : Context) :
    Instance.error K m ctx
      = K (chainStart Method.error (ctx.Config.bind Event.Error) m.errorHandlers ctx) := by
  cases hc : ctx.Config with
  | none => simp [Instance.error, chainStart, Context.log, Context.clear, Context.next, hc]
  | some ev =>
    cases hh : ev.Error <;>
      simp [Instance.error, chainStart, Context.log, Context.clear, Context.next, hc, hh]

theorem Instance.failed_eq (K : Run) (m : Module) (ctx : Context) :
    Instance.failed K m ctx
      = K (chainStart Method.failed (ctx.Config.bind Event.Failed) m.failedHandlers ctx) := by
  cases hc : ctx.Config with
  | none => simp [Instance.failed, chainStart, Context.log, Context.clear, Context.next, hc]
  | some ev =>
    cases hh : ev.Failed <;>
      simp [Instance.failed, chainStart, Context.log, Context.clear, Context.next, hc, hh]

theorem Instance.denied_eq (K : Run) (m : Module) (ctx : Context) :
    Instance.denied K m ctx
      = K (chainStart Method.denied (ctx.Config.bind Event.Denied) m.deniedHandlers ctx) := by
  cases hc : ctx.Config with
  | none => simp [Instance.denied, chainStart, Context.log, Context.clear, Context.next, hc]
  | some ev =>
    cases hh : ev.Denied <;>
      simp [Instance.denied, chainStart, Context.log, Context.clear, Context.next, hc, hh]

theorem chainStart_userOnly (x : Method) (hook : Option UserFn)
    (handlers : List (Option UserFn)) (ctx : Context) :
    userOnly (chainStart x hook handlers ctx).nexts := by
  intro a ha y hy
  simp only [chainStart, List.mem_append, List.mem_map, asFuncs] at ha
  rcases ha with ⟨h, -, rfl⟩ | ⟨o, -, rfl⟩
  · cases hy
  · cases o <;> cases hy

theorem runBody_partial (K : Run) (m : Module) (Inv : Context → Prop)
    (hexec : ∀ op c c', Inv c → Op.exec K m op c = some c' → Inv c') :
    ∀ (body : List Op) (c c' : Context), Inv c → runBody K m body c = some c' → Inv c' := by
  intro body
  induction body with
  | nil =>
    intro c c' hc hr
    simp only [runBody, Option.some.injEq] at hr
    exact hr ▸ hc
  | cons op rest ih =>
    intro c c' hc hr
    simp only [runBody] at hr
    cases h1 : Op.exec K m op c with
    | none => simp [h1] at hr
    | some c1 =>
      rw [h1] at hr
      exact ih c1 c' (hexec op c c1 hc h1) hr

/-- Once only closures are queued, no bound method of the instance is ever run
again: whatever a run does, it ends with only closures queued and adds to the trace
only closure calls and entries of the four terminal methods. -/
theorem Next_userOnly (m : Module) (I : Infra) :
    ∀ (n : Nat) (c c' : Context), userOnly c.nexts → Context.Next m I n c = some c' →
      userOnly c'.nexts ∧ ∃ t, c'.trace = c.trace ++ t ∧ ∀ e ∈ t, e.isHandler = true := by
  intro n
  induction n with
  | zero => intro c c' _ h; simp [Context.Next] at h
  | succ n ih =>
    intro c c' hu h
    rw [Context.Next] at h
    cases hs : c.nexts[c.index]? with
    | none =>
      simp only [hs, Option.some.injEq] at h
      subst h
      exact ⟨hu, [], by simp, by simp⟩
    | some slot =>
      cases slot with
      | none =>
        simp only [hs] at h
        exact ih { c with index := c.index + 1 } c' hu h
      | some f =>
        simp only [hs] at h
        cases f with
        | method y => exact absurd rfl (hu _ (mem_of_getElem?_eq_some _ _ _ hs) y)
        | user g =>
          simp only [invoke] at h
          -- what a started terminal chain preserves
          have hterm : ∀ (x : Method) (hook : Option UserFn) (hs : List (Option UserFn))
              (cur c'' : Context), (Ev.enter x).isHandler = true →
              (∃ t, cur.trace = c.trace ++ t ∧ ∀ e ∈ t, e.isHandler = true) →
              Context.Next m I n (chainStart x hook hs cur) = some c'' →
              userOnly c''.nexts ∧ ∃ t, c''.trace = c.trace ++ t ∧ ∀ e ∈ t, e.isHandler = true := by
            intro x hook hs cur c'' hx ⟨t, ht, hall⟩ hrun
            obtain ⟨j1, t', j2, j3⟩ := ih _ _ (chainStart_userOnly x hook hs cur) hrun
            refine ⟨j1, t ++ Ev.enter x :: t', ?_, ?_⟩
            · rw [j2]
              simp [chainStart, ht]
            · intro e he
              simp only [List.mem_append, List.mem_cons] at he
              rcases he with he | he | he
              · exact hall e he
              · exact he ▸ hx
              · exact j3 e he
          refine runBody_partial (Context.Next m I n) m
            (fun cur => userOnly cur.nexts ∧
              ∃ t, cur.trace = c.trace ++ t ∧ ∀ e ∈ t, e.isHandler = true)
            ?_ g.body ({ c with index := c.index + 1 }.log (Ev.call g.id)) c'
            ⟨hu, [Ev.call g.id], by simp [Context.log], by simp [Ev.isHandler]⟩ h
          intro op cur c'' ⟨i1, i2⟩ hop
          cases op with
          | assign a =>
            simp only [Op.exec, Option.some.injEq] at hop
            subst hop
            obtain ⟨a1, -, -, a4⟩ := Assign.apply_control a cur
            exact ⟨by rw [a1]; exact i1, by rw [a4]; exact i2⟩
          | Next =>
            obtain ⟨t, ht, hall⟩ := i2
            obtain ⟨j1, t', j2, j3⟩ := ih _ _ i1 hop
            refine ⟨j1, t ++ t', by rw [j2, ht]; simp, ?_⟩
            intro e he
            rcases List.mem_append.mp he with he | he
            · exact hall e he
            · exact j3 e he
          | Found =>
            simp only [Op.exec, Context.Found, Instance.found_eq] at hop
            exact hterm Method.found _ _ _ _ rfl i2 hop
          | Error res =>
            simp only [Op.exec, Context.Error, Instance.error_eq] at hop
            exact hterm Method.error _ _ (cur.Result res) _ rfl i2 hop
          | Failed res =>
            simp only [Op.exec, Context.Failed, Instance.failed_eq] at hop
            exact hterm Method.failed _ _ (cur.Result res) _ rfl i2 hop
          | Denied res =>
            simp only [Op.exec, Context.Denied, Instance.denied_eq] at hop
            exact hterm Method.denied _ _ (cur.Result res) _ rfl i2 hop

/-! ### Traces only grow -/

theorem Context.Extends.refl (c : Context) : c.Extends c := ⟨[], by simp⟩

theorem Context.Extends.trans {a b c : Context} (h1 : a.Extends b) (h2 : b.Extends c) :
    a.Extends c := by
  obtain ⟨t1, e1⟩ := h1
  obtain ⟨t2, e2⟩ := h2
  exact ⟨t1 ++ t2, by rw [e2, e1]; simp⟩

theorem Context.Extends.of_trace {a b c : Context} (h : b.Extends c) (t : List Ev)
    (hb : b.trace = a.trace ++ t) : a.Extends c := by
  obtain ⟨t2, e2⟩ := h
  exact ⟨t ++ t2, by rw [e2, hb]; simp⟩

theorem Instance.response_trace (K : Run) (m : Module)
    (hK : ∀ c c', K c = some c' → c.Extends c') (c c' : Context)
    (h : Instance.response K m c = some c') :
    ∃ t, c'.trace = c.trace ++ Ev.enter Method.response :: t := by
  simp only [Instance.response, Option.map_eq_some'] at h
  obtain ⟨a, ha, rfl⟩ := h
  obtain ⟨t, ht⟩ := hK _ _ ha
  refine ⟨t ++ [Ev.enter Method.body], ?_⟩
  simp only [Instance.body, Context.log, ht, Context.next, Context.clear]
  simp

theorem invoke_trace (K : Run) (m : Module) (I : Infra)
    (hK : ∀ c c', K c = some c' → c.Extends c') (f : Fn) (c c' : Context)
    (h : invoke K m I f c = some c') : c.Extends c' := by
  have hterm : ∀ (x : Method) (hook : Option UserFn) (hs : List (Option UserFn))
      (cur c'' : Context), K (chainStart x hook hs cur) = some c'' → cur.Extends c'' :=
    fun x hook hs cur c'' hrun => (hK _ _ hrun).of_trace [Ev.enter x] rfl
  cases f with
  | user g =>
    simp only [invoke] at h
    have := runBody_partial K m (fun cur => c.Extends cur) (by
      intro op cur c'' hcur hop
      cases op with
      | assign a =>
        simp only [Op.exec, Option.some.injEq] at hop
        subst hop
        exact hcur.trans ⟨[], by simp [(Assign.apply_control a cur).2.2.2]⟩
      | Next => exact hcur.trans (hK _ _ hop)
      | Found =>
        simp only [Op.exec, Context.Found, Instance.found_eq] at hop
        exact hcur.trans (hterm _ _ _ _ _ hop)
      | Error res =>
        simp only [Op.exec, Context.Error, Instance.error_eq] at hop
        exact hcur.trans (hterm _ _ _ (cur.Result res) _ hop)
      | Failed res =>
        simp only [Op.exec, Context.Failed, Instance.failed_eq] at hop
        exact hcur.trans (hterm _ _ _ (cur.Result res) _ hop)
      | Denied res =>
        simp only [Op.exec, Context.Denied, Instance.denied_eq] at hop
        exact hcur.trans (hterm _ _ _ (cur.Result res) _ hop))
      g.body (c.log (Ev.call g.id)) c' ⟨[Ev.call g.id], rfl⟩ h
    exact this
  | method x =>
    cases x with
    | «open» => exact (hK _ _ h).of_trace [Ev.enter Method.open] rfl
    | serve =>
      simp only [invoke, Instance.serve] at h
      split at h
      · cases h
      · rename_i c1 h1
        obtain ⟨t, ht⟩ := Instance.response_trace K m hK _ _ h
        exact ((hK _ _ h1).of_trace [Ev.enter Method.serve] rfl).trans ⟨_, ht⟩
    | request => exact (hK _ _ h).of_trace [Ev.enter Method.request] rfl
    | execute => exact (hK _ _ h).of_trace [Ev.enter Method.execute] (by
        simp only [Context.log, Context.clear, Context.next]
        cases c.Config with
        | none => rfl
        | some ev => simp only; split <;> split <;> rfl)
    | response =>
      obtain ⟨t, ht⟩ := Instance.response_trace K m hK _ _ h
      exact ⟨_, ht⟩
    | finding =>
      cases hcfg : c.Config with
      | none =>
        simp only [invoke, Instance.finding, Context.log, hcfg, Context.Found,
          Instance.found_eq] at h
        exact (hterm _ _ _ _ _ h).of_trace [Ev.enter Method.finding] rfl
      | some ev =>
        simp only [invoke, Instance.finding, Context.log, hcfg] at h
        exact (hK _ _ h).of_trace [Ev.enter Method.finding] rfl
    | authorizing => exact (hK _ _ h).of_trace [Ev.enter Method.authorizing] rfl
    | arguing =>
      cases hcfg : c.Config with
      | none =>
        simp only [invoke, Instance.arguing, Context.log, hcfg] at h
        exact (hK _ _ h).of_trace [Ev.enter Method.arguing] rfl
      | some ev =>
        cases hargs : ev.Args with
        | none =>
          simp only [invoke, Instance.arguing, Context.log, hcfg, hargs] at h
          exact (hK _ _ h).of_trace [Ev.enter Method.arguing] rfl
        | some schema =>
          simp only [invoke, Instance.arguing, Context.log, hcfg, hargs] at h
          cases hres : (I.Mapping schema c.Value ev.Nullable (some c.Meta)).2 with
          | none =>
            simp only [hres] at h
            exact (hK _ _ h).of_trace [Ev.enter Method.arguing] rfl
          | some res =>
            cases hf : res.fail with
            | true =>
              simp only [hres, hf, if_true, Context.Failed, Instance.failed_eq] at h
              exact (hterm _ _ _ _ _ h).of_trace [Ev.enter Method.arguing] rfl
            | false =>
              simp only [hres, hf] at h
              exact (hK _ _ h).of_trace [Ev.enter Method.arguing] rfl
    | found =>
      simp only [invoke, Instance.found_eq] at h
      exact hterm _ _ _ _ _ h
    | error =>
      simp only [invoke, Instance.error_eq] at h
      exact hterm _ _ _ _ _ h
    | failed =>
      simp only [invoke, Instance.failed_eq] at h
      exact hterm _ _ _ _ _ h
    | denied =>
      simp only [invoke, Instance.denied_eq] at h
      exact hterm _ _ _ _ _ h
    | body =>
      simp only [invoke, Option.some.injEq] at h
      exact ⟨[Ev.enter Method.body], h ▸ rfl⟩

/-- Whatever a run does, it only appends to the trace. -/
theorem Next_trace (m : Module) (I : Infra) :
    ∀ (n : Nat) (c c' : Context), Context.Next m I n c = some c' → c.Extends c' := by
  intro n
  induction n with
  | zero => intro c c' h; simp [Context.Next] at h
  | succ n ih =>
    intro c c' h
    rw [Context.Next] at h
    cases hs : c.nexts[c.index]? with
    | none =>
      simp only [hs, Option.some.injEq] at h
      exact h ▸ Context.Extends.refl c
    | some slot =>
      cases slot with
      | none =>
        simp only [hs] at h
        exact (ih { c with index := c.index + 1 } c' h)
      | some f =>
        simp only [hs] at h
        exact invoke_trace _ m I ih f { c with index := c.index + 1 } c' h

/-! ### Every dispatch completes when the terminal chains are quiet -/

theorem runBody_total_all (K : Run) (m : Module) (Inv : Context → Prop)
    (hexec : ∀ op c, Inv c → ∃ c', Op.exec K m op c = some c' ∧ Inv c') :
    ∀ (body : List Op) (c : Context), Inv c → ∃ c', runBody K m body c = some c' ∧ Inv c' := by
  intro body
  induction body with
  | nil => intro c hc; exact ⟨c, rfl, hc⟩
  | cons op rest ih =>
    intro c hc
    obtain ⟨c1, h1, h2⟩ := hexec op c hc
    simp only [runBody, h1]
    exact ih c1 h2

theorem Context.OnHandlers.run_handlers (m : Module) (I : Infra) (C : Option Event) (c : Context)
    (h : c.OnHandlers m C) (n : Nat) (hn : handlersBound m + 1 ≤ n) :
    ∃ c', Context.Next m I n c = some c' ∧ c'.OnHandlers m C := by
  obtain ⟨h1, h2, h3⟩ := h
  obtain ⟨c', a1, -, a3, -, a5⟩ := Next_quiet_of_le m I c h2
  exact ⟨c', a5 n (by omega), a3.trans h1, by rw [a1]; exact h2, by rw [a1]; exact h3⟩

theorem quietChain_mem (fs : List (Option UserFn)) (h : quietChain fs = true) (f : UserFn)
    (hf : some f ∈ fs) : f.quiet = true := by
  have := List.all_eq_true.mp h (some f) hf
  simpa using this

theorem chainStart_onHandlers (m : Module) (C : Option Event) (x : Method)
    (hook : Option UserFn) (hs : List (Option UserFn)) (cur : Context)
    (hh : ∀ f, hook = some f → f.quiet = true) (hq : quietChain hs = true)
    (hlen : hs.length + 1 ≤ handlersBound m) (hC : cur.Config = C) :
    (chainStart x hook hs cur).OnHandlers m C := by
  refine ⟨hC, ?_, ?_⟩
  · intro a ha
    simp only [chainStart, List.mem_append, List.mem_map] at ha
    rcases ha with ⟨f, hf, rfl⟩ | ha
    · refine Or.inr ⟨f, rfl, hh f ?_⟩
      cases hook with
      | none => simp at hf
      | some g => simp at hf; rw [hf]
    · exact asFuncs_quiet hs hq a ha
  · simp only [chainStart, List.length_append, List.length_map, asFuncs]
    cases hook <;> simp <;> omega

theorem terminal_total (m : Module) (I : Infra) (C : Option Event)
    (hq : quietTerminals m C = true) (op : Op) (hop : op.isTerminal = true) (cur : Context)
    (hC : cur.Config = C) (n : Nat) (hn : handlersBound m + 1 ≤ n) :
    ∃ c', Op.exec (Context.Next m I n) m op cur = some c' ∧ c'.OnHandlers m C := by
  simp only [quietTerminals, Bool.and_eq_true] at hq
  obtain ⟨⟨⟨⟨q1, q2⟩, q3⟩, q4⟩, q5⟩ := hq
  have hhook : ∀ (sel : Event → Option UserFn),
      (∀ ev, sel ev ∈ [ev.Found, ev.Error, ev.Failed, ev.Denied]) →
      ∀ f, C.bind sel = some f → f.quiet = true := by
    intro sel hsel f hf
    cases C with
    | none => simp at hf
    | some ev =>
      simp only [Option.some_bind] at hf
      exact quietChain_mem _ q5 f (hf ▸ hsel ev)
  cases op with
  | assign a => simp [Op.isTerminal] at hop
  | Next => simp [Op.isTerminal] at hop
  | Found =>
    simp only [Op.exec, Context.Found, Instance.found_eq]
    exact Context.OnHandlers.run_handlers m I C _
      (chainStart_onHandlers m C _ _ _ cur (by rw [hC]; exact hhook Event.Found (by simp)) q1
        (by simp only [handlersBound]; omega) hC) n hn
  | Error res =>
    simp only [Op.exec, Context.Error, Instance.error_eq]
    exact Context.OnHandlers.run_handlers m I C _
      (chainStart_onHandlers m C _ _ _ (cur.Result res)
        (by simp only [Context.Result]; rw [hC]; exact hhook Event.Error (by simp)) q2
        (by simp only [handlersBound]; omega) hC) n hn
  | Failed res =>
    simp only [Op.exec, Context.Failed, Instance.failed_eq]
    exact Context.OnHandlers.run_handlers m I C _
      (chainStart_onHandlers m C _ _ _ (cur.Result res)
        (by simp only [Context.Result]; rw [hC]; exact hhook Event.Failed (by simp)) q3
        (by simp only [handlersBound]; omega) hC) n hn
  | Denied res =>
    simp only [Op.exec, Context.Denied, Instance.denied_eq]
    exact Context.OnHandlers.run_handlers m I C _
      (chainStart_onHandlers m C _ _ _ (cur.Result res)
        (by simp only [Context.Result]; rw [hC]; exact hhook Event.Denied (by simp)) q4
        (by simp only [handlersBound]; omega) hC) n hn

/-- A chain whose bound methods complete into a set of contexts `Good`, on which
runs complete and stay, completes from every cursor: into `Good`, or on the same
chain with the cursor not moved back. -/
theorem chain_total (m : Module) (I : Infra) (C : Option Event)
    (hq : quietTerminals m C = true) (L : List ctxFunc) (Good : Context → Prop) (F : Nat)
    (hGoodCfg : ∀ c, Good c → c.Config = C)
    (hGoodAssign : ∀ a c, Good c → Good (Assign.apply a c))
    (hGoodTotal : ∀ c, Good c → ∀ n, F ≤ n → ∃ c', Context.Next m I n c = some c' ∧ Good c')
    (hHandlersGood : ∀ c, c.OnHandlers m C → Good c)
    (hF : handlersBound m + 1 ≤ F)
    (hmeth : ∀ x, some (Fn.method x) ∈ L → ∀ c, c.Config = C → ∀ n, F ≤ n →
      ∃ c', invoke (Context.Next m I n) m I (Fn.method x) c = some c' ∧ Good c') :
    ∀ (d : Nat) (c : Context), c.Config = C → c.nexts = L → L.length - c.index ≤ d →
      ∀ n, d + F + 1 ≤ n →
        ∃ c', Context.Next m I n c = some c' ∧
          (Good c' ∨ (c'.Config = C ∧ c'.nexts = L ∧ c.index ≤ c'.index)) := by
  intro d
  induction d with
  | zero =>
    intro c hC hL hd n hn
    obtain ⟨k, rfl⟩ : ∃ k, n = k + 1 := ⟨n - 1, by omega⟩
    have : c.nexts[c.index]? = none := List.getElem?_eq_none (by rw [hL]; omega)
    exact ⟨c, by simp [Context.Next, this], Or.inr ⟨hC, hL, le_refl _⟩⟩
  | succ d ih =>
    intro c hC hL hd n hn
    obtain ⟨k, rfl⟩ : ∃ k, n = k + 1 := ⟨n - 1, by omega⟩
    rw [Context.Next]
    cases hs : c.nexts[c.index]? with
    | none => exact ⟨c, rfl, Or.inr ⟨hC, hL, le_refl _⟩⟩
    | some slot =>
      have hlt : c.index < c.nexts.length := (List.getElem?_eq_some.mp hs).1
      cases slot with
      | none =>
        obtain ⟨c', h1, h2⟩ :=
          ih { c with index := c.index + 1 } hC hL (by simp only; rw [hL] at hlt; omega) k
            (by omega)
        refine ⟨c', h1, ?_⟩
        rcases h2 with h2 | ⟨a, b, e⟩
        · exact Or.inl h2
        · exact Or.inr ⟨a, b, by simp only at e; omega⟩
      | some f =>
        cases f with
        | method x =>
          have hmem : some (Fn.method x) ∈ L := hL ▸ mem_of_getElem?_eq_some _ _ _ hs
          obtain ⟨c', h1, h2⟩ := hmeth x hmem { c with index := c.index + 1 } hC k (by omega)
          exact ⟨c', h1, Or.inl h2⟩
        | user g =>
          simp only [invoke]
          obtain ⟨c', h1, h2⟩ :=
            runBody_total_all (Context.Next m I k) m
              (fun cur => Good cur ∨ (cur.Config = C ∧ cur.nexts = L ∧ c.index + 1 ≤ cur.index))
              (by
                intro op cur hcur
                have hcfg : cur.Config = C := by
                  rcases hcur with hcur | hcur
                  · exact hGoodCfg cur hcur
                  · exact hcur.1
                cases hterm : op.isTerminal with
                | true =>
                  obtain ⟨c', h1, h2⟩ := terminal_total m I C hq op hterm cur hcfg k (by omega)
                  exact ⟨c', h1, Or.inl (hHandlersGood c' h2)⟩
                | false =>
                  cases op with
                  | assign a =>
                    refine ⟨Assign.apply a cur, rfl, ?_⟩
                    rcases hcur with hcur | ⟨a1, a2, a3⟩
                    · exact Or.inl (hGoodAssign a cur hcur)
                    · obtain ⟨b1, b2, b3, -⟩ := Assign.apply_control a cur
                      exact Or.inr ⟨b3.trans a1, b1.trans a2, by omega⟩
                  | Next =>
                    rcases hcur with hcur | ⟨a1, a2, a3⟩
                    · obtain ⟨c', h1, h2⟩ := hGoodTotal cur hcur k (by omega)
                      exact ⟨c', h1, Or.inl h2⟩
                    · rw [hL] at hlt
                      obtain ⟨c', h1, h2⟩ := ih cur a1 a2 (by omega) k (by omega)
                      refine ⟨c', h1, ?_⟩
                      rcases h2 with h2 | ⟨b1, b2, b3⟩
                      · exact Or.inl h2
                      · exact Or.inr ⟨b1, b2, by omega⟩
                  | Found => simp [Op.isTerminal] at hterm
                  | Error res => simp [Op.isTerminal] at hterm
                  | Failed res => simp [Op.isTerminal] at hterm
                  | Denied res => simp [Op.isTerminal] at hterm)
              g.body ({ c with index := c.index + 1 }.log (Ev.call g.id))
              (Or.inr ⟨hC, hL, le_refl _⟩)
          refine ⟨c', h1, ?_⟩
          rcases h2 with h2 | ⟨b1, b2, b3⟩
          · exact Or.inl h2
          · exact Or.inr ⟨b1, b2, by omega⟩

theorem Context.OnHandlers.assign_handlers (m : Module) (C : Option Event) (a : Assign) (c : Context)
    (h : c.OnHandlers m C) : (Assign.apply a c).OnHandlers m C := by
  obtain ⟨h1, h2, h3⟩ := h
  obtain ⟨b1, -, b3, -⟩ := Assign.apply_control a c
  exact ⟨b3.trans h1, by rw [b1]; exact h2, by rw [b1]; exact h3⟩

theorem Context.OnClosures.assign_closures (m : Module) (C : Option Event) (a : Assign) (c : Context)
    (h : c.OnClosures m C) : (Assign.apply a c).OnClosures m C := by
  obtain ⟨h1, h2, h3⟩ := h
  obtain ⟨b1, -, b3, -⟩ := Assign.apply_control a c
  exact ⟨b3.trans h1, by rw [b1]; exact h2, by rw [b1]; exact h3⟩

theorem Context.OnHandlers.onClosures (m : Module) (C : Option Event) (c : Context)
    (h : c.OnHandlers m C) : c.OnClosures m C := by
  obtain ⟨h1, h2, h3⟩ := h
  refine ⟨h1, ?_, by simp only [chainBound]; omega⟩
  intro x hx y hy
  rcases h2 x hx with h0 | ⟨f, hf, -⟩
  · rw [h0] at hy; cases hy
  · rw [hf] at hy; cases hy

/-- A run on a chain of closures completes, on a chain of closures. -/
theorem Context.OnClosures.run_closures (m : Module) (I : Infra) (C : Option Event)
    (hq : quietTerminals m C = true) (c : Context) (h : c.OnClosures m C) (n : Nat)
    (hn : chainBound m C + handlersBound m + 2 ≤ n) :
    ∃ c', Context.Next m I n c = some c' ∧ c'.OnClosures m C := by
  obtain ⟨h1, h2, h3⟩ := h
  obtain ⟨c', a1, a2⟩ :=
    chain_total m I C hq c.nexts (fun x => x.OnHandlers m C) (handlersBound m + 1)
      (fun x hx => hx.1) (fun a x hx => hx.assign_handlers m C a)
      (fun x hx k hk => hx.run_handlers m I C x k hk) (fun x hx => hx) (le_refl _)
      (fun x hx => absurd rfl (h2 _ hx x))
      (chainBound m C) c h1 rfl (by omega) n (by omega)
  refine ⟨c', a1, ?_⟩
  rcases a2 with a2 | ⟨b1, b2, -⟩
  · exact a2.onClosures m C
  · exact ⟨b1, by rw [b2]; exact h2, by rw [b2]; exact h3⟩

theorem asFuncs_userOnly (fs : List (Option UserFn)) : userOnly (asFuncs fs) := by
  intro x hx y hy
  simp only [asFuncs, List.mem_map] at hx
  obtain ⟨o, -, rfl⟩ := hx
  cases o <;> cases hy

theorem userOnly_append {l1 l2 : List ctxFunc} (h1 : userOnly l1) (h2 : userOnly l2) :
    userOnly (l1 ++ l2) := by
  intro x hx y hy
  rcases List.mem_append.mp hx with h | h
  · exact h1 x h y hy
  · exact h2 x h y hy

theorem Instance.execute_eq (K : Run) (m : Module) (c : Context) :
    Instance.execute K m c
      = K { c with
            index := 0
            nexts := asFuncs m.executeFilters ++
              match c.Config with
              | some ev => asFuncs ev.Actions ++ ev.Action.toList.map fun h => some (Fn.user h)
              | none => []
            trace := c.trace ++ [Ev.enter Method.execute] } := by
  cases hcfg : c.Config with
  | none => simp [Instance.execute, Context.log, Context.clear, Context.next, hcfg]
  | some ev =>
    cases hact : ev.Action <;> cases hacts : ev.Actions <;>
      simp [Instance.execute, Context.log, Context.clear, Context.next, hcfg, hact, hacts,
        asFuncs]

/-- The execute phase completes, on a chain of closures. -/
theorem Instance.execute_total (m : Module) (I : Infra) (C : Option Event)
    (hq : quietTerminals m C = true) (c : Context) (hC : c.Config = C) (n : Nat)
    (hn : chainBound m C + handlersBound m + 2 ≤ n) :
    ∃ c', Instance.execute (Context.Next m I n) m c = some c' ∧ c'.OnClosures m C := by
  rw [Instance.execute_eq]
  apply Context.OnClosures.run_closures m I C hq _ _ n hn
  refine ⟨hC, ?_, ?_⟩
  · apply userOnly_append (asFuncs_userOnly _)
    cases c.Config with
    | none => intro x hx; simp at hx
    | some ev =>
      apply userOnly_append (asFuncs_userOnly _)
      intro x hx y hy
      simp only [List.mem_map] at hx
      obtain ⟨f, -, rfl⟩ := hx
      cases hy
  · subst hC
    cases c.Config with
    | none => simp [chainBound, asFuncs]
    | some ev =>
      simp only [chainBound, asFuncs, List.length_append, List.length_map]
      cases ev.Action with
      | none => simp; omega
      | some a => simp

/-- What `arguing` does: it calls `Failed`, or it goes on with `Next` on a context
with the same queue, cursor and event. -/
theorem Instance.arguing_elim (K : Run) (m : Module) (I : Infra) (c : Context)
    (P : Option Context → Prop)
    (hfail : ∀ res, P (Context.Failed K m (some res) (c.log (Ev.enter Method.arguing))))
    (hgo : ∀ c1, c1.nexts = c.nexts → c1.index = c.index → c1.Config = c.Config → P (K c1)) :
    P (Instance.arguing K m I c) := by
  obtain ⟨index, nexts, Name, Config, Setting, Value, Args, Locals, Body, Meta, result, trace⟩ := c
  cases Config with
  | none => exact hgo _ rfl rfl rfl
  | some ev =>
    cases hargs : ev.Args with
    | none =>
      simp only [Instance.arguing, Context.log, hargs]
      exact hgo _ rfl rfl rfl
    | some schema =>
      cases hres : (I.Mapping schema Value ev.Nullable (some Meta)).2 with
      | none =>
        simp only [Instance.arguing, Context.log, hargs, hres]
        exact hgo _ rfl rfl rfl
      | some res =>
        cases hf : res.fail with
        | true =>
          simp only [Instance.arguing, Context.log, hargs, hres, hf, if_true]
          exact hfail res
        | false =>
          simp only [Instance.arguing, Context.log, hargs, hres, hf]
          exact hgo _ rfl rfl rfl

/-- The request phase completes, on a chain of closures. -/
theorem Instance.request_total (m : Module) (I : Infra) (C : Option Event)
    (hq : quietTerminals m C = true) (c : Context) (hC : c.Config = C) (n : Nat)
    (hn : chainBound m C + handlersBound m + 7 ≤ n) :
    ∃ c', Instance.request (Context.Next m I n) c = some c' ∧ c'.OnClosures m C := by
  obtain ⟨k, rfl⟩ : ∃ k, n = k + 1 + 1 + 1 + 1 + 1 := ⟨n - 5, by omega⟩
  have key : ∀ (op : Op), op.isTerminal = true → ∀ (cur : Context), cur.Config = C →
      ∀ n, handlersBound m + 1 ≤ n →
        ∃ c', Op.exec (Context.Next m I n) m op cur = some c' ∧ c'.OnClosures m C := by
    intro op hop cur hcur n hn
    obtain ⟨c', h1, h2⟩ := terminal_total m I C hq op hop cur hcur n hn
    exact ⟨c', h1, h2.onClosures m C⟩
  obtain ⟨index, nexts, Name, Config, Setting, Value, Args, Locals, Body, Meta, result, trace⟩ := c
  simp only at hC
  subst hC
  simp only [Instance.request, Context.log, Context.clear, Context.next, List.nil_append,
    List.cons_append]
  rw [Next_method m I _ _ Method.finding (by simp)]
  simp only [invoke, Instance.finding, Context.log]
  cases Config with
  | none => exact key Op.Found rfl _ rfl _ (by omega)
  | some ev =>
    simp only []
    rw [Next_method m I _ _ Method.authorizing (by simp)]
    simp only [invoke, Instance.authorizing, Context.log]
    rw [Next_method m I _ _ Method.arguing (by simp)]
    simp only [invoke]
    refine Instance.arguing_elim (Context.Next m I (k + 1 + 1)) m I _
      (fun r => ∃ c', r = some c' ∧ c'.OnClosures m (some ev)) ?_ ?_
    · intro res
      exact key (Op.Failed (some res)) rfl _ rfl _ (by omega)
    · intro c1 e1 e2 e3
      rw [Next_method m I _ _ Method.execute (by rw [e1, e2]; simp)]
      simp only [invoke]
      exact Instance.execute_total m I _ hq _ e3 (k + 1) (by omega)

theorem method_mem_append_asFuncs (fs : List (Option UserFn)) (y x : Method)
    (h : some (Fn.method x) ∈ asFuncs fs ++ [some (Fn.method y)]) : x = y := by
  rcases List.mem_append.mp h with h | h
  · exact absurd rfl (asFuncs_userOnly fs _ h x)
  · simp only [List.mem_singleton, Option.some.injEq, Fn.method.injEq] at h
    exact h

theorem Instance.body_onClosures (m : Module) (C : Option Event) (c : Context)
    (h : c.OnClosures m C) : (Instance.body c).OnClosures m C := h

/-- The response phase completes, on a chain of closures. -/
theorem Instance.response_total (m : Module) (I : Infra) (C : Option Event)
    (hq : quietTerminals m C = true) (c : Context) (hC : c.Config = C) (n : Nat)
    (hn : chainBound m C + handlersBound m + 2 ≤ n) :
    ∃ c', Instance.response (Context.Next m I n) m c = some c' ∧ c'.OnClosures m C := by
  obtain ⟨c', h1, h2⟩ := Context.OnClosures.run_closures m I C hq
    (((c.log (Ev.enter Method.response)).clear).next (asFuncs m.responseFilters))
    ⟨hC, by simpa [Context.next, Context.clear, Context.log] using asFuncs_userOnly _,
      by simp [Context.next, Context.clear, Context.log, asFuncs, chainBound]; omega⟩ n hn
  exact ⟨Instance.body c', by simp [Instance.response, h1], Instance.body_onClosures m C c' h2⟩

/-- The serve phase completes, on a chain of closures. -/
theorem Instance.serve_total (m : Module) (I : Infra) (C : Option Event)
    (hq : quietTerminals m C = true) (c : Context) (hC : c.Config = C) (n : Nat)
    (hn : m.requestFilters.length + chainBound m C + handlersBound m + 9 ≤ n) :
    ∃ c', Instance.serve (Context.Next m I n) m c = some c' ∧ c'.OnClosures m C := by
  obtain ⟨c3, h1, h2⟩ :=
    chain_total m I C hq (asFuncs m.requestFilters ++ [some (Fn.method Method.request)])
      (fun x => x.OnClosures m C) (chainBound m C + handlersBound m + 7)
      (fun x hx => hx.1) (fun a x hx => hx.assign_closures m C a)
      (fun x hx k hk => hx.run_closures m I C hq x k (by omega))
      (fun x hx => hx.onClosures m C) (by omega)
      (fun x hx cur hcur k hk => by
        have := method_mem_append_asFuncs _ _ _ hx
        subst this
        exact Instance.request_total m I C hq cur hcur k hk)
      (m.requestFilters.length + 1)
      ((((c.log (Ev.enter Method.serve)).clear).next (asFuncs m.requestFilters)).next
        [some (Fn.method Method.request)])
      hC (by simp [Context.next, Context.clear, Context.log])
      (by simp [asFuncs]) n (by omega)
  have hC3 : c3.Config = C := by
    rcases h2 with h2 | h2
    · exact h2.1
    · exact h2.1
  obtain ⟨c', h3, h4⟩ := Instance.response_total m I C hq c3 hC3 n (by omega)
  exact ⟨c', by simp only [Instance.serve, h1, h3], h4⟩

/-- The dispatch completes, on a chain of closures or on what is left of the chain
`open` installed. -/
theorem Instance.open_total (m : Module) (I : Infra) (C : Option Event)
    (hq : quietTerminals m C = true) (c : Context) (hC : c.Config = C) (n : Nat)
    (hn : depthBound m C ≤ n) :
    ∃ c', Instance.open (Context.Next m I n) m c = some c' := by
  obtain ⟨c', h1, -⟩ :=
    chain_total m I C hq (asFuncs m.serveFilters ++ [some (Fn.method Method.serve)])
      (fun x => x.OnClosures m C)
      (m.requestFilters.length + chainBound m C + handlersBound m + 9)
      (fun x hx => hx.1) (fun a x hx => hx.assign_closures m C a)
      (fun x hx k hk => hx.run_closures m I C hq x k (by omega))
      (fun x hx => hx.onClosures m C) (by omega)
      (fun x hx cur hcur k hk => by
        have := method_mem_append_asFuncs _ _ _ hx
        subst this
        exact Instance.serve_total m I C hq cur hcur k hk)
      (m.serveFilters.length + 1)
      ((((c.log (Ev.enter Method.open)).clear).next (asFuncs m.serveFilters)).next
        [some (Fn.method Method.serve)])
      hC (by simp [Context.next, Context.clear, Context.log])
      (by simp [asFuncs]) n (by simp only [depthBound] at hn; omega)
  exact ⟨c', h1⟩

/-! ### The serve phase -/

theorem Instance.serve_eq (K : Run) (m : Module) (ctx : Context) :
    Instance.serve K m ctx
      = (K { ctx with
            index := 0
            nexts := asFuncs m.requestFilters ++ [some (Fn.method Method.request)]
            trace := ctx.trace ++ [Ev.enter Method.serve] }).bind
          (fun c1 =>
            (K { c1 with
                index := 0
                nexts := asFuncs m.responseFilters
                trace := c1.trace ++ [Ev.enter Method.response] }).map Instance.body) := by
  simp only [Instance.serve, Instance.response, Context.log, Context.clear, Context.next,
    List.nil_append]
  cases K { ctx with
        index := 0
        nexts := asFuncs m.requestFilters ++ [some (Fn.method Method.request)]
        trace := ctx.trace ++ [Ev.enter Method.serve] } with
  | none => rfl
  | some c1 => rfl

/-- In a completed `serve`, the request chain has returned before `response` is
entered. -/
theorem Instance.serve_trace (m : Module) (I : Infra) (n : Nat) (ctx c2 : Context)
    (h2 : Instance.serve (Context.Next m I n) m ctx = some c2) :
    ∃ c1 t1 t2,
      Context.Next m I n
        { ctx with
          index := 0
          nexts := asFuncs m.requestFilters ++ [some (Fn.method Method.request)]
          trace := ctx.trace ++ [Ev.enter Method.serve] } = some c1 ∧
      c1.trace = ctx.trace ++ Ev.enter Method.serve :: t1 ∧
      c2.trace = c1.trace ++ Ev.enter Method.response :: t2 := by
  rw [Instance.serve_eq] at h2
  cases h1 : Context.Next m I n
      { ctx with
        index := 0
        nexts := asFuncs m.requestFilters ++ [some (Fn.method Method.request)]
        trace := ctx.trace ++ [Ev.enter Method.serve] } with
  | none => simp [h1] at h2
  | some c1 =>
    simp only [h1, Option.some_bind, Option.map_eq_some'] at h2
    obtain ⟨c3, h3, rfl⟩ := h2
    obtain ⟨t1, ht1⟩ := Next_trace m I n _ _ h1
    obtain ⟨t2, ht2⟩ := Next_trace m I n _ _ h3
    refine ⟨c1, t1, t2 ++ [Ev.enter Method.body], rfl, ?_, ?_⟩
    · rw [ht1]; simp
    · simp only [Instance.body, Context.log, ht2]
      simp

/-- With quiet terminal chains, `serve` completes at every sufficient depth, whatever
the filters and actions do, and enters `response` after the request chain has
returned. -/
theorem Instance.serve_completes (m : Module) (I : Infra) (ctx : Context)
    (hq : quietTerminals m ctx.Config = true) :
    ∃ c1 c2 t1 t2,
      c1.trace = ctx.trace ++ Ev.enter Method.serve :: t1 ∧
      c2.trace = c1.trace ++ Ev.enter Method.response :: t2 ∧
      ∀ n, depthBound m ctx.Config ≤ n →
        Context.Next m I n
          { ctx with
            index := 0
            nexts := asFuncs m.requestFilters ++ [some (Fn.method Method.request)]
            trace := ctx.trace ++ [Ev.enter Method.serve] } = some c1 ∧
        Instance.serve (Context.Next m I n) m ctx = some c2 := by
  obtain ⟨c2, h2, -⟩ := Instance.serve_total m I ctx.Config hq ctx rfl
    (depthBound m ctx.Config) (by simp only [depthBound]; omega)
  obtain ⟨c1, t1, t2, h1, e1, e2⟩ := Instance.serve_trace m I _ ctx c2 h2
  refine ⟨c1, c2, t1, t2, e1, e2, ?_⟩
  intro n hn
  exact ⟨Next_mono m I hn _ _ h1,
    invoke_mono (Next_mono m I hn) m I (Fn.method Method.serve) ctx c2 h2⟩

/-- Right after `Open` and `Start` the subjects of every connection are those of
the declared events, and every queue is empty. -/
theorem Module.subjectsDeclared_of_open_start (I : Infra) (m0 m1 m2 : Module)
    (hclosed : m0.opened = false) (hnone : m0.instances = [])
    (hopen : Module.Open I m0 = .ok m1) (hstart : Module.Start m1 = .ok m2) :
    m2.SubjectsDeclared ∧
    ∀ k inst conn subject, GoMap.get m2.instances k = some inst → inst.conn = some conn →
      conn.receive subject = none := by
  obtain ⟨hev1, hgood1⟩ := Module.Open_subjects I m0 m1 hclosed hnone hopen
  have hev2 : m2.events = m0.events := by
    rw [← hev1]
    unfold Module.Start at hstart
    by_cases hs : m1.started = true
    · simp only [hs, if_true] at hstart
      cases hstart
      rfl
    · simp only [hs] at hstart
      cases hsi : startInstances m1.instances with
      | error e => simp [hsi] at hstart
      | ok l' =>
        simp [hsi] at hstart
        subst hstart
        rfl
  have hgood2 : ∀ k inst, GoMap.get m2.instances k = some inst →
      ∃ conn, inst.conn = some conn ∧
        (∀ x, x ∈ GoMap.keys conn.events → ∃ ev, ev ∈ GoMap.keys m0.events ∧
          (x = inst.Config.Prefix ++ broadcastSubjectPrefix ++ ev ∨
            x = inst.Config.Prefix ++ publishSubjectPrefix ++ ev)) ∧
        (∀ e ∈ conn.events, e.2 = []) := by
    intro k inst2 hg
    obtain ⟨inst1, h1, h2, h3, h4⟩ := Module.Start_subjects m1 m2 hstart k inst2 hg
    obtain ⟨conn1, hc1, hk1, he1⟩ := hgood1 k inst1 h1
    cases hc2 : inst2.conn with
    | none =>
      have := h4 (by simp [hc1])
      simp [hc2] at this
    | some conn2 =>
      have hev : conn2.events = conn1.events := by simpa [hc1, hc2] using h3
      exact ⟨conn2, rfl, by rw [hev, h2]; exact hk1, by rw [hev]; exact he1⟩
  constructor
  · intro k inst conn hg hc x hx
    obtain ⟨conn', hc', hk, -⟩ := hgood2 k inst hg
    have : conn' = conn := Option.some.inj (hc'.symm.trans hc)
    subst this
    rw [hev2]
    exact hk x hx
  · intro k inst conn subject hg hc
    obtain ⟨conn', hc', -, he⟩ := hgood2 k inst hg
    have : conn' = conn := Option.some.inj (hc'.symm.trans hc)
    subst this
    exact defaultConnection.receive_of_empty _ _ he

theorem defaultConnection.Publish_keys (c c' : defaultConnection) (subject : String)
    (data : Bytes) (err : Option Err) (h : c.Publish subject data = .returned err c') :
    GoMap.keys c'.events = GoMap.keys c.events := by
  unfold defaultConnection.Publish at h
  cases hq : GoMap.get c.events subject with
  | none =>
    simp only [hq, Outcome.returned.injEq] at h
    rw [← h.2]
  | some queue =>
    simp only [hq] at h
    split at h
    · simp only [Outcome.returned.injEq] at h
      rw [← h.2]
      exact GoMap.keys_set_of_get _ _ _ _ hq
    · cases h

/-- A publish that returns leaves the module as it was, or replaces the connection
of one instance by one with the same subjects. -/
theorem Module.publishMode_cases (I : Infra) (m m' : Module)
    (connName mode name : String) (values : List (Option Map)) (err : Option Err)
    (h : m.publishMode I connName mode name values = .returned err m') :
    m' = m ∨ ∃ cn inst conn conn', GoMap.get m.instances cn = some inst ∧
      inst.conn = some conn ∧ GoMap.keys conn'.events = GoMap.keys conn.events ∧
      m' = { m with instances := GoMap.set m.instances cn { inst with conn := some conn' } } := by
  unfold Module.publishMode at h
  by_cases hname : name = ""
  · simp only [hname, if_true, Outcome.returned.injEq] at h
    exact Or.inl h.2.symm
  · simp only [hname, if_false] at h
    split at h
    · simp only [Outcome.returned.injEq] at h
      exact Or.inl h.2.symm
    · rename_i cn _
      cases hi : GoMap.get m.instances cn with
      | none =>
        simp only [hi, Outcome.returned.injEq] at h
        exact Or.inl h.2.symm
      | some inst =>
        cases hc : inst.conn with
        | none =>
          simp only [hi, hc, Outcome.returned.injEq] at h
          exact Or.inl h.2.symm
        | some conn =>
          simp only [hi, hc] at h
          split at h
          · simp only [Outcome.returned.injEq] at h
            exact Or.inl h.2.symm
          · rename_i data _
            split at h
            · cases h
            · rename_i err' conn' hp
              simp only [Outcome.returned.injEq] at h
              exact Or.inr ⟨cn, inst, conn, conn', hi, hc,
                defaultConnection.Publish_keys _ _ _ _ _ hp, h.2.symm⟩

/-- A publish that returns keeps the subjects of every connection. -/
theorem Module.publishMode_subjectsDeclared (I : Infra) (m m' : Module)
    (connName mode name : String) (values : List (Option Map)) (err : Option Err)
    (hinv : m.SubjectsDeclared)
    (h : m.publishMode I connName mode name values = .returned err m') :
    m'.SubjectsDeclared := by
  rcases Module.publishMode_cases I m m' connName mode name values err h with
    rfl | ⟨cn, inst, conn, conn', hi, hc, hkeys, rfl⟩
  · exact hinv
  · intro k inst' conn'' hg hc' x hx
    by_cases hk : cn = k
    · subst hk
      simp only [GoMap.get_set_self, Option.some.injEq] at hg
      subst hg
      simp only [Option.some.injEq] at hc'
      subst hc'
      rw [hkeys] at hx
      exact hinv cn inst conn hi hc x hx
    · simp only [GoMap.get_set_ne _ _ _ _ hk] at hg
      exact hinv k inst' conn'' hg hc' x hx

/-! ### Registering a subject twice -/

theorem GoMap.keys_set_of_none {α : Type} (m : GoMap α) (k : String) (v : α)
    (h : GoMap.get m k = none) : GoMap.keys (GoMap.set m k v) = GoMap.keys m ++ [k] := by
  induction m with
  | nil => simp [GoMap.set, GoMap.keys]
  | cons e rest ih =>
    obtain ⟨k', v'⟩ := e
    by_cases hk : k' = k
    · simp [GoMap.get, hk] at h
    · simp only [GoMap.get, hk, if_false] at h
      simp only [GoMap.set, hk, if_false, GoMap.keys, List.map_cons, List.cons_append]
      exact congrArg _ (ih h)

theorem defaultConnection.Register_registered (c : defaultConnection) (name group : String)
    (q : List Bytes) (h : GoMap.get c.events name = some q) :
    c.Register name group = (none, c) := by
  simp [defaultConnection.Register, h]

theorem defaultConnection.Register_get_self (c : defaultConnection) (name group : String) :
    ∃ q, GoMap.get (c.Register name group).2.events name = some q := by
  unfold defaultConnection.Register
  cases h : GoMap.get c.events name with
  | some q => exact ⟨q, h⟩
  | none => exact ⟨[], GoMap.get_set_self _ _ _⟩

theorem defaultConnection.Register_keys (c : defaultConnection) (name group : String) :
    ((GoMap.keys c.events).Nodup → (GoMap.keys (c.Register name group).2.events).Nodup) ∧
    (∀ s, s ∈ GoMap.keys (c.Register name group).2.events ↔
      s = name ∨ s ∈ GoMap.keys c.events) := by
  unfold defaultConnection.Register
  cases h : GoMap.get c.events name with
  | some q =>
    refine ⟨fun hn => hn, fun s => ⟨Or.inr, fun hs => ?_⟩⟩
    rcases hs with rfl | hs
    · by_contra hnot
      rw [← GoMap.get_eq_none_iff] at hnot
      rw [hnot] at h
      cases h
    · exact hs
  | none =>
    have hnot := (GoMap.get_eq_none_iff _ _).mp h
    simp only [GoMap.keys_set_of_none _ _ _ h]
    refine ⟨fun hn => ?_, fun s => ?_⟩
    · exact List.Nodup.append hn (by simp) (by
        intro a ha hb
        simp at hb
        exact hnot (hb ▸ ha))
    · simp [or_comm]

theorem defaultConnection.registerAll_spec (subjects : List (String × String)) :
    ∀ c : defaultConnection,
      (defaultConnection.registerAll c subjects).running = c.running ∧
      (defaultConnection.registerAll c subjects).consumers = c.consumers ∧
      ((GoMap.keys c.events).Nodup →
        (GoMap.keys (defaultConnection.registerAll c subjects).events).Nodup) ∧
      (∀ s, s ∈ GoMap.keys (defaultConnection.registerAll c subjects).events ↔
        s ∈ subjects.map Prod.fst ∨ s ∈ GoMap.keys c.events) := by
  induction subjects with
  | nil => intro c; simp [defaultConnection.registerAll]
  | cons e rest ih =>
    intro c
    obtain ⟨name, group⟩ := e
    obtain ⟨h1, h2, h3, h4⟩ := ih (c.Register name group).2
    have hs := defaultConnection.Register_spec c name group
    have hk := defaultConnection.Register_keys c name group
    simp only [defaultConnection.registerAll]
    refine ⟨h1.trans hs.2.1, h2.trans hs.2.2.1, fun hn => h3 (hk.1 hn), fun s => ?_⟩
    rw [h4 s, hk.2 s]
    simp only [List.map_cons, List.mem_cons]
    tauto

/-! ### The chains Setup builds -/

theorem foldl_appendHook {α : Type} (kind : α → Option UserFn) (fs : List α) :
    ∀ acc : List (Option UserFn),
      fs.foldl (fun chain f => appendHook chain (kind f)) acc
        = acc ++ (fs.map kind).filter Option.isSome := by
  induction fs with
  | nil => intro acc; simp
  | cons f rest ih =>
    intro acc
    rw [List.foldl_cons, ih, List.map_cons]
    cases h : kind f with
    | none => simp [appendHook, List.filter_cons]
    | some u => simp [appendHook, List.filter_cons]

theorem hooksOf_eq (kind : Filter → Option UserFn) (fs : GoMap Filter) :
    ((fs.map Prod.snd).foldl (fun chain f => appendHook chain (kind f)) [])
      = hooksOf kind fs := by
  rw [foldl_appendHook]
  simp [hooksOf, List.map_map, Function.comp_def]

theorem hooksOf_perm (kind : Filter → Option UserFn) (fs gs : GoMap Filter)
    (h : fs.Perm gs) : (hooksOf kind fs).Perm (hooksOf kind gs) :=
  (h.map _).filter _

/-! ### The defaults Setup writes -/

theorem Config.defaults_eq (cfg : Config) :
    Config.defaults cfg =
      { Driver := if cfg.Driver = "" then DEFAULT else cfg.Driver
        External := cfg.External
        Codec := if cfg.Codec = "" then GOB else cfg.Codec
        Weight := if cfg.Weight = 0 then 1 else cfg.Weight
        Prefix := cfg.Prefix
        Setting := cfg.Setting } := by
  unfold Config.defaults
  by_cases h1 : cfg.Driver = "" <;> by_cases h2 : cfg.Codec = "" <;>
    by_cases h3 : cfg.Weight = 0 <;> simp [h1, h2, h3]

theorem Config.defaults_complete (cfg : Config) :
    (Config.defaults cfg).Driver ≠ "" ∧ (Config.defaults cfg).Codec ≠ "" ∧
      (Config.defaults cfg).Weight ≠ 0 := by
  rw [Config.defaults_eq]
  refine ⟨?_, ?_, ?_⟩
  · by_cases h : cfg.Driver = ""
    · simp only [h, if_true]; decide
    · simp [h]
  · by_cases h : cfg.Codec = ""
    · simp only [h, if_true]; decide
    · simp [h]
  · by_cases h : cfg.Weight = 0
    · simp [h]
    · simp [h]

theorem Config.defaults_idem (cfg : Config) :
    Config.defaults (Config.defaults cfg) = Config.defaults cfg := by
  obtain ⟨h1, h2, h3⟩ := Config.defaults_complete cfg
  rw [Config.defaults_eq (Config.defaults cfg)]
  simp [h1, h2, h3]

theorem Module.Setup_configs_eq (o : RangeOrder) (m : Module) :
    (Module.Setup o m).configs =
      (if m.configs = [] then [(DEFAULT, defaultConfig)] else m.configs).map
        fun e => (e.1, Config.defaults e.2) := by
  by_cases h : m.configs = []
  · simp [Module.Setup, h, GoMap.set, defaultConfig]
  · have hl : m.configs.length ≠ 0 := fun h0 => h (List.length_eq_zero.mp h0)
    simp [Module.Setup, h, hl]

/-! ### The routing table and the instance map after Open -/

theorem GoMap.mem_set {α : Type} (m : GoMap α) (k : String) (v : α) (e : String × α)
    (h : e ∈ GoMap.set m k v) : e = (k, v) ∨ e ∈ m := by
  induction m with
  | nil => simpa [GoMap.set] using h
  | cons e0 rest ih =>
    obtain ⟨k0, v0⟩ := e0
    by_cases h0 : k0 = k
    · simp only [GoMap.set, h0, if_true, List.mem_cons] at h
      rcases h with h | h
      · exact Or.inl h
      · exact Or.inr (List.mem_cons_of_mem _ h)
    · simp only [GoMap.set, h0, if_false, List.mem_cons] at h
      rcases h with h | h
      · exact Or.inr (h ▸ List.mem_cons_self _ _)
      · rcases ih h with h1 | h1
        · exact Or.inl h1
        · exact Or.inr (List.mem_cons_of_mem _ h1)

/-- Every entry of the weights table `openConfigs` builds is positive when every
entry it started from is. -/
theorem openConfigs_weights_pos (m : Module) (profile : String) :
    ∀ (cfgs : List (String × Config)) (i : GoMap Instance) (w : GoMap Int)
      (i' : GoMap Instance) (w' : GoMap Int),
      openConfigs m profile cfgs i w = .ok (i', w') → (∀ e ∈ w, 0 < e.2) →
      ∀ e ∈ w', 0 < e.2 := by
  intro cfgs
  induction cfgs with
  | nil =>
    intro i w i' w' h hw
    simp [openConfigs] at h
    rw [← h.2]
    exact hw
  | cons e rest ih =>
    intro i w i' w' h hw
    obtain ⟨k, c⟩ := e
    unfold openConfigs at h
    cases hd : GoMap.get m.drivers c.Driver with
    | none => simp [hd] at h
    | some d =>
      cases d
      simp only [hd, defaultConnection.Open] at h
      cases hr : registerEvents k c.Prefix profile m.events defaultDriver.Connect with
      | error e => simp [hr] at h
      | ok conn =>
        simp only [hr] at h
        refine ih _ _ _ _ h ?_
        intro e he
        split at he
        · rename_i hpos
          rcases GoMap.mem_set _ _ _ _ he with h1 | h1
          · rw [h1]; exact hpos
          · exact hw e h1
        · exact hw e he

/-- The instance map `openConfigs` builds gains the names of the configs, in
order. -/
theorem openConfigs_instances_keys (m : Module) (profile : String) :
    ∀ (cfgs : List (String × Config)) (i : GoMap Instance) (w : GoMap Int)
      (i' : GoMap Instance) (w' : GoMap Int),
      openConfigs m profile cfgs i w = .ok (i', w') → (GoMap.keys cfgs).Nodup →
      (∀ k ∈ GoMap.keys cfgs, k ∉ GoMap.keys i) →
      GoMap.keys i' = GoMap.keys i ++ GoMap.keys cfgs := by
  intro cfgs
  induction cfgs with
  | nil =>
    intro i w i' w' h _ _
    simp [openConfigs] at h
    simp [h.1, GoMap.keys]
  | cons e rest ih =>
    intro i w i' w' h hnd hfresh
    obtain ⟨k, c⟩ := e
    simp only [GoMap.keys, List.map_cons, List.nodup_cons] at hnd
    unfold openConfigs at h
    cases hd : GoMap.get m.drivers c.Driver with
    | none => simp [hd] at h
    | some d =>
      cases d
      simp only [hd, defaultConnection.Open] at h
      cases hr : registerEvents k c.Prefix profile m.events defaultDriver.Connect with
      | error e => simp [hr] at h
      | ok conn =>
        simp only [hr] at h
        have hk : GoMap.get i k = none :=
          (GoMap.get_eq_none_iff _ _).mpr (hfresh k (by simp [GoMap.keys]))
        have hstep := ih _ _ _ _ h hnd.2 (by
          intro x hx
          rw [GoMap.keys_set_of_none _ _ _ hk]
          simp only [List.mem_append, List.mem_singleton, not_or]
          refine ⟨hfresh x (by simp only [GoMap.keys, List.map_cons]; exact List.mem_cons_of_mem _ hx), ?_⟩
          intro hxk
          exact hnd.1 (hxk ▸ hx))
        rw [hstep, GoMap.keys_set_of_none _ _ _ hk]
        simp [GoMap.keys]

/-! ### Recovering the event name from a subject -/

theorem hasLead_append (p rest : String) : hasLead p (p ++ rest) = true := by
  simp [hasLead, String.data_append]

theorem dropLead_append (p rest : String) : dropLead p (p ++ rest) = rest := by
  simp [dropLead, String.data_append]

theorem hasLead_broadcast_publish (rest : String) :
    hasLead broadcastSubjectPrefix (publishSubjectPrefix ++ rest) = false := by
  simp only [hasLead, String.data_append, broadcastSubjectPrefix, publishSubjectPrefix]
  rfl

theorem recoverName_subject (cfg : Config) (mode name : String)
    (hmode : mode = publishSubjectPrefix ∨ mode = broadcastSubjectPrefix) :
    recoverName cfg (cfg.Prefix ++ mode ++ name) = name := by
  have hstrip : (if cfg.Prefix ≠ "" ∧ hasLead cfg.Prefix (cfg.Prefix ++ mode ++ name) then
      dropLead cfg.Prefix (cfg.Prefix ++ mode ++ name) else cfg.Prefix ++ mode ++ name)
      = mode ++ name := by
    by_cases hp : cfg.Prefix = ""
    · simp [hp]
    · rw [String.append_assoc, if_pos ⟨hp, hasLead_append _ _⟩, dropLead_append]
  unfold recoverName
  simp only [hstrip]
  rcases hmode with h | h
  · subst h
    simp [hasLead_broadcast_publish, hasLead_append, dropLead_append]
  · subst h
    simp [hasLead_append, dropLead_append]

/-! ### The payload a publish sends -/

theorem Module.publishMode_eq_sendPayload (I : Infra) (m : Module)
    (connName cn mode name : String) (values : List (Option Map)) (inst : Instance)
    (conn : defaultConnection) (hname : name ≠ "")
    (hres : m.resolve I connName name = some cn)
    (hinst : GoMap.get m.instances cn = some inst) (hc : inst.conn = some conn) :
    m.publishMode I connName mode name values =
      m.sendPayload I cn inst conn mode name
        (match GoMap.get m.declares name with
          | some dec =>
            match dec.Args with
            | some schema =>
              match (I.Mapping schema (firstPayload values) dec.Nullable none).2 with
              | none => (I.Mapping schema (firstPayload values) dec.Nullable none).1
              | some res =>
                if res.ok then (I.Mapping schema (firstPayload values) dec.Nullable none).1
                else firstPayload values
            | none => firstPayload values
          | none => firstPayload values) := by
  unfold Module.resolve at hres
  by_cases hcn : connName = ""
  · cases hring : m.hashring with
    | none => simp [hcn, hring] at hres
    | some ring =>
      simp only [hcn, hring, if_true, Option.some.injEq] at hres
      subst hres
      simp only [Module.publishMode, hname, hcn, hring, hinst, hc, if_true, if_false,
        Module.sendPayload, Instance.encode, firstPayload]
  · simp only [hcn, if_false, Option.some.injEq] at hres
    subst hres
    simp only [Module.publishMode, hname, hcn, hinst, hc, if_false,
      Module.sendPayload, Instance.encode, firstPayload]

/-- A payload that encodes is published on the subject of the event, unless the
send blocks on a full queue: no error is returned. -/
theorem Module.sendPayload_of_encoded (I : Infra) (m : Module) (cn : String) (inst : Instance)
    (conn : defaultConnection) (mode name : String) (payload : Map) (data : Bytes)
    (henc : Instance.encode I inst name payload = .ok data) :
    m.sendPayload I cn inst conn mode name payload = .blocked ∨
    ∃ conn', m.sendPayload I cn inst conn mode name payload =
        .returned none
          { m with instances := GoMap.set m.instances cn { inst with conn := some conn' } } ∧
      conn'.published = conn.published ++ [(inst.Config.Prefix ++ mode ++ name, data)] := by
  simp only [Module.sendPayload, henc, defaultConnection.Publish]
  cases hq : GoMap.get conn.events (inst.Config.Prefix ++ mode ++ name) with
  | none => exact Or.inr ⟨_, rfl, rfl⟩
  | some queue =>
    by_cases hlen : queue.length < 64
    · simp only [hlen, if_true]
      exact Or.inr ⟨_, rfl, rfl⟩
    · simp [hlen]

/-! ### Messages of a subject are served in the order sent -/

theorem servedOf_append (name : String) (a b : List (String × Bytes)) :
    servedOf name (a ++ b) = servedOf name a ++ servedOf name b := by
  simp [servedOf]

theorem defaultConnection.run_fifo (name : String) :
    ∀ (steps : List Step) (c c' : defaultConnection) (served served' : List (String × Bytes)),
      defaultConnection.run steps c served = some (c', served') →
      ∀ q, GoMap.get c.events name = some q →
        ∃ q', GoMap.get c'.events name = some q' ∧
          servedOf name served' ++ q' = servedOf name served ++ q ++ sentTo name steps := by
  intro steps
  induction steps with
  | nil =>
    intro c c' served served' h q hq
    simp only [defaultConnection.run, Option.some.injEq, Prod.mk.injEq] at h
    obtain ⟨rfl, rfl⟩ := h
    exact ⟨q, hq, by simp [sentTo]⟩
  | cons s rest ih =>
    intro c c' served served' h q hq
    cases s with
    | publish n data =>
      simp only [defaultConnection.run, defaultConnection.Publish] at h
      by_cases hn : n = name
      · subst hn
        simp only [hq] at h
        by_cases hlen : q.length < 64
        · simp only [hlen, if_true] at h
          obtain ⟨q', hq', heq⟩ := ih _ _ _ _ h (q ++ [data]) (GoMap.get_set_self _ _ _)
          exact ⟨q', hq', by simp [heq, sentTo]⟩
        · simp [hlen] at h
      · cases hqn : GoMap.get c.events n with
        | none =>
          simp only [hqn] at h
          obtain ⟨q', hq', heq⟩ := ih _ _ _ _ h q hq
          exact ⟨q', hq', by simp [heq, sentTo, hn]⟩
        | some qn =>
          simp only [hqn] at h
          by_cases hlen : qn.length < 64
          · simp only [hlen, if_true] at h
            obtain ⟨q', hq', heq⟩ := ih _ _ _ _ h q
              ((GoMap.get_set_ne _ _ _ _ hn).trans hq)
            exact ⟨q', hq', by simp [heq, sentTo, hn]⟩
          · simp [hlen] at h
    | receive n =>
      simp only [defaultConnection.run, defaultConnection.receive] at h
      by_cases hcons : n ∈ c.consumers
      · simp only [hcons, if_true] at h
        cases hqn : GoMap.get c.events n with
        | none => simp [hqn] at h
        | some qn =>
          cases qn with
          | nil => simp [hqn] at h
          | cons data queue =>
            simp only [hqn] at h
            by_cases hn : n = name
            · subst hn
              rw [hqn] at hq
              cases hq
              obtain ⟨q', hq', heq⟩ := ih _ _ _ _ h queue (GoMap.get_set_self _ _ _)
              rw [servedOf_append] at heq
              exact ⟨q', hq', by rw [heq]; simp [sentTo, servedOf]⟩
            · obtain ⟨q', hq', heq⟩ := ih _ _ _ _ h q
                ((GoMap.get_set_ne _ _ _ _ hn).trans hq)
              rw [servedOf_append] at heq
              exact ⟨q', hq', by rw [heq]; simp [sentTo, servedOf, hn]⟩
      · simp [hcons] at h

theorem sentTo_append (name : String) (a b : List Step) :
    sentTo name (a ++ b) = sentTo name a ++ sentTo name b := by
  induction a with
  | nil => rfl
  | cons s rest ih =>
    cases s with
    | publish n data =>
      by_cases hn : n = name
      · simp [sentTo, hn, ih]
      · simp [sentTo, hn, ih]
    | receive n => simpa [sentTo] using ih

/-- A publish that returns without error has sent its bytes on the subject of the
event, on the connection it resolved. -/
theorem Module.publishMode_run (I : Infra) (m m' : Module) (connName cn mode name : String)
    (values : List (Option Map)) (inst : Instance) (conn : defaultConnection)
    (hname : name ≠ "") (hres : m.resolve I connName name = some cn)
    (hinst : GoMap.get m.instances cn = some inst) (hc : inst.conn = some conn)
    (h : m.publishMode I connName mode name values = .returned none m') :
    ∃ data conn',
      defaultConnection.run [.publish (inst.Config.Prefix ++ mode ++ name) data] conn []
        = some (conn', []) ∧
      m' = { m with instances := GoMap.set m.instances cn { inst with conn := some conn' } } := by
  rw [Module.publishMode_eq_sendPayload I m connName cn mode name values inst conn hname hres
    hinst hc] at h
  simp only [Module.sendPayload] at h
  split at h
  · cases h
  · rename_i data _
    refine ⟨data, ?_⟩
    simp only [defaultConnection.run]
    split at h
    · cases h
    · rename_i err conn' hp
      simp only [Outcome.returned.injEq] at h
      exact ⟨conn', by rw [hp], h.2.symm⟩

/-! ### The cursor -/

theorem slotEvents_self (nexts : List ctxFunc) (i : Nat) : slotEvents nexts i i = [] := by
  simp [slotEvents]

theorem slotEvents_step (nexts : List ctxFunc) (i j : Nat) (slot : ctxFunc)
    (hs : nexts[i]? = some slot) (hij : i + 1 ≤ j) :
    slotEvents nexts i j = (slot.map Fn.event).toList ++ slotEvents nexts (i + 1) j := by
  have hlt : i < nexts.length := by
    by_contra hge
    rw [List.getElem?_eq_none (by omega)] at hs
    cases hs
  have hget : nexts[i] = slot := by
    rw [List.getElem?_eq_getElem hlt] at hs
    exact Option.some.inj hs
  have hd : nexts.drop i = slot :: nexts.drop (i + 1) := by
    rw [← hget]
    exact List.drop_eq_getElem_cons hlt
  have hj : j - i = (j - (i + 1)) + 1 := by omega
  simp only [slotEvents, hd, hj, List.take_succ_cons, List.filterMap_cons]
  cases slot with
  | none => simp
  | some f => simp

theorem slotEvents_append (nexts : List ctxFunc) (i j k : Nat) (hij : i ≤ j) (hjk : j ≤ k) :
    slotEvents nexts i j ++ slotEvents nexts j k = slotEvents nexts i k := by
  have hk : k - i = (j - i) + (k - j) := by omega
  have hd : nexts.drop j = (nexts.drop i).drop (j - i) := by
    rw [List.drop_drop]
    congr 1
    omega
  simp only [slotEvents, hk, hd, List.take_add, List.filterMap_append]

theorem Op.exec_extends (K : Run) (m : Module) (I : Infra)
    (hK : ∀ c c', K c = some c' → c.Extends c') (op : Op) (c c' : Context)
    (h : Op.exec K m op c = some c') : c.Extends c' := by
  cases op with
  | assign a =>
    simp only [Op.exec, Option.some.injEq] at h
    subst h
    exact ⟨[], by simp [(Assign.apply_control a c).2.2.2]⟩
  | Next => exact hK _ _ h
  | Found => exact invoke_trace K m I hK (.method .found) c c' h
  | Error res => exact invoke_trace K m I hK (.method .error) (c.Result res) c' h
  | Failed res => exact invoke_trace K m I hK (.method .failed) (c.Result res) c' h
  | Denied res => exact invoke_trace K m I hK (.method .denied) (c.Result res) c' h

theorem runBody_extends (K : Run) (m : Module) (I : Infra)
    (hK : ∀ c c', K c = some c' → c.Extends c') (body : List Op) (c c' : Context)
    (h : runBody K m body c = some c') : c.Extends c' :=
  runBody_partial K m (fun cur => c.Extends cur)
    (fun op cur c'' hcur hop => hcur.trans (Op.exec_extends K m I hK op cur c'' hop))
    body c c' (Context.Extends.refl c) h

/-- An invoked continuation first writes its own trace entry. -/
theorem invoke_first_event (K : Run) (m : Module) (I : Infra)
    (hK : ∀ c c', K c = some c' → c.Extends c') (f : Fn) (c c' : Context)
    (h : invoke K m I f c = some c') : ∃ t, c'.trace = c.trace ++ Fn.event f :: t := by
  have hrun : ∀ (c1 c'' : Context) (e : Ev), K c1 = some c'' → c1.trace = c.trace ++ [e] →
      ∃ t, c''.trace = c.trace ++ e :: t := by
    intro c1 c'' e hk he
    obtain ⟨t, ht⟩ := hK _ _ hk
    exact ⟨t, by rw [ht, he]; simp⟩
  have hterm : ∀ (x : Method) (hook : Option UserFn) (hs : List (Option UserFn))
      (cur c'' : Context), K (chainStart x hook hs cur) = some c'' →
      ∃ t, c''.trace = cur.trace ++ Ev.enter x :: t := by
    intro x hook hs cur c'' hk
    obtain ⟨t, ht⟩ := hK _ _ hk
    exact ⟨t, by rw [ht]; simp [chainStart]⟩
  cases f with
  | user g =>
    simp only [invoke] at h
    obtain ⟨t, ht⟩ := runBody_extends K m I hK _ _ _ h
    exact ⟨t, by rw [ht]; simp [Context.log, Fn.event]⟩
  | method x =>
    cases x with
    | «open» => exact hrun _ _ _ h rfl
    | serve =>
      simp only [invoke, Instance.serve] at h
      split at h
      · cases h
      · rename_i c1 h1
        obtain ⟨t1, ht1⟩ := hrun _ _ (Ev.enter Method.serve) h1 rfl
        obtain ⟨t2, ht2⟩ := Instance.response_trace K m hK _ _ h
        exact ⟨t1 ++ Ev.enter Method.response :: t2, by rw [ht2, ht1]; simp [Fn.event]⟩
    | request => exact hrun _ _ _ h rfl
    | execute =>
      simp only [invoke, Instance.execute_eq] at h
      exact hrun _ _ _ h rfl
    | response =>
      obtain ⟨t, ht⟩ := Instance.response_trace K m hK _ _ h
      exact ⟨t, ht⟩
    | finding =>
      cases hcfg : c.Config with
      | none =>
        simp only [invoke, Instance.finding, Context.log, hcfg, Context.Found,
          Instance.found_eq] at h
        obtain ⟨t, ht⟩ := hterm _ _ _ _ _ h
        exact ⟨Ev.enter Method.found :: t, by rw [ht]; simp [Fn.event]⟩
      | some ev =>
        simp only [invoke, Instance.finding, Context.log, hcfg] at h
        exact hrun _ _ _ h rfl
    | authorizing => exact hrun _ _ _ h rfl
    | arguing =>
      cases hcfg : c.Config with
      | none =>
        simp only [invoke, Instance.arguing, Context.log, hcfg] at h
        exact hrun _ _ _ h rfl
      | some ev =>
        cases hargs : ev.Args with
        | none =>
          simp only [invoke, Instance.arguing, Context.log, hcfg, hargs] at h
          exact hrun _ _ _ h rfl
        | some schema =>
          simp only [invoke, Instance.arguing, Context.log, hcfg, hargs] at h
          cases hres : (I.Mapping schema c.Value ev.Nullable (some c.Meta)).2 with
          | none =>
            simp only [hres] at h
            exact hrun _ _ _ h rfl
          | some res =>
            cases hf : res.fail with
            | true =>
              simp only [hres, hf, if_true, Context.Failed, Instance.failed_eq] at h
              obtain ⟨t, ht⟩ := hterm _ _ _ _ _ h
              exact ⟨Ev.enter Method.failed :: t, by rw [ht]; simp [Fn.event, Context.Result]⟩
            | false =>
              simp only [hres, hf] at h
              exact hrun _ _ _ h rfl
    | found =>
      simp only [invoke, Instance.found_eq] at h
      exact hterm _ _ _ _ _ h
    | error =>
      simp only [invoke, Instance.error_eq] at h
      exact hterm _ _ _ _ _ h
    | failed =>
      simp only [invoke, Instance.failed_eq] at h
      exact hterm _ _ _ _ _ h
    | denied =>
      simp only [invoke, Instance.denied_eq] at h
      exact hterm _ _ _ _ _ h
    | body =>
      simp only [invoke, Option.some.injEq] at h
      exact ⟨[], h ▸ rfl⟩

theorem Op.exec_segment (K : Run) (m : Module) (I : Infra)
    (hK : ∀ c c', K c = some c' → c.Extends c')
    (hS : ∀ c c' d, K c = some c' → c'.trace = c.trace ++ d → (∀ e ∈ d, Ev.clears e = false) →
      c'.nexts = c.nexts ∧ c.index ≤ c'.index ∧ d = slotEvents c.nexts c.index c'.index)
    (op : Op) (c c' : Context) (d : List Ev) (h : Op.exec K m op c = some c')
    (hd : c'.trace = c.trace ++ d) (hclear : ∀ e ∈ d, Ev.clears e = false) :
    c'.nexts = c.nexts ∧ c.index ≤ c'.index ∧ d = slotEvents c.nexts c.index c'.index := by
  have hterm : ∀ (x : Method) (cur : Context), cur.trace = c.trace →
      Ev.clears (Ev.enter x) = true → invoke K m I (.method x) cur = some c' → False := by
    intro x cur hcur hx hinv
    obtain ⟨t, ht⟩ := invoke_first_event K m I hK _ _ _ hinv
    rw [hcur, hd] at ht
    have hdt := List.append_cancel_left ht
    have := hclear (Ev.enter x) (by rw [hdt]; simp [Fn.event])
    rw [hx] at this
    cases this
  cases op with
  | assign a =>
    simp only [Op.exec, Option.some.injEq] at h
    subst h
    obtain ⟨h1, h2, _, h4⟩ := Assign.apply_control a c
    rw [h4] at hd
    have hnil : d = [] := by simpa using hd
    rw [h1, h2, hnil, slotEvents_self]
    exact ⟨rfl, le_refl _, rfl⟩
  | Next => exact hS c c' d h hd hclear
  | Found => exact (hterm .found c rfl rfl h).elim
  | Error res => exact (hterm .error (c.Result res) rfl rfl h).elim
  | Failed res => exact (hterm .failed (c.Result res) rfl rfl h).elim
  | Denied res => exact (hterm .denied (c.Result res) rfl rfl h).elim

theorem runBody_segment (K : Run) (m : Module) (I : Infra)
    (hK : ∀ c c', K c = some c' → c.Extends c')
    (hS : ∀ c c' d, K c = some c' → c'.trace = c.trace ++ d → (∀ e ∈ d, Ev.clears e = false) →
      c'.nexts = c.nexts ∧ c.index ≤ c'.index ∧ d = slotEvents c.nexts c.index c'.index) :
    ∀ (body : List Op) (c c' : Context) (d : List Ev), runBody K m body c = some c' →
      c'.trace = c.trace ++ d → (∀ e ∈ d, Ev.clears e = false) →
      c'.nexts = c.nexts ∧ c.index ≤ c'.index ∧ d = slotEvents c.nexts c.index c'.index := by
  intro body
  induction body with
  | nil =>
    intro c c' d h hd _
    simp only [runBody, Option.some.injEq] at h
    subst h
    have hnil : d = [] := by simpa using hd
    rw [hnil, slotEvents_self]
    exact ⟨rfl, le_refl _, rfl⟩
  | cons op rest ih =>
    intro c c' d h hd hclear
    simp only [runBody] at h
    cases h1 : Op.exec K m op c with
    | none => simp [h1] at h
    | some c1 =>
      simp only [h1] at h
      obtain ⟨d1, hd1⟩ := Op.exec_extends K m I hK op c c1 h1
      obtain ⟨d2, hd2⟩ := runBody_extends K m I hK rest c1 c' h
      have hdd : d = d1 ++ d2 := by
        rw [hd1, List.append_assoc] at hd2
        rw [hd] at hd2
        exact List.append_cancel_left hd2
      obtain ⟨a1, a2, a3⟩ := Op.exec_segment K m I hK hS op c c1 d1 h1 hd1
        (fun e he => hclear e (by rw [hdd]; exact List.mem_append_left _ he))
      obtain ⟨b1, b2, b3⟩ := ih c1 c' d2 h hd2
        (fun e he => hclear e (by rw [hdd]; exact List.mem_append_right _ he))
      refine ⟨b1.trans a1, le_trans a2 b2, ?_⟩
      rw [hdd, a3, b3, a1]
      exact slotEvents_append _ _ _ _ a2 b2

theorem invoke_segment (K : Run) (m : Module) (I : Infra)
    (hK : ∀ c c', K c = some c' → c.Extends c')
    (hS : ∀ c c' d, K c = some c' → c'.trace = c.trace ++ d → (∀ e ∈ d, Ev.clears e = false) →
      c'.nexts = c.nexts ∧ c.index ≤ c'.index ∧ d = slotEvents c.nexts c.index c'.index)
    (f : Fn) (c c' : Context) (d : List Ev) (h : invoke K m I f c = some c')
    (hd : c'.trace = c.trace ++ d) (hclear : ∀ e ∈ d, Ev.clears e = false) :
    c'.nexts = c.nexts ∧ c.index ≤ c'.index ∧
      d = Fn.event f :: slotEvents c.nexts c.index c'.index := by
  obtain ⟨t, ht⟩ := invoke_first_event K m I hK f c c' h
  have hdt : d = Fn.event f :: t := by
    rw [hd] at ht
    exact List.append_cancel_left ht
  have hfirst : Ev.clears (Fn.event f) = false := hclear _ (by rw [hdt]; simp)
  have htail : ∀ e ∈ t, Ev.clears e = false :=
    fun e he => hclear e (by rw [hdt]; exact List.mem_cons_of_mem _ he)
  have hpass : ∀ c1 : Context, c1.trace = c.trace ++ [Fn.event f] → c1.nexts = c.nexts →
      c1.index = c.index → K c1 = some c' →
      c'.nexts = c.nexts ∧ c.index ≤ c'.index ∧
        d = Fn.event f :: slotEvents c.nexts c.index c'.index := by
    intro c1 h1 h2 h3 hk
    have ht' : c'.trace = c1.trace ++ t := by rw [ht, h1]; simp
    obtain ⟨a1, a2, a3⟩ := hS c1 c' t hk ht' htail
    rw [h2] at a1 a3
    rw [h3] at a2 a3
    exact ⟨a1, a2, by rw [hdt, a3]⟩
  have hterm : ∀ (x : Method) (cur : Context), cur.trace = c.trace ++ [Fn.event f] →
      Ev.clears (Ev.enter x) = true → invoke K m I (.method x) cur = some c' → False := by
    intro x cur hcur hx hinv
    obtain ⟨t2, ht2⟩ := invoke_first_event K m I hK _ _ _ hinv
    rw [hcur, ht] at ht2
    have ht3 : t = Ev.enter x :: t2 := by
      have : c.trace ++ Fn.event f :: t = c.trace ++ Fn.event f :: Ev.enter x :: t2 := by
        rw [ht2]; simp [Fn.event]
      simpa using this
    have := htail (Ev.enter x) (by rw [ht3]; simp)
    rw [hx] at this
    cases this
  cases f with
  | user g =>
    simp only [invoke] at h
    have ht' : c'.trace = (c.log (Ev.call g.id)).trace ++ t := by
      rw [ht]; simp [Context.log, Fn.event]
    obtain ⟨a1, a2, a3⟩ := runBody_segment K m I hK hS g.body _ c' t h ht' htail
    exact ⟨a1, a2, by rw [hdt, a3]; rfl⟩
  | method x =>
    cases x with
    | «open» => cases hfirst
    | serve => cases hfirst
    | request => cases hfirst
    | execute => cases hfirst
    | response => cases hfirst
    | found => cases hfirst
    | error => cases hfirst
    | failed => cases hfirst
    | denied => cases hfirst
    | finding =>
      cases hcfg : c.Config with
      | none =>
        have hlog : (c.log (Ev.enter Method.finding)).Config = none := hcfg
        simp only [invoke, Instance.finding, hlog] at h
        exact (hterm .found (c.log (Ev.enter Method.finding)) rfl rfl h).elim
      | some ev =>
        simp only [invoke, Instance.finding, Context.log, hcfg] at h
        exact hpass _ (by rfl) (by rfl) (by rfl) h
    | authorizing =>
      simp only [invoke, Instance.authorizing, Context.log] at h
      exact hpass _ (by rfl) (by rfl) (by rfl) h
    | arguing =>
      cases hcfg : c.Config with
      | none =>
        simp only [invoke, Instance.arguing, Context.log, hcfg] at h
        exact hpass _ (by rfl) (by rfl) (by rfl) h
      | some ev =>
        cases hargs : ev.Args with
        | none =>
          simp only [invoke, Instance.arguing, Context.log, hcfg, hargs] at h
          exact hpass _ (by rfl) (by rfl) (by rfl) h
        | some schema =>
          have hlog : (c.log (Ev.enter Method.arguing)).Config = some ev := hcfg
          simp only [invoke, Instance.arguing, hlog, hargs] at h
          cases hres : (I.Mapping schema (c.log (Ev.enter Method.arguing)).Value ev.Nullable
              (some (c.log (Ev.enter Method.arguing)).Meta)).2 with
          | none =>
            simp only [hres] at h
            exact hpass _ (by rfl) (by rfl) (by rfl) h
          | some res =>
            cases hf : res.fail with
            | true =>
              simp only [hres, hf, if_true] at h
              exact (hterm .failed ((c.log (Ev.enter Method.arguing)).Result (some res)) rfl rfl
                h).elim
            | false =>
              simp only [hres, hf] at h
              exact hpass _ (by rfl) (by rfl) (by rfl) h
    | body =>
      simp only [invoke, Option.some.injEq] at h
      subst h
      have h0 : c.trace ++ [Ev.enter Method.body] = c.trace ++ Ev.enter Method.body :: t := ht
      have hnil : t = [] := (List.cons.inj (List.append_cancel_left h0)).2.symm
      refine ⟨rfl, le_refl _, ?_⟩
      rw [hdt, hnil]
      simp [Instance.body, Context.log, slotEvents_self, Fn.event]

/-- In a run during which `clear` is not called the queue stays as it is, the cursor
does not go back, and the continuations invoked are the slots from the old cursor
up to the new one, each once, in the order of their positions. -/
theorem Next_segment (m : Module) (I : Infra) :
    ∀ (n : Nat) (c c' : Context) (d : List Ev), Context.Next m I n c = some c' →
      c'.trace = c.trace ++ d → (∀ e ∈ d, Ev.clears e = false) →
      c'.nexts = c.nexts ∧ c.index ≤ c'.index ∧ d = slotEvents c.nexts c.index c'.index := by
  intro n
  induction n with
  | zero => intro c c' d h; simp [Context.Next] at h
  | succ n ih =>
    intro c c' d h hd hclear
    rw [Context.Next] at h
    cases hs : c.nexts[c.index]? with
    | none =>
      simp only [hs, Option.some.injEq] at h
      subst h
      have hnil : d = [] := by simpa using hd
      rw [hnil, slotEvents_self]
      exact ⟨rfl, le_refl _, rfl⟩
    | some slot =>
      cases slot with
      | none =>
        simp only [hs] at h
        obtain ⟨a1, a2, a3⟩ := ih { c with index := c.index + 1 } c' d h hd hclear
        refine ⟨a1, Nat.le_of_succ_le a2, ?_⟩
        rw [slotEvents_step c.nexts c.index c'.index none hs a2]
        exact a3
      | some f =>
        simp only [hs] at h
        obtain ⟨a1, a2, a3⟩ := invoke_segment (Context.Next m I n) m I (Next_trace m I n) ih f
          { c with index := c.index + 1 } c' d h hd hclear
        refine ⟨a1, Nat.le_of_succ_le a2, ?_⟩
        rw [slotEvents_step c.nexts c.index c'.index (some f) hs a2]
        exact a3

theorem Op.exec_cursor (K : Run) (m : Module)
    (hK : ∀ c c', K c = some c' → c.CursorOk → c'.CursorOk) (op : Op) (c c' : Context)
    (h : Op.exec K m op c = some c') (hc : c.CursorOk) : c'.CursorOk := by
  have hstart : ∀ (x : Method) (hook : Option UserFn) (hs : List (Option UserFn))
      (cur : Context), (chainStart x hook hs cur).CursorOk := by
    intro x hook hs cur
    simp [Context.CursorOk, chainStart]
  cases op with
  | assign a =>
    simp only [Op.exec, Option.some.injEq] at h
    subst h
    obtain ⟨h1, h2, _, _⟩ := Assign.apply_control a c
    simpa [Context.CursorOk, h1, h2] using hc
  | Next => exact hK _ _ h hc
  | Found =>
    simp only [Op.exec, Context.Found, Instance.found_eq] at h
    exact hK _ _ h (hstart _ _ _ _)
  | Error res =>
    simp only [Op.exec, Context.Error, Instance.error_eq] at h
    exact hK _ _ h (hstart _ _ _ _)
  | Failed res =>
    simp only [Op.exec, Context.Failed, Instance.failed_eq] at h
    exact hK _ _ h (hstart _ _ _ _)
  | Denied res =>
    simp only [Op.exec, Context.Denied, Instance.denied_eq] at h
    exact hK _ _ h (hstart _ _ _ _)

theorem invoke_cursor (K : Run) (m : Module) (I : Infra)
    (hK : ∀ c c', K c = some c' → c.CursorOk → c'.CursorOk) (f : Fn) (c c' : Context)
    (h : invoke K m I f c = some c') (hc : c.CursorOk) : c'.CursorOk := by
  have hzero : ∀ c1 : Context, c1.index = 0 → K c1 = some c' → c'.CursorOk :=
    fun c1 h0 hk => hK _ _ hk (by simp [Context.CursorOk, h0])
  have hsame : ∀ c1 : Context, c1.index = c.index → c1.nexts = c.nexts → K c1 = some c' →
      c'.CursorOk :=
    fun c1 h1 h2 hk => hK _ _ hk (by simpa [Context.CursorOk, h1, h2] using hc)
  have hstart : ∀ (x : Method) (hook : Option UserFn) (hs : List (Option UserFn))
      (cur : Context), K (chainStart x hook hs cur) = some c' → c'.CursorOk :=
    fun x hook hs cur hk => hzero _ rfl hk
  cases f with
  | user g =>
    simp only [invoke] at h
    exact runBody_partial K m Context.CursorOk
      (fun op cur c'' hcur hop => Op.exec_cursor K m hK op cur c'' hop hcur)
      g.body (c.log (Ev.call g.id)) c' hc h
  | method x =>
    cases x with
    | «open» => exact hzero _ rfl h
    | serve =>
      simp only [invoke, Instance.serve] at h
      split at h
      · cases h
      · simp only [Instance.response, Option.map_eq_some'] at h
        obtain ⟨a, ha, rfl⟩ := h
        exact hK _ a ha (by simp [Context.CursorOk, Context.clear, Context.next, Context.log])
    | request => exact hzero _ rfl h
    | execute =>
      simp only [invoke, Instance.execute_eq] at h
      exact hzero _ rfl h
    | response =>
      simp only [invoke, Instance.response, Option.map_eq_some'] at h
      obtain ⟨a, ha, rfl⟩ := h
      exact hK _ a ha (by simp [Context.CursorOk, Context.clear, Context.next, Context.log])
    | finding =>
      cases hcfg : c.Config with
      | none =>
        have hlog : (c.log (Ev.enter Method.finding)).Config = none := hcfg
        simp only [invoke, Instance.finding, hlog, Context.Found, Instance.found_eq] at h
        exact hstart _ _ _ _ h
      | some ev =>
        have hlog : (c.log (Ev.enter Method.finding)).Config = some ev := hcfg
        simp only [invoke, Instance.finding, hlog] at h
        exact hsame _ (by rfl) (by rfl) h
    | authorizing => exact hsame (c.log (Ev.enter Method.authorizing)) rfl rfl h
    | arguing =>
      cases hcfg : c.Config with
      | none =>
        have hlog : (c.log (Ev.enter Method.arguing)).Config = none := hcfg
        simp only [invoke, Instance.arguing, hlog] at h
        exact hsame _ (by rfl) (by rfl) h
      | some ev =>
        have hlog : (c.log (Ev.enter Method.arguing)).Config = some ev := hcfg
        cases hargs : ev.Args with
        | none =>
          simp only [invoke, Instance.arguing, hlog, hargs] at h
          exact hsame _ (by rfl) (by rfl) h
        | some schema =>
          simp only [invoke, Instance.arguing, hlog, hargs] at h
          cases hres : (I.Mapping schema (c.log (Ev.enter Method.arguing)).Value ev.Nullable
              (some (c.log (Ev.enter Method.arguing)).Meta)).2 with
          | none =>
            simp only [hres] at h
            exact hsame _ (by rfl) (by rfl) h
          | some res =>
            cases hf : res.fail with
            | true =>
              simp only [hres, hf, if_true, Context.Failed, Instance.failed_eq] at h
              exact hstart _ _ _ _ h
            | false =>
              simp only [hres, hf] at h
              exact hsame _ (by rfl) (by rfl) h
    | found =>
      simp only [invoke, Instance.found_eq] at h
      exact hstart _ _ _ _ h
    | error =>
      simp only [invoke, Instance.error_eq] at h
      exact hstart _ _ _ _ h
    | failed =>
      simp only [invoke, Instance.failed_eq] at h
      exact hstart _ _ _ _ h
    | denied =>
      simp only [invoke, Instance.denied_eq] at h
      exact hstart _ _ _ _ h
    | body =>
      simp only [invoke, Option.some.injEq] at h
      subst h
      exact hc

/-- A run keeps the cursor within the queue. -/
theorem Next_cursor (m : Module) (I : Infra) :
    ∀ (n : Nat) (c c' : Context), Context.Next m I n c = some c' → c.CursorOk → c'.CursorOk := by
  intro n
  induction n with
  | zero => intro c c' h; simp [Context.Next] at h
  | succ n ih =>
    intro c c' h hc
    rw [Context.Next] at h
    cases hs : c.nexts[c.index]? with
    | none =>
      simp only [hs, Option.some.injEq] at h
      exact h ▸ hc
    | some slot =>
      have hlt : c.index < c.nexts.length := by
        by_contra hge
        rw [List.getElem?_eq_none (by omega)] at hs
        cases hs
      have hc1 : Context.CursorOk { c with index := c.index + 1 } := hlt
      cases slot with
      | none =>
        simp only [hs] at h
        exact ih _ _ h hc1
      | some f =>
        simp only [hs] at h
        exact invoke_cursor (Context.Next m I n) m I ih f _ c' h hc1

/-! ### Every feasible schedule of a subject runs -/

theorem defaultConnection.Start_consumers (c0 : defaultConnection) (name : String)
    (q : List Bytes) (hstop : c0.running = false) (hq : GoMap.get c0.events name = some q) :
    (c0.Start).1 = none ∧ name ∈ (c0.Start).2.consumers ∧
      (c0.Start).2.events = c0.events := by
  simp only [defaultConnection.Start, hstop, Bool.false_eq_true, if_false, and_true, true_and]
  apply List.mem_append_right
  by_contra hnot
  rw [(GoMap.get_eq_none_iff _ _).mpr hnot] at hq
  cases hq

theorem defaultConnection.run_feasible (name : String) :
    ∀ (steps : List Step) (c : defaultConnection) (served : List (String × Bytes))
      (q : List Bytes), name ∈ c.consumers → GoMap.get c.events name = some q →
      feasible name q.length steps = true →
      ∃ c' served', defaultConnection.run steps c served = some (c', served') ∧
        served'.length = served.length + receives steps := by
  intro steps
  induction steps with
  | nil =>
    intro c served q _ _ _
    exact ⟨c, served, rfl, by simp [receives]⟩
  | cons s rest ih =>
    intro c served q hcons hq hf
    cases s with
    | publish n data =>
      simp only [feasible, Bool.and_eq_true, decide_eq_true_eq] at hf
      obtain ⟨⟨hn, hlen⟩, hrest⟩ := hf
      subst hn
      obtain ⟨c', served', h1, h2⟩ :=
        ih { c with published := c.published ++ [(n, data)]
                    events := GoMap.set c.events n (q ++ [data]) } served (q ++ [data]) hcons
          (GoMap.get_set_self _ _ _) (by simpa using hrest)
      refine ⟨c', served', ?_, by simpa [receives] using h2⟩
      simp only [defaultConnection.run, defaultConnection.Publish, hq, hlen, if_true]
      exact h1
    | receive n =>
      simp only [feasible, Bool.and_eq_true, decide_eq_true_eq] at hf
      obtain ⟨⟨hn, hlen⟩, hrest⟩ := hf
      subst hn
      cases q with
      | nil => simp at hlen
      | cons data queue =>
        obtain ⟨c', served', h1, h2⟩ :=
          ih { c with events := GoMap.set c.events n queue } (served ++ [(n, data)]) queue hcons
            (GoMap.get_set_self _ _ _) (by simpa using hrest)
        refine ⟨c', served', ?_, ?_⟩
        · simp only [defaultConnection.run, defaultConnection.receive, hcons, if_true, hq]
          exact h1
        · rw [h2]
          simp [receives]
          omega

/-! ### The response phase runs when the serve phase is entered -/

theorem Context.FoundPath.start_path (c : Context) : c.FoundPath c := ⟨[], by simp, by simp⟩

theorem Context.FoundPath.then_path {a b c : Context} (h1 : a.FoundPath b) (h2 : b.FoundPath c) :
    a.FoundPath c := by
  obtain ⟨t1, e1, p1⟩ := h1
  obtain ⟨t2, e2, p2⟩ := h2
  refine ⟨t1 ++ t2, by rw [e2, e1]; simp, fun e he => ?_⟩
  rcases List.mem_append.mp he with h | h
  · exact p1 e h
  · exact p2 e h

theorem Context.FoundPath.of_step {a b c : Context} (h : b.FoundPath c) (t : List Ev)
    (hb : b.trace = a.trace ++ t) (ht : ∀ e ∈ t, Ev.onFoundPath e = true) : a.FoundPath c :=
  Context.FoundPath.then_path ⟨t, hb, ht⟩ h

theorem Instance.finding_of_none (K : Run) (m : Module) (c : Context) (hcfg : c.Config = none) :
    Instance.finding K m c
      = K (chainStart Method.found none m.foundHandlers (c.log (Ev.enter Method.finding))) := by
  have hl : (c.log (Ev.enter Method.finding)).Config = none := hcfg
  simp only [Instance.finding, hl, Context.Found, Instance.found_eq]
  rfl

/-! ### The dispatch of an undeclared name, closures that call none of Error, Failed, Denied -/

theorem mildChain_mem (fs : List (Option UserFn)) (h : mildChain fs = true) (f : UserFn)
    (hf : some f ∈ fs) : f.mild = true := by
  have := List.all_eq_true.mp h (some f) hf
  simpa using this

theorem asFuncs_mild (fs : List (Option UserFn)) (h : mildChain fs = true) :
    ∀ x ∈ asFuncs fs, x = none ∨ (∃ f, x = some (Fn.user f) ∧ f.mild = true) ∨
      x = some (Fn.method Method.serve) ∨ x = some (Fn.method Method.request) := by
  intro x hx
  obtain ⟨y, hy, rfl⟩ := List.mem_map.mp hx
  cases y with
  | none => exact Or.inl rfl
  | some f => exact Or.inr (Or.inl ⟨f, rfl, mildChain_mem fs h f hy⟩)

theorem chainStart_found_mild (m : Module) (hfound : mildChain m.foundHandlers = true)
    (cur : Context) (hcfg : cur.Config = none) :
    (chainStart Method.found none m.foundHandlers cur).Mild ∧
      cur.FoundPath (chainStart Method.found none m.foundHandlers cur) := by
  refine ⟨⟨hcfg, ?_⟩, ⟨[Ev.enter Method.found], rfl, by simp [Ev.onFoundPath]⟩⟩
  simpa [chainStart] using asFuncs_mild m.foundHandlers hfound

theorem Op.exec_mild (K : Run) (m : Module) (hfound : mildChain m.foundHandlers = true)
    (hK : ∀ c c', K c = some c' → c.Mild → c'.Mild ∧ c.FoundPath c') (op : Op)
    (hop : op.raises = false) (c c' : Context) (h : Op.exec K m op c = some c') (hc : c.Mild) :
    c'.Mild ∧ c.FoundPath c' := by
  cases op with
  | assign a =>
    simp only [Op.exec, Option.some.injEq] at h
    subst h
    obtain ⟨a1, _, a3, a4⟩ := Assign.apply_control a c
    exact ⟨⟨a3.trans hc.1, by rw [a1]; exact hc.2⟩, ⟨[], by simp [a4], by simp⟩⟩
  | Next => exact hK _ _ h hc
  | Found =>
    simp only [Op.exec, Context.Found, Instance.found_eq, hc.1, Option.bind] at h
    obtain ⟨q, p⟩ := chainStart_found_mild m hfound c hc.1
    obtain ⟨q', p'⟩ := hK _ _ h q
    exact ⟨q', p.then_path p'⟩
  | Error res => simp [Op.raises] at hop
  | Failed res => simp [Op.raises] at hop
  | Denied res => simp [Op.raises] at hop

theorem runBody_mild (K : Run) (m : Module) (hfound : mildChain m.foundHandlers = true)
    (hK : ∀ c c', K c = some c' → c.Mild → c'.Mild ∧ c.FoundPath c') :
    ∀ (body : List Op), (∀ op ∈ body, op.raises = false) →
    ∀ (c c' : Context), runBody K m body c = some c' → c.Mild →
      c'.Mild ∧ c.FoundPath c' := by
  intro body
  induction body with
  | nil =>
    intro _ c c' h hc
    simp only [runBody, Option.some.injEq] at h
    subst h
    exact ⟨hc, Context.FoundPath.start_path c⟩
  | cons op rest ih =>
    intro hb c c' h hc
    simp only [runBody] at h
    cases h1 : Op.exec K m op c with
    | none => simp [h1] at h
    | some c1 =>
      simp only [h1] at h
      obtain ⟨q1, p1⟩ := Op.exec_mild K m hfound hK op (hb op (List.mem_cons_self _ _)) c c1 h1 hc
      obtain ⟨q, p⟩ := ih (fun o ho => hb o (List.mem_cons_of_mem _ ho)) c1 c' h q1
      exact ⟨q, p1.then_path p⟩

theorem invoke_mild (K : Run) (m : Module) (I : Infra) (hm : m.mildChains = true)
    (hK : ∀ c c', K c = some c' → c.Mild → c'.Mild ∧ c.FoundPath c')
    (hK4 : ∀ c c', K c = some c' → c.AtRequestChain → c'.Mild ∧ c.FoundPath c')
    (f : Fn)
    (hf : (∃ g, f = Fn.user g ∧ g.mild = true) ∨ f = Fn.method Method.serve ∨
      f = Fn.method Method.request)
    (c c' : Context) (h : invoke K m I f c = some c') (hc : c.Mild) :
    c'.Mild ∧ c.FoundPath c' := by
  simp only [Module.mildChains, Bool.and_eq_true] at hm
  obtain ⟨⟨⟨hserve, hreq⟩, hfound⟩, hresp⟩ := hm
  rcases hf with ⟨g, rfl, hg⟩ | rfl | rfl
  · simp only [invoke] at h
    have hops : ∀ op ∈ g.body, op.raises = false := by
      intro op hop
      have := List.all_eq_true.mp hg op hop
      simpa using this
    obtain ⟨q, p⟩ := runBody_mild K m hfound hK g.body hops (c.log (Ev.call g.id)) c' h
      ⟨hc.1, hc.2⟩
    exact ⟨q, p.of_step [Ev.call g.id] rfl (by simp [Ev.onFoundPath])⟩
  · simp only [invoke, Instance.serve] at h
    split at h
    · cases h
    · rename_i c2 h1
      have hstart : (((c.log (Ev.enter Method.serve)).clear.next (asFuncs m.requestFilters)).next
          [some (Fn.method Method.request)]).Mild := by
        refine ⟨hc.1, fun x hx => ?_⟩
        simp only [Context.next, Context.clear, Context.log, List.nil_append,
          List.mem_append, List.mem_singleton] at hx
        rcases hx with hx | hx
        · exact asFuncs_mild m.requestFilters hreq x hx
        · exact Or.inr (Or.inr (Or.inr hx))
      obtain ⟨q2, p2⟩ := hK _ _ h1 hstart
      simp only [Instance.response, Option.map_eq_some'] at h
      obtain ⟨c4, h4, rfl⟩ := h
      have hstart3 : ((c2.log (Ev.enter Method.response)).clear.next
          (asFuncs m.responseFilters)).Mild := by
        refine ⟨q2.1, fun x hx => ?_⟩
        simp only [Context.next, Context.clear, Context.log, List.nil_append] at hx
        exact asFuncs_mild m.responseFilters hresp x hx
      obtain ⟨q4, p4⟩ := hK _ _ h4 hstart3
      refine ⟨q4, ?_⟩
      have e1 : c.FoundPath c2 := p2.of_step [Ev.enter Method.serve]
        (by simp [Context.next, Context.clear, Context.log]) (by simp [Ev.onFoundPath])
      have e2 : c2.FoundPath c4 := p4.of_step [Ev.enter Method.response]
        (by simp [Context.next, Context.clear, Context.log]) (by simp [Ev.onFoundPath])
      exact (e1.then_path e2).then_path ⟨[Ev.enter Method.body], rfl, by simp [Ev.onFoundPath]⟩
  · simp only [invoke, Instance.request] at h
    obtain ⟨q, p⟩ := hK4 _ _ h ⟨hc.1, rfl, rfl⟩
    exact ⟨q, p.of_step [Ev.enter Method.request]
      (by simp [Context.next, Context.clear, Context.log]) (by simp [Ev.onFoundPath])⟩

/-- Without event and with closures that call none of `Error`, `Failed`, `Denied`, a
completed run stays on the way to the found chain. -/
theorem Next_mild (m : Module) (I : Infra) (hm : m.mildChains = true) :
    ∀ (n : Nat),
      (∀ c c', Context.Next m I n c = some c' → c.Mild → c'.Mild ∧ c.FoundPath c') ∧
      (∀ c c', Context.Next m I n c = some c' → c.AtRequestChain →
        c'.Mild ∧ c.FoundPath c') := by
  have hfound : mildChain m.foundHandlers = true := by
    simp only [Module.mildChains, Bool.and_eq_true] at hm
    exact hm.1.2
  intro n
  induction n with
  | zero =>
    exact ⟨fun c c' h => by simp [Context.Next] at h, fun c c' h => by simp [Context.Next] at h⟩
  | succ n ih =>
    refine ⟨fun c c' h hc => ?_, fun c c' h hc => ?_⟩
    · rw [Context.Next] at h
      cases hs : c.nexts[c.index]? with
      | none =>
        simp only [hs, Option.some.injEq] at h
        subst h
        exact ⟨hc, Context.FoundPath.start_path c⟩
      | some slot =>
        have hc1 : Context.Mild { c with index := c.index + 1 } := ⟨hc.1, hc.2⟩
        have hp1 : c.FoundPath { c with index := c.index + 1 } := ⟨[], by simp, by simp⟩
        cases slot with
        | none =>
          simp only [hs] at h
          obtain ⟨q, p⟩ := ih.1 _ _ h hc1
          exact ⟨q, hp1.then_path p⟩
        | some f =>
          simp only [hs] at h
          have hallowed := hc.2 _ (mem_of_getElem?_eq_some _ _ _ hs)
          have hf : (∃ g, f = Fn.user g ∧ g.mild = true) ∨ f = Fn.method Method.serve ∨
              f = Fn.method Method.request := by
            rcases hallowed with h0 | ⟨g, hg, hm'⟩ | h0 | h0
            · cases h0
            · exact Or.inl ⟨g, Option.some.inj hg, hm'⟩
            · exact Or.inr (Or.inl (Option.some.inj h0))
            · exact Or.inr (Or.inr (Option.some.inj h0))
          obtain ⟨q, p⟩ := invoke_mild _ m I hm ih.1 ih.2 f hf _ c' h hc1
          exact ⟨q, hp1.then_path p⟩
    · obtain ⟨hcfg, hidx, hnexts⟩ := hc
      have hs : c.nexts[c.index]? = some (some (Fn.method Method.finding)) := by
        rw [hnexts, hidx]
        rfl
      rw [Next_method m I n c Method.finding hs] at h
      have h' : Instance.finding (Context.Next m I n) m { c with index := c.index + 1 }
          = some c' := h
      rw [Instance.finding_of_none (Context.Next m I n) m { c with index := c.index + 1 } hcfg]
        at h'
      obtain ⟨q0, p0⟩ := chainStart_found_mild m hfound
        (({ c with index := c.index + 1 } : Context).log (Ev.enter Method.finding)) hcfg
      obtain ⟨q, p⟩ := ih.1 _ _ h' q0
      exact ⟨q, (p0.then_path p).of_step [Ev.enter Method.finding] rfl
        (by simp [Ev.onFoundPath])⟩

theorem mild_first_op (body : List Op) (hm : ∀ op ∈ body, op.raises = false)
    (hn : Op.Next ∈ body) :
    ∃ (before : List Assign) (op : Op) (rest : List Op),
      body = before.map Op.assign ++ op :: rest ∧ (op = Op.Next ∨ op = Op.Found) := by
  induction body with
  | nil => cases hn
  | cons o tl ih =>
    cases o with
    | assign a =>
      rcases List.mem_cons.mp hn with h | h
      · cases h
      · obtain ⟨before, op, rest, hb, hop⟩ := ih (fun x hx => hm x (List.mem_cons_of_mem _ hx)) h
        exact ⟨a :: before, op, rest, by simp [hb], hop⟩
    | Next => exact ⟨[], Op.Next, tl, rfl, Or.inl rfl⟩
    | Found => exact ⟨[], Op.Found, tl, rfl, Or.inr rfl⟩
    | Error res => exact absurd (hm _ (List.mem_cons_self _ _)) (by simp [Op.raises])
    | Failed res => exact absurd (hm _ (List.mem_cons_self _ _)) (by simp [Op.raises])
    | Denied res => exact absurd (hm _ (List.mem_cons_self _ _)) (by simp [Op.raises])

/-- Closures that call `Next` and none of `Error`, `Failed`, `Denied` lead a completed
run to the found chain, when the method queued behind them does. -/
theorem Next_reaches_found (m : Module) (I : Infra) (x : Method)
    (hx : ∀ n c1 c2, c1.Config = none →
      invoke (Context.Next m I n) m I (Fn.method x) c1 = some c2 →
      Ev.enter Method.found ∈ c2.trace) :
    ∀ (fs : List (Option UserFn)),
      (∀ f, some f ∈ fs → f.mild = true ∧ Op.Next ∈ f.body) →
    ∀ (n : Nat) (ctx c' : Context) (pre : List ctxFunc), ctx.Config = none →
      ctx.nexts = pre ++ asFuncs fs ++ [some (Fn.method x)] → ctx.index = pre.length →
      Context.Next m I n ctx = some c' → Ev.enter Method.found ∈ c'.trace := by
  intro fs
  induction fs with
  | nil =>
    intro _ n ctx c' pre hcfg hnexts hidx h
    cases n with
    | zero => simp [Context.Next] at h
    | succ n =>
      have hs : ctx.nexts[ctx.index]? = some (some (Fn.method x)) := by
        rw [hnexts, hidx]
        simp [asFuncs]
      rw [Next_method m I n ctx x hs] at h
      exact hx n { ctx with index := ctx.index + 1 } c' hcfg h
  | cons f0 fs ih =>
    intro hfs n ctx c' pre hcfg hnexts hidx h
    have hfs' : ∀ f, some f ∈ fs → f.mild = true ∧ Op.Next ∈ f.body :=
      fun f hf => hfs f (List.mem_cons_of_mem _ hf)
    have hnexts' : ctx.nexts
        = (pre ++ [f0.map Fn.user]) ++ asFuncs fs ++ [some (Fn.method x)] := by
      rw [hnexts]
      simp [asFuncs]
    have hs : ctx.nexts[ctx.index]? = some (f0.map Fn.user) := by
      rw [hnexts, hidx]
      have := getElem?_append_cons_length pre (f0.map Fn.user)
        (asFuncs fs ++ [some (Fn.method x)])
      simpa [asFuncs] using this
    cases n with
    | zero => simp [Context.Next] at h
    | succ n =>
      rw [Context.Next] at h
      cases f0 with
      | none =>
        simp only [hs, Option.map_none'] at h
        exact ih hfs' n { ctx with index := ctx.index + 1 } c' (pre ++ [none]) hcfg hnexts'
          (by simp [hidx]) h
      | some f =>
        simp only [hs, Option.map_some', invoke] at h
        obtain ⟨hmild, hnext⟩ := hfs f (List.mem_cons_self _ _)
        have hops : ∀ op ∈ f.body, op.raises = false := by
          intro op hop
          have := List.all_eq_true.mp hmild op hop
          simpa using this
        obtain ⟨before, op, rest, hbody, hop⟩ := mild_first_op f.body hops hnext
        rw [hbody, runBody_assigns] at h
        simp only [runBody] at h
        obtain ⟨a1, a2, a3, _⟩ := applyAssigns_control before
          (({ ctx with index := ctx.index + 1 } : Context).log (Ev.call f.id))
        cases h2 : Op.exec (Context.Next m I n) m op
            (applyAssigns before (({ ctx with index := ctx.index + 1 } : Context).log
              (Ev.call f.id))) with
        | none => simp [h2] at h
        | some c2 =>
          simp only [h2] at h
          obtain ⟨t2, ht2⟩ := runBody_extends _ m I (Next_trace m I n) rest c2 c' h
          rw [ht2]
          apply List.mem_append_left
          rcases hop with rfl | rfl
          · exact ih hfs' n _ c2 (pre ++ [some (Fn.user f)]) (a3.trans hcfg)
              (by rw [a1]; exact hnexts') (by rw [a2]; simp [Context.log, hidx]) h2
          · obtain ⟨t, ht⟩ := invoke_first_event _ m I (Next_trace m I n)
              (Fn.method Method.found) _ c2 h2
            rw [ht]
            simp [Fn.event]

theorem Instance.finding_reaches_found (K : Run) (m : Module) (I : Infra)
    (hK : ∀ c c', K c = some c' → c.Extends c') (c c' : Context)
    (h : invoke K m I (Fn.method Method.finding) c = some c') (hcfg : c.Config = none) :
    Ev.enter Method.found ∈ c'.trace := by
  have h' : Instance.finding K m c = some c' := h
  rw [Instance.finding_of_none K m c hcfg] at h'
  obtain ⟨t, ht⟩ := hK _ _ h'
  rw [ht]
  simp [chainStart]

theorem Instance.request_reaches_found (m : Module) (I : Infra) (n : Nat) (c1 c2 : Context)
    (hcfg : c1.Config = none)
    (h : invoke (Context.Next m I n) m I (Fn.method Method.request) c1 = some c2) :
    Ev.enter Method.found ∈ c2.trace := by
  simp only [invoke, Instance.request] at h
  cases n with
  | zero => simp [Context.Next] at h
  | succ n =>
    rw [Next_method m I n _ Method.finding (by rfl)] at h
    exact Instance.finding_reaches_found _ m I (Next_trace m I n) _ c2 h hcfg

theorem Instance.serve_reaches_found (m : Module) (I : Infra)
    (hreq : ∀ f, some f ∈ m.requestFilters → f.mild = true ∧ Op.Next ∈ f.body)
    (n : Nat) (c1 c2 : Context) (hcfg : c1.Config = none)
    (h : invoke (Context.Next m I n) m I (Fn.method Method.serve) c1 = some c2) :
    Ev.enter Method.found ∈ c2.trace := by
  simp only [invoke, Instance.serve] at h
  split at h
  · cases h
  · rename_i c3 h3
    have hmem := Next_reaches_found m I Method.request
      (fun k a b ha hb => Instance.request_reaches_found m I k a b ha hb)
      m.requestFilters hreq n
      (((c1.log (Ev.enter Method.serve)).clear.next (asFuncs m.requestFilters)).next
        [some (Fn.method Method.request)]) c3 [] hcfg
      (by simp [Context.next, Context.clear, Context.log])
      (by simp [Context.next, Context.clear, Context.log]) h3
    obtain ⟨t, ht⟩ := Instance.response_trace _ m (Next_trace m I n) _ _ h
    rw [ht]
    exact List.mem_append_left _ hmem

theorem Instance.open_reaches_found (m : Module) (I : Infra)
    (hserve : ∀ f, some f ∈ m.serveFilters → f.mild = true ∧ Op.Next ∈ f.body)
    (hreq : ∀ f, some f ∈ m.requestFilters → f.mild = true ∧ Op.Next ∈ f.body)
    (n : Nat) (ctx c' : Context) (hcfg : ctx.Config = none)
    (h : Instance.open (Context.Next m I n) m ctx = some c') :
    Ev.enter Method.found ∈ c'.trace := by
  simp only [Instance.open] at h
  exact Next_reaches_found m I Method.serve
    (fun k a b ha hb => Instance.serve_reaches_found m I hreq k a b ha hb)
    m.serveFilters hserve n
    (((ctx.log (Ev.enter Method.open)).clear.next (asFuncs m.serveFilters)).next
      [some (Fn.method Method.serve)]) c' [] hcfg
    (by simp [Context.next, Context.clear, Context.log])
    (by simp [Context.next, Context.clear, Context.log]) h

theorem Instance.open_mild (m : Module) (I : Infra) (hm : m.mildChains = true)
    (n : Nat) (ctx c' : Context) (hcfg : ctx.Config = none)
    (h : Instance.open (Context.Next m I n) m ctx = some c') : ctx.FoundPath c' := by
  simp only [Instance.open] at h
  have hserve : mildChain m.serveFilters = true := by
    simp only [Module.mildChains, Bool.and_eq_true] at hm
    exact hm.1.1.1
  have hstart : (((ctx.log (Ev.enter Method.open)).clear.next (asFuncs m.serveFilters)).next
      [some (Fn.method Method.serve)]).Mild := by
    refine ⟨hcfg, fun x hx => ?_⟩
    simp only [Context.next, Context.clear, Context.log, List.nil_append,
      List.mem_append, List.mem_singleton] at hx
    rcases hx with hx | hx
    · exact asFuncs_mild m.serveFilters hserve x hx
    · exact Or.inr (Or.inr (Or.inl hx))
  exact ((Next_mild m I hm n).1 _ _ h hstart).2.of_step [Ev.enter Method.open]
    (by simp [Context.next, Context.clear, Context.log]) (by simp [Ev.onFoundPath])

/-! ### Such a dispatch does not depend on the error, failed and denied handlers -/

theorem Op.exec_congr_mild (K K' : Run) (m m' : Module)
    (hf : m'.foundHandlers = m.foundHandlers) (hfound : mildChain m.foundHandlers = true)
    (hK : ∀ c, c.Mild → K c = K' c) (op : Op) (hop : op.raises = false) (c : Context)
    (hc : c.Mild) : Op.exec K m op c = Op.exec K' m' op c := by
  cases op with
  | assign a => rfl
  | Next => exact hK c hc
  | Found =>
    simp only [Op.exec, Context.Found, Instance.found_eq, hf]
    exact hK _ (by
      have := (chainStart_found_mild m hfound c hc.1).1
      rw [hc.1]
      exact this)
  | Error res => simp [Op.raises] at hop
  | Failed res => simp [Op.raises] at hop
  | Denied res => simp [Op.raises] at hop

theorem runBody_congr_mild (K K' : Run) (m m' : Module)
    (hf : m'.foundHandlers = m.foundHandlers) (hfound : mildChain m.foundHandlers = true)
    (hK : ∀ c, c.Mild → K c = K' c)
    (hpres : ∀ c c', K c = some c' → c.Mild → c'.Mild ∧ c.FoundPath c') :
    ∀ (body : List Op), (∀ op ∈ body, op.raises = false) → ∀ c : Context, c.Mild →
      runBody K m body c = runBody K' m' body c := by
  intro body
  induction body with
  | nil => intro _ c _; rfl
  | cons op rest ih =>
    intro hb c hc
    have hop := hb op (List.mem_cons_self _ _)
    have e := Op.exec_congr_mild K K' m m' hf hfound hK op hop c hc
    simp only [runBody, ← e]
    cases h1 : Op.exec K m op c with
    | none => rfl
    | some c1 =>
      exact ih (fun o ho => hb o (List.mem_cons_of_mem _ ho)) c1
        (Op.exec_mild K m hfound hpres op hop c c1 h1 hc).1

theorem invoke_congr_mild (K K' : Run) (m m' : Module) (I : Infra)
    (hr : m'.requestFilters = m.requestFilters) (hf : m'.foundHandlers = m.foundHandlers)
    (hp : m'.responseFilters = m.responseFilters) (hm : m.mildChains = true)
    (hK : ∀ c, c.Mild → K c = K' c) (hK4 : ∀ c, c.AtRequestChain → K c = K' c)
    (hpres : ∀ c c', K c = some c' → c.Mild → c'.Mild ∧ c.FoundPath c')
    (f : Fn)
    (hfn : (∃ g, f = Fn.user g ∧ g.mild = true) ∨ f = Fn.method Method.serve ∨
      f = Fn.method Method.request)
    (c : Context) (hc : c.Mild) : invoke K m I f c = invoke K' m' I f c := by
  have hm' := hm
  simp only [Module.mildChains, Bool.and_eq_true] at hm'
  obtain ⟨⟨⟨_, hreq⟩, hfound⟩, hresp⟩ := hm'
  rcases hfn with ⟨g, rfl, hg⟩ | rfl | rfl
  · simp only [invoke]
    have hops : ∀ op ∈ g.body, op.raises = false := by
      intro op hop
      have := List.all_eq_true.mp hg op hop
      simpa using this
    exact runBody_congr_mild K K' m m' hf hfound hK hpres g.body hops _ ⟨hc.1, hc.2⟩
  · have hstart : (((c.log (Ev.enter Method.serve)).clear.next (asFuncs m.requestFilters)).next
        [some (Fn.method Method.request)]).Mild := by
      refine ⟨hc.1, fun x hx => ?_⟩
      simp only [Context.next, Context.clear, Context.log, List.nil_append,
        List.mem_append, List.mem_singleton] at hx
      rcases hx with hx | hx
      · exact asFuncs_mild m.requestFilters hreq x hx
      · exact Or.inr (Or.inr (Or.inr hx))
    simp only [invoke, Instance.serve, hr, ← hK _ hstart]
    cases h1 : K (((c.log (Ev.enter Method.serve)).clear.next (asFuncs m.requestFilters)).next
        [some (Fn.method Method.request)]) with
    | none => rfl
    | some c2 =>
      have q2 := (hpres _ _ h1 hstart).1
      have hstart3 : ((c2.log (Ev.enter Method.response)).clear.next
          (asFuncs m.responseFilters)).Mild := by
        refine ⟨q2.1, fun x hx => ?_⟩
        simp only [Context.next, Context.clear, Context.log, List.nil_append] at hx
        exact asFuncs_mild m.responseFilters hresp x hx
      simp only [Instance.response, hp, ← hK _ hstart3]
  · simp only [invoke, Instance.request]
    exact hK4 _ ⟨hc.1, rfl, rfl⟩

/-- Without event and with closures that call none of `Error`, `Failed`, `Denied`, a
run is the same in every module with the same request filters, found handlers and
response filters. -/
theorem Next_congr_mild (m m' : Module) (I : Infra)
    (hr : m'.requestFilters = m.requestFilters) (hf : m'.foundHandlers = m.foundHandlers)
    (hp : m'.responseFilters = m.responseFilters) (hm : m.mildChains = true) :
    ∀ (n : Nat),
      (∀ c : Context, c.Mild → Context.Next m I n c = Context.Next m' I n c) ∧
      (∀ c : Context, c.AtRequestChain → Context.Next m I n c = Context.Next m' I n c) := by
  have hfound : mildChain m.foundHandlers = true := by
    simp only [Module.mildChains, Bool.and_eq_true] at hm
    exact hm.1.2
  intro n
  induction n with
  | zero => exact ⟨fun c _ => rfl, fun c _ => rfl⟩
  | succ n ih =>
    refine ⟨fun c hc => ?_, fun c hc => ?_⟩
    · rw [Context.Next, Context.Next]
      cases hs : c.nexts[c.index]? with
      | none => rfl
      | some slot =>
        have hc1 : Context.Mild { c with index := c.index + 1 } := ⟨hc.1, hc.2⟩
        cases slot with
        | none => exact ih.1 _ hc1
        | some f =>
          have hallowed := hc.2 _ (mem_of_getElem?_eq_some _ _ _ hs)
          have hfn : (∃ g, f = Fn.user g ∧ g.mild = true) ∨ f = Fn.method Method.serve ∨
              f = Fn.method Method.request := by
            rcases hallowed with h0 | ⟨g, hg, hm'⟩ | h0 | h0
            · cases h0
            · exact Or.inl ⟨g, Option.some.inj hg, hm'⟩
            · exact Or.inr (Or.inl (Option.some.inj h0))
            · exact Or.inr (Or.inr (Option.some.inj h0))
          exact invoke_congr_mild _ _ m m' I hr hf hp hm ih.1 ih.2 (Next_mild m I hm n).1 f hfn
            _ hc1
    · obtain ⟨hcfg, hidx, hnexts⟩ := hc
      have hs : c.nexts[c.index]? = some (some (Fn.method Method.finding)) := by
        rw [hnexts, hidx]
        rfl
      rw [Next_method m I n c Method.finding hs, Next_method m' I n c Method.finding hs]
      show Instance.finding (Context.Next m I n) m { c with index := c.index + 1 }
        = Instance.finding (Context.Next m' I n) m' { c with index := c.index + 1 }
      rw [Instance.finding_of_none _ m { c with index := c.index + 1 } hcfg,
        Instance.finding_of_none _ m' { c with index := c.index + 1 } hcfg, hf]
      exact ih.1 _ (chainStart_found_mild m hfound _ hcfg).1

/-- Without event, closures that call none of `Error`, `Failed`, `Denied`, and found
handlers that do not call `Found`: the dispatch completes, with one result at every
sufficient depth. -/
theorem Instance.open_mild_total (m : Module) (I : Infra) (hm : m.mildChains = true)
    (hq : quietChain m.foundHandlers = true) (ctx : Context) (hcfg : ctx.Config = none) :
    ∃ c', ∀ n, depthBound m.withoutRaised none ≤ n →
      Instance.open (Context.Next m I n) m ctx = some c' := by
  have hserve : mildChain m.serveFilters = true := by
    simp only [Module.mildChains, Bool.and_eq_true] at hm
    exact hm.1.1.1
  have hstart : (((ctx.log (Ev.enter Method.open)).clear.next (asFuncs m.serveFilters)).next
      [some (Fn.method Method.serve)]).Mild := by
    refine ⟨hcfg, fun x hx => ?_⟩
    simp only [Context.next, Context.clear, Context.log, List.nil_append,
      List.mem_append, List.mem_singleton] at hx
    rcases hx with hx | hx
    · exact asFuncs_mild m.serveFilters hserve x hx
    · exact Or.inr (Or.inr (Or.inl hx))
  have heq : ∀ n, Instance.open (Context.Next m I n) m ctx
      = Instance.open (Context.Next m.withoutRaised I n) m.withoutRaised ctx := fun n =>
    (Next_congr_mild m m.withoutRaised I rfl rfl rfl hm n).1 _ hstart
  obtain ⟨c', h⟩ := Instance.open_total m.withoutRaised I none
    (by simpa [quietTerminals, Module.withoutRaised, quietChain] using hq) ctx hcfg
    (depthBound m.withoutRaised none) (le_refl _)
  refine ⟨c', fun n hn => ?_⟩
  rw [heq]
  exact Next_mono m.withoutRaised I hn _ _ h

theorem quietChain_of_mild (fs : List (Option UserFn)) (hm : mildChain fs = true)
    (hn : ∀ f, some f ∈ fs → Op.Found ∉ f.body) : quietChain fs = true := by
  simp only [quietChain, List.all_eq_true]
  intro x hx
  cases x with
  | none => rfl
  | some f =>
    have hmild := mildChain_mem fs hm f hx
    simp only [UserFn.quiet, List.all_eq_true]
    intro op hop
    have hr : op.raises = false := by
      have := List.all_eq_true.mp hmild op hop
      simpa using this
    cases op with
    | assign a => rfl
    | Next => rfl
    | Found => exact absurd hop (hn f hx)
    | Error res => simp [Op.raises] at hr
    | Failed res => simp [Op.raises] at hr
    | Denied res => simp [Op.raises] at hr


/-! ### A found handler that calls Found: the dispatch never completes -/

/-- The found chain of a module whose first found handler calls `Found` before it
calls anything else completes at no depth. -/
theorem Instance.found_loop (m : Module) (I : Infra) (f : UserFn) (rest : List (Option UserFn))
    (before : List Assign) (tl : List Op) (hfh : m.foundHandlers = some f :: rest)
    (hb : f.body = before.map Op.assign ++ Op.Found :: tl) :
    ∀ (n : Nat) (c : Context), c.Config = none →
      Instance.found (Context.Next m I n) m c = none := by
  intro n
  induction n with
  | zero =>
    intro c _
    rw [Instance.found_eq]
    simp [Context.Next]
  | succ n ih =>
    intro c hc
    rw [Instance.found_eq, hc, hfh]
    have hs : (chainStart Method.found ((none : Option Event).bind Event.Found)
        (some f :: rest) c).nexts[(chainStart Method.found
          ((none : Option Event).bind Event.Found) (some f :: rest) c).index]?
        = some (some (Fn.user f)) := by
      simp [chainStart, asFuncs]
    have key : ∀ c2 : Context, c2.Config = none →
        (match Instance.found (Context.Next m I n) m c2 with
          | none => none
          | some ctx => runBody (Context.Next m I n) m tl ctx) = none :=
      fun c2 h2 => by rw [ih c2 h2]
    rw [Context.Next]
    simp only [hs, invoke]
    rw [hb, runBody_assigns]
    simp only [runBody, Op.exec, Context.Found]
    exact key _ ((applyAssigns_control before _).2.2.1.trans hc)

/-- Behind closures that call `Next` and none of `Error`, `Failed`, `Denied`, a
run completes at no depth when the found chain and the method queued behind the
closures complete at none. -/
theorem Next_stuck (m : Module) (I : Infra) (x : Method)
    (hloop : ∀ n c, c.Config = none → Instance.found (Context.Next m I n) m c = none)
    (hx : ∀ n c1, c1.Config = none →
      invoke (Context.Next m I n) m I (Fn.method x) c1 = none) :
    ∀ (fs : List (Option UserFn)),
      (∀ f, some f ∈ fs → f.mild = true ∧ Op.Next ∈ f.body) →
    ∀ (n : Nat) (ctx : Context) (pre : List ctxFunc), ctx.Config = none →
      ctx.nexts = pre ++ asFuncs fs ++ [some (Fn.method x)] → ctx.index = pre.length →
      Context.Next m I n ctx = none := by
  intro fs
  induction fs with
  | nil =>
    intro _ n ctx pre hcfg hnexts hidx
    cases n with
    | zero => simp [Context.Next]
    | succ n =>
      have hs : ctx.nexts[ctx.index]? = some (some (Fn.method x)) := by
        rw [hnexts, hidx]
        simp [asFuncs]
      rw [Next_method m I n ctx x hs]
      exact hx n { ctx with index := ctx.index + 1 } hcfg
  | cons f0 fs ih =>
    intro hfs n ctx pre hcfg hnexts hidx
    have hfs' : ∀ f, some f ∈ fs → f.mild = true ∧ Op.Next ∈ f.body :=
      fun f hf => hfs f (List.mem_cons_of_mem _ hf)
    have hnexts' : ctx.nexts
        = (pre ++ [f0.map Fn.user]) ++ asFuncs fs ++ [some (Fn.method x)] := by
      rw [hnexts]
      simp [asFuncs]
    have hs : ctx.nexts[ctx.index]? = some (f0.map Fn.user) := by
      rw [hnexts, hidx]
      have := getElem?_append_cons_length pre (f0.map Fn.user)
        (asFuncs fs ++ [some (Fn.method x)])
      simpa [asFuncs] using this
    cases n with
    | zero => simp [Context.Next]
    | succ n =>
      rw [Context.Next]
      cases f0 with
      | none =>
        simp only [hs, Option.map_none']
        exact ih hfs' n { ctx with index := ctx.index + 1 } (pre ++ [none]) hcfg hnexts'
          (by simp [hidx])
      | some f =>
        simp only [hs, Option.map_some', invoke]
        obtain ⟨hmild, hnext⟩ := hfs f (List.mem_cons_self _ _)
        have hops : ∀ op ∈ f.body, op.raises = false := by
          intro op hop
          have := List.all_eq_true.mp hmild op hop
          simpa using this
        obtain ⟨before, op, rest, hbody, hop⟩ := mild_first_op f.body hops hnext
        rw [hbody, runBody_assigns]
        simp only [runBody]
        obtain ⟨a1, a2, a3, _⟩ := applyAssigns_control before
          (({ ctx with index := ctx.index + 1 } : Context).log (Ev.call f.id))
        have h2 : Op.exec (Context.Next m I n) m op
            (applyAssigns before (({ ctx with index := ctx.index + 1 } : Context).log
              (Ev.call f.id))) = none := by
          rcases hop with rfl | rfl
          · exact ih hfs' n _ (pre ++ [some (Fn.user f)]) (a3.trans hcfg)
              (by rw [a1]; exact hnexts') (by rw [a2]; simp [Context.log, hidx])
          · exact hloop n _ (a3.trans hcfg)
        rw [h2]

/-- With serve and request filters that call `Next` and none of `Error`, `Failed`,
`Denied`, and a first found handler that calls `Found` before it calls anything
else, the dispatch of a message without event completes at no depth. -/
theorem Instance.open_stuck (m : Module) (I : Infra)
    (hserve : ∀ f, some f ∈ m.serveFilters → f.mild = true ∧ Op.Next ∈ f.body)
    (hreq : ∀ f, some f ∈ m.requestFilters → f.mild = true ∧ Op.Next ∈ f.body)
    (f : UserFn) (rest : List (Option UserFn)) (before : List Assign) (tl : List Op)
    (hfh : m.foundHandlers = some f :: rest)
    (hb : f.body = before.map Op.assign ++ Op.Found :: tl)
    (n : Nat) (ctx : Context) (hcfg : ctx.Config = none) :
    Instance.open (Context.Next m I n) m ctx = none := by
  have hloop := Instance.found_loop m I f rest before tl hfh hb
  have hfinding : ∀ n (c1 : Context), c1.Config = none →
      invoke (Context.Next m I n) m I (Fn.method Method.finding) c1 = none := by
    intro n c1 h1
    have hl : (c1.log (Ev.enter Method.finding)).Config = none := h1
    simp only [invoke, Instance.finding, hl, Context.Found]
    exact hloop n _ hl
  have hrequest : ∀ n (c1 : Context), c1.Config = none →
      invoke (Context.Next m I n) m I (Fn.method Method.request) c1 = none := by
    intro n c1 h1
    simp only [invoke, Instance.request]
    cases n with
    | zero => simp [Context.Next]
    | succ n =>
      rw [Next_method m I n _ Method.finding (by rfl)]
      exact hfinding n _ h1
  have hserve' : ∀ n c1, c1.Config = none →
      invoke (Context.Next m I n) m I (Fn.method Method.serve) c1 = none := by
    intro n c1 h1
    simp only [invoke, Instance.serve]
    rw [Next_stuck m I Method.request hloop hrequest m.requestFilters hreq n
      (((c1.log (Ev.enter Method.serve)).clear.next (asFuncs m.requestFilters)).next
        [some (Fn.method Method.request)]) [] h1
      (by simp [Context.next, Context.clear, Context.log])
      (by simp [Context.next, Context.clear, Context.log])]
  simp only [Instance.open]
  exact Next_stuck m I Method.serve hloop hserve' m.serveFilters hserve n
    (((ctx.log (Ev.enter Method.open)).clear.next (asFuncs m.serveFilters)).next
      [some (Fn.method Method.serve)]) [] hcfg
    (by simp [Context.next, Context.clear, Context.log])
    (by simp [Context.next, Context.clear, Context.log])

/-! # The claims -/

/-- C1, as stated, fails: with connections "a" (weight 1) and "b" (weight 0)
registered, `Setup` replaces the weight 0 by the default weight 1, so after `Open`
the routing table handed to the ring maps "b" to 1, and with a ring that answers
the name "b" of its table an implicit publish is sent on the connection "b". -/
theorem c1_weight_zero_is_routed :
    (GoMap.get weightZeroModule.configs "b").map Config.Weight = some 0 ∧
    ((Module.Open sampleInfra (Module.Setup listOrder weightZeroModule)).toOption.bind
        Module.weights).bind (fun w => GoMap.get w "b") = some 1 ∧
    ((Module.Open sampleInfra (Module.Setup listOrder weightZeroModule)).toOption.bind
        Module.hashring).map (fun ring => sampleInfra.Locate ring "user.created") = some "b" ∧
    ((Module.Open sampleInfra (Module.Setup listOrder weightZeroModule)).toOption.map fun m' =>
      match Publish sampleInfra m' "user.created" [] with
      | .returned err m'' =>
        (err, (GoMap.get m''.instances "b").bind fun inst =>
          inst.conn.map defaultConnection.published)
      | .blocked => (none, none))
      = some (none, some [("publish.user.created", [])]) := by
  refine ⟨by decide, by decide, by decide, ?_⟩
  rfl

/-- C1, amended: for every set of registered connection configs with distinct
names, after `Setup` followed by a successful `Open` of a module that was not
opened, the routing table is the one handed to the hash ring; a connection
registered with weight 0 is in it with the default weight 1; a connection
registered with a negative weight is absent from it, so a publish with an empty
connection name cannot resolve to it when the ring answers a name of its table;
and in every case the connection has an instance with a non-nil connection, so
`publishTo` with its (non-empty) name never fails with the no-connection error. -/
theorem c1_negative_weight_not_routed (I : Infra) (o : RangeOrder) (m m' : Module)
    (name : String) (cfg : Config)
    (hkeys : (GoMap.keys m.configs).Nodup)
    (hcfg : GoMap.get m.configs name = some cfg)
    (hclosed : m.opened = false)
    (hopen : Module.Open I (Module.Setup o m) = .ok m') :
    ∃ w, m'.weights = some w ∧ m'.hashring = some { weights := w } ∧
      (cfg.Weight = 0 → GoMap.get w name = some 1) ∧
      (cfg.Weight < 0 → name ∉ GoMap.keys w ∧
        ∀ ev, I.Locate { weights := w } ev ∈ GoMap.keys w →
          I.Locate { weights := w } ev ≠ name) ∧
      ∃ inst conn, GoMap.get m'.instances name = some inst ∧ inst.conn = some conn ∧
        (name ≠ "" → ∀ mode ev values m'', ev ≠ "" →
          m'.publishMode I name mode ev values
            ≠ .returned (some Err.errNoConnection) m'') := by
  have hop : (Module.Setup o m).opened = false := by simpa [Module.Setup] using hclosed
  have hne : m.configs ≠ [] := by
    intro h0
    rw [h0] at hcfg
    simp [GoMap.get] at hcfg
  have hkeys' : (GoMap.keys (Module.Setup o m).configs).Nodup := by
    rw [Module.Setup_configs_keys o m hne]
    exact hkeys
  have hcfg' := Module.Setup_configs_get o m name cfg hcfg
  simp only [Module.Open, hop] at hopen
  cases hoc : openConfigs (Module.Setup o m) (if I.Profile = "" then INFRAGO else I.Profile)
      (Module.Setup o m).configs (Module.Setup o m).instances [] with
  | error e => simp [hoc] at hopen
  | ok r =>
    obtain ⟨i', w'⟩ := r
    simp [hoc] at hopen
    subst hopen
    have hget := (openConfigs_weights_get _ _ _ _ _ _ _ hoc hkeys' name).2 _
      (GoMap.mem_of_get _ _ _ hcfg')
    simp only [GoMap.get] at hget
    refine ⟨w', rfl, rfl, ?_, ?_, ?_⟩
    · intro hz
      have hw : (Config.defaults cfg).Weight = 1 := by
        unfold Config.defaults
        by_cases h1 : cfg.Driver = "" <;> by_cases h2 : cfg.Codec = "" <;> simp [h1, h2, hz]
      rw [hget, hw]
      rfl
    · intro hneg
      have hw : (Config.defaults cfg).Weight = cfg.Weight :=
        Config.defaults_weight_of_ne_zero cfg (by omega)
      have habsent : name ∉ GoMap.keys w' := by
        rw [← GoMap.get_eq_none_iff, hget, hw]
        simp only [ite_eq_right_iff]
        intro hpos
        omega
      exact ⟨habsent, fun ev hin heq => habsent (heq ▸ hin)⟩
    · have hin : name ∈ GoMap.keys (Module.Setup o m).configs := by
        rw [Module.Setup_configs_keys o m hne]
        by_contra hcon
        rw [← GoMap.get_eq_none_iff] at hcon
        rw [hcon] at hcfg
        cases hcfg
      obtain ⟨inst, conn, h1, h2, -, -, -⟩ :=
        (openConfigs_instances _ _ _ _ _ _ _ hoc name).2 hin
      refine ⟨inst, conn, h1, h2, ?_⟩
      intro hname mode ev values m'' hev
      exact Module.publishMode_found I _ name mode ev values inst conn hev hname h1 h2 m''

/-- The amended C1 at connections "a" (weight 1) and "b" (weight -1). -/
theorem c1_negative_weight_not_routed_witness :
    ∃ w, ((Module.Open sampleInfra (Module.Setup listOrder weightNegativeModule)).toOption.getD
            Module.initial).weights = some w ∧
      "b" ∉ GoMap.keys w :=
  let ⟨w, h1, _, _, h3, _⟩ :=
    c1_negative_weight_not_routed sampleInfra listOrder weightNegativeModule
      ((Module.Open sampleInfra (Module.Setup listOrder weightNegativeModule)).toOption.getD
        Module.initial)
      "b" (weighted (-1)) (by decide) (by decide) (by decide) rfl
  ⟨w, h1, (h3 (by decide)).1⟩

/-- C2, as stated, fails: on the opened and started module with the declared
event "user.created", publishing to the undeclared "order.paid" calls the default
connection's `Publish` on the subject "publish.order.paid", which has no queue;
the call returns nil and every queue stays empty, so no consumer receives
anything and no dispatch takes place. -/
theorem c2_unregistered_publish_not_dispatched :
    GoMap.get oneEventModule.events "order.paid" = none ∧
    ((openedAndStarted sampleInfra oneEventModule).map fun m2 =>
      match Publish sampleInfra m2 "order.paid" [some [("id", Val.int 1)]] with
      | .returned err m3 =>
        (err, m3.instances.map fun e =>
          (e.1, e.2.conn.map fun c => (c.running, c.consumers, c.events, c.published)))
      | .blocked => (none, []))
      = some (none,
          [("c1", some (true, ["broadcast.user.created", "publish.user.created"],
              [("broadcast.user.created", []), ("publish.user.created", [])],
              [("publish.order.paid", [])]))]) := by
  refine ⟨by decide, ?_⟩
  rfl

/-- C2, amended: end to end on the default transport, on every module whose
connections hold only the subjects of declared events (the state `Open` and `Start`
produce from a module without instances, with every queue empty, and that every
returning publish keeps), for every event name without a registered declaration,
publishing to it returns without blocking and leaves the running flag, the
consumers and every queue of every connection as they were: no message is
enqueued, so the publish causes no dispatch (the payload is silently dropped). -/
theorem c2_unregistered_publish_is_dropped (I : Infra) (m : Module)
    (connName name : String) (values : List (Option Map))
    (hinv : m.SubjectsDeclared) (hname : GoMap.get m.events name = none) :
    (∃ err m', Module.publish I m connName name values = .returned err m' ∧
      (∀ k, ((GoMap.get m'.instances k).bind Instance.conn).map
              (fun c => (c.running, c.consumers, c.events))
            = ((GoMap.get m.instances k).bind Instance.conn).map
              (fun c => (c.running, c.consumers, c.events))) ∧
      m'.SubjectsDeclared) ∧
    (∀ m0 m1 m2, m0.opened = false → m0.instances = [] → Module.Open I m0 = .ok m1 →
      Module.Start m1 = .ok m2 →
      m2.SubjectsDeclared ∧
      ∀ k inst conn subject, GoMap.get m2.instances k = some inst → inst.conn = some conn →
        conn.receive subject = none) ∧
    (∀ cn mode nm vs err m', m.publishMode I cn mode nm vs = .returned err m' →
      m'.SubjectsDeclared) := by
  have hnot : name ∉ GoMap.keys m.events := (GoMap.get_eq_none_iff _ _).mp hname
  have hq : ∀ cn inst conn, GoMap.get m.instances cn = some inst → inst.conn = some conn →
      GoMap.get conn.events (inst.Config.Prefix ++ publishSubjectPrefix ++ name) = none := by
    intro cn inst conn hg hc
    rw [GoMap.get_eq_none_iff]
    intro hx
    obtain ⟨ev, hev, h1 | h1⟩ := hinv cn inst conn hg hc _ hx
    · exact publish_subject_ne_broadcast _ _ _ h1
    · exact hnot (publish_subject_inj _ _ _ h1 ▸ hev)
  refine ⟨?_, ?_, ?_⟩
  · rcases Module.publishMode_no_queue I m connName publishSubjectPrefix name values hq with
      ⟨err, h⟩ | ⟨cn, inst, conn, data, hi, hc, h⟩
    · exact ⟨err, m, h, fun _ => rfl, hinv⟩
    · refine ⟨none, _, h, ?_, Module.publishMode_subjectsDeclared I m _ _ _ _ _ _ hinv h⟩
      intro k
      by_cases hk : cn = k
      · subst hk
        simp only [GoMap.get_set_self, hi, Option.bind, hc, Option.map]
      · simp only [GoMap.get_set_ne _ _ _ _ hk]
  · intro m0 m1 m2 h1 h2 h3 h4
    exact Module.subjectsDeclared_of_open_start I m0 m1 m2 h1 h2 h3 h4
  · intro cn mode nm vs err m' h
    exact Module.publishMode_subjectsDeclared I m m' cn mode nm vs err hinv h

/-- The amended C2 at the opened and started module with the one declared event
"user.created". -/
theorem c2_unregistered_publish_is_dropped_witness :
    ∃ err m',
      Module.publish sampleInfra ((openedAndStarted sampleInfra oneEventModule).getD
          Module.initial) "" "order.paid" [] = .returned err m' ∧
      m'.SubjectsDeclared :=
  let ⟨⟨err, m', h1, _, h3⟩, _⟩ :=
    c2_unregistered_publish_is_dropped sampleInfra
      ((openedAndStarted sampleInfra oneEventModule).getD Module.initial)
      "" "order.paid" []
      (Module.subjectsDeclared_of_open_start sampleInfra oneEventModule
        ((Module.Open sampleInfra oneEventModule).toOption.getD Module.initial)
        ((openedAndStarted sampleInfra oneEventModule).getD Module.initial)
        (by decide) (by decide) rfl rfl).1
      (by decide)
  ⟨err, m', h1, h3⟩

/-- C3, as stated, fails. With serve and request filters that all call `Next`, a
message for the undeclared name "order.paid" starts the found chain, and the found
handler, by calling `Error`, starts the error chain in the same dispatch. So does
a request filter that calls `Denied` after `Next`, for the denied chain, a
response filter that calls `Failed`, for the failed chain, and a serve filter that
calls `Error` after `Next`, for the error chain. And when the event of
the context has been replaced before `finding` runs (the update a continuation
makes by `ctx.Config = ...`), `request` does not start the found chain and enters
`execute`. -/
theorem c3_found_handler_starts_error_chain :
    GoMap.get foundRaisesModule.events (recoverName sampleInstance.Config "publish.order.paid")
      = none ∧
    (Instance.serving sampleInfra foundRaisesModule 12 sampleInstance "publish.order.paid"
        []).map Context.trace
      = some [Ev.enter Method.open, Ev.call 10, Ev.enter Method.serve, Ev.call 11,
          Ev.enter Method.request, Ev.enter Method.finding, Ev.enter Method.found, Ev.call 1,
          Ev.enter Method.error, Ev.enter Method.response, Ev.call 12, Ev.enter Method.body] ∧
    (Instance.serving sampleInfra requestDeniesAfterModule 12 sampleInstance
        "publish.order.paid" []).map Context.trace
      = some [Ev.enter Method.open, Ev.call 10, Ev.enter Method.serve, Ev.call 11,
          Ev.enter Method.request, Ev.enter Method.finding, Ev.enter Method.found, Ev.call 1,
          Ev.enter Method.denied, Ev.enter Method.response, Ev.call 12, Ev.enter Method.body] ∧
    (Instance.serving sampleInfra responseFailsModule 12 sampleInstance
        "publish.order.paid" []).map Context.trace
      = some [Ev.enter Method.open, Ev.call 10, Ev.enter Method.serve, Ev.call 11,
          Ev.enter Method.request, Ev.enter Method.finding, Ev.enter Method.found, Ev.call 1,
          Ev.enter Method.response, Ev.call 12, Ev.enter Method.failed, Ev.enter Method.body] ∧
    (Instance.serving sampleInfra serveErrorsAfterModule 12 sampleInstance
        "publish.order.paid" []).map Context.trace
      = some [Ev.enter Method.open, Ev.call 10, Ev.enter Method.serve, Ev.call 11,
          Ev.enter Method.request, Ev.enter Method.finding, Ev.enter Method.found, Ev.call 1,
          Ev.enter Method.response, Ev.call 12, Ev.enter Method.body, Ev.enter Method.error] ∧
    (Instance.newContext sampleInfra passThroughModule sampleInstance "publish.order.paid"
        []).Config = none ∧
    (Instance.request (Context.Next passThroughModule sampleInfra 12)
        { Instance.newContext sampleInfra passThroughModule sampleInstance
            "publish.order.paid" [] with
          Config := some plainEvent }).map Context.trace
      = some [Ev.enter Method.request, Ev.enter Method.finding, Ev.enter Method.authorizing,
          Ev.enter Method.arguing, Ev.enter Method.execute] := by
  decide

/-- C3, amended: for every inbound message handed to the instance whose recovered
event name matches no registered declaration, so that the event of the context is
nil and, no continuation assigning it, stays nil; whose serve and request filters
all call `Next`; and whose serve filters, request filters, found handlers and
response filters call none of `Error`, `Failed` and `Denied`: every dispatch that
completes has started the found chain, has started none of the error, failed or
denied chains and has never entered the execute phase (so no execute filter or
event action has run), every entry of its trace being the call of a closure or the
entry of `open`, `serve`, `request`, `finding`, `found`, `response` or `body`; and
when no found handler calls `Found`, the dispatch does complete, with one result at
every sufficient depth. -/
theorem c3_unregistered_reaches_found (I : Infra) (m : Module) (inst : Instance)
    (name : String) (data : Bytes)
    (hname : GoMap.get m.events (recoverName inst.Config name) = none)
    (hmild : m.mildChains = true)
    (hserve : ∀ f, some f ∈ m.serveFilters → Op.Next ∈ f.body)
    (hreq : ∀ f, some f ∈ m.requestFilters → Op.Next ∈ f.body) :
    (∀ n c', Instance.serving I m n inst name data = some c' →
      Ev.enter Method.found ∈ c'.trace ∧
      Ev.enter Method.error ∉ c'.trace ∧
      Ev.enter Method.failed ∉ c'.trace ∧
      Ev.enter Method.denied ∉ c'.trace ∧
      Ev.enter Method.execute ∉ c'.trace ∧
      ∀ e ∈ c'.trace, Ev.onFoundPath e = true) ∧
    ((∀ f, some f ∈ m.foundHandlers → Op.Found ∉ f.body) →
      ∃ c' N, ∀ n, N ≤ n → Instance.serving I m n inst name data = some c') := by
  have hcfg : (Instance.newContext I m inst name data).Config = none := by
    simp only [Instance.newContext, hname]
    split
    · split <;> rfl
    · split
      · split <;> split <;> rfl
      · rfl
  have htrace : (Instance.newContext I m inst name data).trace = [] := by
    simp only [Instance.newContext, hname]
    split
    · split <;> rfl
    · split
      · split <;> split <;> rfl
      · rfl
  have hm := hmild
  simp only [Module.mildChains, Bool.and_eq_true] at hm
  obtain ⟨⟨⟨ms, mr⟩, mf⟩, _⟩ := hm
  refine ⟨fun n c' h => ?_, fun hnf => ?_⟩
  · have hf := Instance.open_reaches_found m I
      (fun f hf => ⟨mildChain_mem _ ms f hf, hserve f hf⟩)
      (fun f hf => ⟨mildChain_mem _ mr f hf, hreq f hf⟩) n _ c' hcfg h
    obtain ⟨t, ht, hpath⟩ := Instance.open_mild m I hmild n _ c' hcfg h
    rw [htrace, List.nil_append] at ht
    have hall : ∀ e ∈ c'.trace, Ev.onFoundPath e = true := by
      rw [ht]
      exact hpath
    have hnot : ∀ e, Ev.onFoundPath e = false → e ∉ c'.trace := by
      intro e he hmem
      rw [hall e hmem] at he
      cases he
    exact ⟨hf, hnot _ rfl, hnot _ rfl, hnot _ rfl, hnot _ rfl, hall⟩
  · obtain ⟨c', hrun⟩ := Instance.open_mild_total m I hmild
      (quietChain_of_mild m.foundHandlers mf hnf) (Instance.newContext I m inst name data) hcfg
    exact ⟨c', _, hrun⟩

/-- The amended C3 at two modules. Where the serve filter calls `Next` twice and
the request filter calls `Next` and then `Found`, the dispatch at depth 12 starts
the found chain, twice, and nothing else, and so does every dispatch that
completes. Where the serve filter and the request filter call `Next` twice and the
found handler does not call `Found`, the dispatch completes at every sufficient
depth. -/
theorem c3_unregistered_reaches_found_witness :
    (Instance.serving sampleInfra nextThenFoundModule 12 sampleInstance "publish.order.paid"
        []).map Context.trace
      = some [Ev.enter Method.open, Ev.call 10, Ev.enter Method.serve, Ev.call 11,
          Ev.enter Method.request, Ev.enter Method.finding, Ev.enter Method.found, Ev.call 1,
          Ev.enter Method.found, Ev.call 1, Ev.enter Method.response, Ev.call 12,
          Ev.enter Method.body] ∧
    (∀ n c', Instance.serving sampleInfra nextThenFoundModule n sampleInstance
        "publish.order.paid" [] = some c' →
      Ev.enter Method.found ∈ c'.trace ∧
      Ev.enter Method.error ∉ c'.trace ∧
      Ev.enter Method.failed ∉ c'.trace ∧
      Ev.enter Method.denied ∉ c'.trace ∧
      Ev.enter Method.execute ∉ c'.trace) ∧
    ∃ c' N, ∀ n, N ≤ n →
      Instance.serving sampleInfra nextTwiceModule n sampleInstance "publish.order.paid" []
        = some c' :=
  ⟨by decide,
    fun n c' h =>
      let ⟨h1, h2, h3, h4, h5, _⟩ :=
        (c3_unregistered_reaches_found sampleInfra nextThenFoundModule sampleInstance
          "publish.order.paid" [] (by decide) (by decide)
          (fun f hf => by
            have : f = { id := 10, body := [Op.Next, Op.Next] } := by
              simpa [nextThenFoundModule] using hf
            rw [this]
            decide)
          (fun f hf => by
            have : f = { id := 11, body := [Op.Next, Op.Found] } := by
              simpa [nextThenFoundModule] using hf
            rw [this]
            decide)).1 n c' h
      ⟨h1, h2, h3, h4, h5⟩,
    (c3_unregistered_reaches_found sampleInfra nextTwiceModule sampleInstance
      "publish.order.paid" [] (by decide) (by decide)
      (fun f hf => by
        have : f = { id := 10, body := [Op.Next, Op.Next] } := by
          simpa [nextTwiceModule] using hf
        rw [this]
        decide)
      (fun f hf => by
        have : f = { id := 11, body := [Op.assign (Assign.Locals "seen" (Val.bool true)),
            Op.Next, Op.assign (Assign.Locals "back" (Val.bool true)), Op.Next] } := by
          simpa [nextTwiceModule] using hf
        rw [this]
        decide)).2 (fun f hf => by
        have : f = { id := 1, body := [] } := by
          simpa [nextTwiceModule, passThroughModule, oneEventModule] using hf
        rw [this]
        decide)⟩

/-- C4: for every context of an event that declares an argument schema, if the
mapping collaborator returns a failing result then `arguing` is the run of the
failed chain (the event's failed hook, then the module-wide failed handlers, from
cursor zero) on the context with exactly that result stored and `Args` as they
were; `arguing` does not go on to the next stage: whatever the failed chain does,
only closures and terminal chains run, and the execute phase is never entered; and
when the terminal hooks and handlers call no terminal outcome themselves, `arguing`
completes at every sufficient depth. -/
theorem c4_mapping_failure_goes_to_failed (K : Run) (m : Module) (I : Infra) (n : Nat)
    (ctx : Context) (ev : Event) (schema : Vars) (res : Res)
    (hcfg : ctx.Config = some ev) (hargs : ev.Args = some schema)
    (hmap : (I.Mapping schema ctx.Value ev.Nullable (some ctx.Meta)).2 = some res)
    (hfail : res.fail = true) :
    Instance.arguing K m I ctx
      = K { ctx with
            result := some res
            index := 0
            nexts := (ev.Failed.toList.map fun h => some (Fn.user h)) ++ asFuncs m.failedHandlers
            trace := ctx.trace ++ [Ev.enter Method.arguing, Ev.enter Method.failed] } ∧
    (∀ c', Instance.arguing (Context.Next m I n) m I ctx = some c' →
      ∃ t, c'.trace = ctx.trace ++ [Ev.enter Method.arguing, Ev.enter Method.failed] ++ t ∧
        (∀ e ∈ t, e.isHandler = true) ∧ Ev.enter Method.execute ∉ t) ∧
    (quietTerminals m ctx.Config = true →
      ∃ c', ∀ k, handlersBound m + 1 ≤ k →
        Instance.arguing (Context.Next m I k) m I ctx = some c') := by
  have heq : ∀ K : Run, Instance.arguing K m I ctx
      = K { ctx with
            result := some res
            index := 0
            nexts := (ev.Failed.toList.map fun h => some (Fn.user h)) ++ asFuncs m.failedHandlers
            trace := ctx.trace ++ [Ev.enter Method.arguing, Ev.enter Method.failed] } := by
    intro K
    simp only [Instance.arguing, Context.log, hcfg, hargs, hmap, hfail, if_true, Context.Failed,
      Instance.failed_eq, chainStart, Context.Result, Option.bind, List.append_assoc,
      List.cons_append, List.nil_append]
  refine ⟨heq K, ?_, ?_⟩
  · intro c' hrun
    rw [heq] at hrun
    have hu : userOnly ({ ctx with
        result := some res
        index := 0
        nexts := (ev.Failed.toList.map fun h => some (Fn.user h)) ++ asFuncs m.failedHandlers
        trace := ctx.trace ++ [Ev.enter Method.arguing, Ev.enter Method.failed] } :
          Context).nexts :=
      chainStart_userOnly Method.failed ev.Failed m.failedHandlers ctx
    obtain ⟨-, t, ht, hall⟩ := Next_userOnly m I n _ _ hu hrun
    refine ⟨t, ht, hall, ?_⟩
    intro hmem
    have := hall _ hmem
    simp [Ev.isHandler] at this
  · intro hq
    obtain ⟨c', h1, -⟩ := terminal_total m I ctx.Config hq (Op.Failed (some res)) rfl
      (ctx.log (Ev.enter Method.arguing)) rfl (handlersBound m + 1) (le_refl _)
    have h0 : Instance.arguing (Context.Next m I (handlersBound m + 1)) m I ctx = some c' := by
      rw [← h1]
      simp only [Instance.arguing, Context.log, hcfg, hargs, hmap, hfail, if_true, Op.exec]
    exact ⟨c', fun k hk =>
      invoke_mono (Next_mono m I hk) m I (Fn.method Method.arguing) ctx c' h0⟩

/-- The property C4 at an event with a schema and a mapping that fails, alone and
inside a whole dispatch. -/
theorem c4_mapping_failure_goes_to_failed_witness :
    (Instance.arguing (Context.Next schemaModule failingInfra 4) schemaModule failingInfra
        (Instance.newContext failingInfra schemaModule sampleInstance "publish.user.created"
          [])).map (fun c => (c.trace, c.result, c.Args))
      = some ([Ev.enter Method.arguing, Ev.enter Method.failed, Ev.call 22, Ev.call 24],
          some { code := 400, ok := false, fail := true }, []) ∧
    (Instance.serving failingInfra schemaModule 12 sampleInstance "publish.user.created"
        []).map Context.trace
      = some [Ev.enter Method.open, Ev.enter Method.serve, Ev.enter Method.request,
          Ev.enter Method.finding, Ev.enter Method.authorizing, Ev.enter Method.arguing,
          Ev.enter Method.failed, Ev.call 22, Ev.call 24, Ev.enter Method.response,
          Ev.enter Method.body] :=
  ⟨(c4_mapping_failure_goes_to_failed (Context.Next schemaModule failingInfra 4) schemaModule
      failingInfra 4
      (Instance.newContext failingInfra schemaModule sampleInstance "publish.user.created" [])
      _ [("id", "int"), ("name", "string")] { code := 400, ok := false, fail := true }
      rfl rfl rfl rfl).1 ▸ by decide,
    by decide⟩

/-- C5: whenever `serve` is entered, it runs the request chain (the request filters,
then `request`) and, whatever made that chain return (it ran to its end, a request
filter returned without calling `Next`, or a filter, action or stage called a
terminal outcome), starts the response phase on the context the chain returned:
cursor zero, the module-wide response filters as the queue; in the trace of a
completed `serve`, the entry of `response` comes after everything the request
chain did; and when the terminal hooks and handlers call no terminal outcome
themselves, `serve` does complete at every sufficient depth, whatever the filters
and actions do. -/
theorem c5_response_follows_request_chain (m : Module) (I : Infra) (n : Nat) (ctx : Context) :
    Instance.serve (Context.Next m I n) m ctx
      = (Context.Next m I n
          { ctx with
            index := 0
            nexts := asFuncs m.requestFilters ++ [some (Fn.method Method.request)]
            trace := ctx.trace ++ [Ev.enter Method.serve] }).bind
          (fun c1 =>
            (Context.Next m I n
              { c1 with
                index := 0
                nexts := asFuncs m.responseFilters
                trace := c1.trace ++ [Ev.enter Method.response] }).map Instance.body) ∧
    (∀ c2, Instance.serve (Context.Next m I n) m ctx = some c2 →
      ∃ c1 t1 t2,
        Context.Next m I n
          { ctx with
            index := 0
            nexts := asFuncs m.requestFilters ++ [some (Fn.method Method.request)]
            trace := ctx.trace ++ [Ev.enter Method.serve] } = some c1 ∧
        c1.trace = ctx.trace ++ Ev.enter Method.serve :: t1 ∧
        c2.trace = c1.trace ++ Ev.enter Method.response :: t2) ∧
    (quietTerminals m ctx.Config = true →
      ∃ c1 c2 t1 t2,
        c1.trace = ctx.trace ++ Ev.enter Method.serve :: t1 ∧
        c2.trace = c1.trace ++ Ev.enter Method.response :: t2 ∧
        ∀ k, depthBound m ctx.Config ≤ k →
          Context.Next m I k
            { ctx with
              index := 0
              nexts := asFuncs m.requestFilters ++ [some (Fn.method Method.request)]
              trace := ctx.trace ++ [Ev.enter Method.serve] } = some c1 ∧
          Instance.serve (Context.Next m I k) m ctx = some c2) :=
  ⟨Instance.serve_eq _ m ctx, fun c2 h2 => Instance.serve_trace m I n ctx c2 h2,
    fun hq => Instance.serve_completes m I ctx hq⟩

/-- The property C5 at three dispatches of "user.created": the request chain runs
to its end (the actions run), a request filter returns without calling `Next`, a
request filter calls `Denied`; each time `response` is entered after the request
chain has returned. -/
theorem c5_response_follows_request_chain_witness :
    ((Instance.serving sampleInfra schemaModule 12 sampleInstance "publish.user.created"
          []).map Context.trace
        = some [Ev.enter Method.open, Ev.enter Method.serve, Ev.enter Method.request,
            Ev.enter Method.finding, Ev.enter Method.authorizing, Ev.enter Method.arguing,
            Ev.enter Method.execute, Ev.call 23, Ev.call 20, Ev.call 21,
            Ev.enter Method.response, Ev.enter Method.body]) ∧
    ((Instance.serving sampleInfra requestStopsModule 12 sampleInstance "publish.user.created"
          []).map Context.trace
        = some [Ev.enter Method.open, Ev.call 10, Ev.enter Method.serve, Ev.call 11,
            Ev.call 13, Ev.enter Method.response, Ev.call 12, Ev.enter Method.body]) ∧
    ((Instance.serving sampleInfra denyingModule 12 sampleInstance "publish.user.created"
          []).map Context.trace
        = some [Ev.enter Method.open, Ev.enter Method.serve, Ev.call 30,
            Ev.enter Method.denied, Ev.call 31, Ev.enter Method.response,
            Ev.enter Method.body]) ∧
    ∃ c1 c2 t1 t2,
      c1.trace = [] ++ Ev.enter Method.serve :: t1 ∧
      c2.trace = c1.trace ++ Ev.enter Method.response :: t2 ∧
      ∀ k, depthBound denyingModule
          (Instance.newContext sampleInfra denyingModule sampleInstance
            "publish.user.created" []).Config ≤ k →
        Context.Next denyingModule sampleInfra k
          { Instance.newContext sampleInfra denyingModule sampleInstance
              "publish.user.created" [] with
            index := 0
            nexts := asFuncs denyingModule.requestFilters ++ [some (Fn.method Method.request)]
            trace := [] ++ [Ev.enter Method.serve] } = some c1 ∧
        Instance.serve (Context.Next denyingModule sampleInfra k) denyingModule
          (Instance.newContext sampleInfra denyingModule sampleInstance
            "publish.user.created" []) = some c2 :=
  ⟨by decide, by decide, by decide,
    (c5_response_follows_request_chain denyingModule sampleInfra 0
      (Instance.newContext sampleInfra denyingModule sampleInstance
        "publish.user.created" [])).2.2 (by decide)⟩

/-- C7: for every module state, connection name, mode and payload, `publishMode`
returns the invalid-event-name error when the event name is empty, and for a
non-empty name the no-connection error when the connection name is empty and there
is no ring, or when the explicit or ring-resolved connection name has no instance
with a non-nil connection; in these cases the module, and so every connection's
log of `Publish` calls, is unchanged. `Publish`, `PublishTo`, `Broadcast` and
`BroadcastTo` are `publishMode` with the publish or broadcast marker. -/
theorem c7_publish_routing_errors (I : Infra) (m : Module) (connName mode name : String)
    (values : List (Option Map)) :
    (name = "" →
      m.publishMode I connName mode name values = .returned (some Err.errInvalidEvent) m) ∧
    (name ≠ "" → connName = "" → m.hashring = none →
      m.publishMode I connName mode name values = .returned (some Err.errNoConnection) m) ∧
    (name ≠ "" → connName ≠ "" →
      (GoMap.get m.instances connName).bind Instance.conn = none →
      m.publishMode I connName mode name values = .returned (some Err.errNoConnection) m) ∧
    (∀ ring, name ≠ "" → connName = "" → m.hashring = some ring →
      (GoMap.get m.instances (I.Locate ring name)).bind Instance.conn = none →
      m.publishMode I connName mode name values = .returned (some Err.errNoConnection) m) ∧
    (Publish I m name values = m.publishMode I "" publishSubjectPrefix name values ∧
      PublishTo I m connName name values
        = m.publishMode I connName publishSubjectPrefix name values ∧
      Broadcast I m name values = m.publishMode I "" broadcastSubjectPrefix name values ∧
      BroadcastTo I m connName name values
        = m.publishMode I connName broadcastSubjectPrefix name values) := by
  refine ⟨?_, ?_, ?_, ?_, ⟨rfl, rfl, rfl, rfl⟩⟩
  · intro h
    simp [Module.publishMode, h]
  · intro h1 h2 h3
    simp [Module.publishMode, h1, h2, h3]
  · intro h1 h2 h3
    cases hg : GoMap.get m.instances connName with
    | none => simp [Module.publishMode, h1, h2, hg]
    | some inst =>
      have hc : inst.conn = none := by simpa [hg] using h3
      simp [Module.publishMode, h1, h2, hg, hc]
  · intro ring h1 h2 h3 h4
    cases hg : GoMap.get m.instances (I.Locate ring name) with
    | none => simp [Module.publishMode, h1, h2, h3, hg]
    | some inst =>
      have hc : inst.conn = none := by simpa [hg] using h4
      simp [Module.publishMode, h1, h2, h3, hg, hc]

/-- C8: for every context state and depth, `Next` returns the context unchanged
when the cursor is at or past the end of the queue; otherwise it invokes the
continuation of the old cursor on the context with the cursor increased by one (a
closure runs its statements on that context), and for a nil slot it invokes nothing
and goes on as `Next` from the increased cursor. -/
theorem c8_next_advances_then_invokes (m : Module) (I : Infra) (n : Nat) (ctx : Context) :
    (ctx.nexts.length ≤ ctx.index → Context.Next m I (n + 1) ctx = some ctx) ∧
    (∀ f, ctx.nexts[ctx.index]? = some (some f) →
      Context.Next m I (n + 1) ctx
        = invoke (Context.Next m I n) m I f { ctx with index := ctx.index + 1 }) ∧
    (∀ g, ctx.nexts[ctx.index]? = some (some (Fn.user g)) →
      Context.Next m I (n + 1) ctx
        = runBody (Context.Next m I n) m g.body
            { ctx with index := ctx.index + 1, trace := ctx.trace ++ [Ev.call g.id] }) ∧
    (ctx.nexts[ctx.index]? = some none →
      Context.Next m I (n + 1) ctx
        = Context.Next m I n { ctx with index := ctx.index + 1 }) := by
  refine ⟨?_, ?_, ?_, ?_⟩
  · intro h
    have : ctx.nexts[ctx.index]? = none := List.getElem?_eq_none h
    simp [Context.Next, this]
  · intro f h
    simp [Context.Next, h]
  · intro g h
    simp [Context.Next, h, invoke, Context.log]
  · intro h
    simp [Context.Next, h]

/-- C9: for each of `Found`, `Error`, `Failed` and `Denied`, called on any context
state and under any way of running the chain: the run starts from cursor zero on
the queue made of the event's own hook of that kind (when the event is resolved and
declares one) followed by the module-wide handlers of that kind in their stored
order, the queue held before being discarded; `Error`, `Failed` and `Denied` have
stored the given result. `Next` on such a context invokes its first continuation. -/
theorem c9_terminal_outcome_installs_chain (K : Run) (m : Module) (I : Infra) (n : Nat)
    (res : Option Res) (ctx : Context) :
    (Context.Found K m ctx
      = K { ctx with
            index := 0
            nexts := ((ctx.Config.bind Event.Found).toList.map fun h => some (Fn.user h))
              ++ asFuncs m.foundHandlers
            trace := ctx.trace ++ [Ev.enter Method.found] }) ∧
    (Context.Error K m res ctx
      = K { ctx with
            result := res
            index := 0
            nexts := ((ctx.Config.bind Event.Error).toList.map fun h => some (Fn.user h))
              ++ asFuncs m.errorHandlers
            trace := ctx.trace ++ [Ev.enter Method.error] }) ∧
    (Context.Failed K m res ctx
      = K { ctx with
            result := res
            index := 0
            nexts := ((ctx.Config.bind Event.Failed).toList.map fun h => some (Fn.user h))
              ++ asFuncs m.failedHandlers
            trace := ctx.trace ++ [Ev.enter Method.failed] }) ∧
    (Context.Denied K m res ctx
      = K { ctx with
            result := res
            index := 0
            nexts := ((ctx.Config.bind Event.Denied).toList.map fun h => some (Fn.user h))
              ++ asFuncs m.deniedHandlers
            trace := ctx.trace ++ [Ev.enter Method.denied] }) ∧
    (∀ (c : Context) (f : Fn) (rest : List ctxFunc),
      c.index = 0 → c.nexts = some f :: rest →
        Context.Next m I (n + 1) c = invoke (Context.Next m I n) m I f { c with index := 1 }) := by
  refine ⟨?_, ?_, ?_, ?_, ?_⟩
  · cases hc : ctx.Config with
    | none => simp [Context.Found, Instance.found, Context.log, Context.clear, Context.next, hc]
    | some ev =>
      cases hh : ev.Found <;>
        simp [Context.Found, Instance.found, Context.log, Context.clear, Context.next, hc, hh]
  · cases hc : ctx.Config with
    | none =>
      simp [Context.Error, Instance.error, Context.Result, Context.log, Context.clear,
        Context.next, hc]
    | some ev =>
      cases hh : ev.Error <;>
        simp [Context.Error, Instance.error, Context.Result, Context.log, Context.clear,
          Context.next, hc, hh]
  · cases hc : ctx.Config with
    | none =>
      simp [Context.Failed, Instance.failed, Context.Result, Context.log, Context.clear,
        Context.next, hc]
    | some ev =>
      cases hh : ev.Failed <;>
        simp [Context.Failed, Instance.failed, Context.Result, Context.log, Context.clear,
          Context.next, hc, hh]
  · cases hc : ctx.Config with
    | none =>
      simp [Context.Denied, Instance.denied, Context.Result, Context.log, Context.clear,
        Context.next, hc]
    | some ev =>
      cases hh : ev.Denied <;>
        simp [Context.Denied, Instance.denied, Context.Result, Context.log, Context.clear,
          Context.next, hc, hh]
  · intro c f rest h0 hn
    simp [Context.Next, h0, hn]

/-- C10: on the default connection, `Start` returns the already-running error
exactly when the connection is running and then leaves the state unchanged, and
otherwise returns no error and marks it running; `Stop` returns the not-running
error exactly when it is not running and then leaves the state unchanged, and
otherwise returns no error and marks it not running; from a fresh connection
`Start`, `Stop`, `Start` all succeed. -/
theorem c10_start_stop_guards (c : defaultConnection) :
    ((c.Start).1 = some Err.errEventRunning ↔ c.running = true) ∧
    (c.running = true → c.Start = (some Err.errEventRunning, c)) ∧
    (c.running = false → (c.Start).1 = none ∧ (c.Start).2.running = true) ∧
    ((c.Stop).1 = some Err.errEventNotRunning ↔ c.running = false) ∧
    (c.running = false → c.Stop = (some Err.errEventNotRunning, c)) ∧
    (c.running = true → (c.Stop).1 = none ∧ (c.Stop).2.running = false) ∧
    ((defaultDriver.Connect.Start).1 = none ∧
      ((defaultDriver.Connect.Start).2.Stop).1 = none ∧
      (((defaultDriver.Connect.Start).2.Stop).2.Start).1 = none ∧
      (((defaultDriver.Connect.Start).2.Stop).2.Start).2.running = true) := by
  refine ⟨?_, ?_, ?_, ?_, ?_, ?_, ?_⟩
  · cases h : c.running <;> simp [defaultConnection.Start, h]
  · intro h; simp [defaultConnection.Start, h]
  · intro h; simp [defaultConnection.Start, h]
  · cases h : c.running <;> simp [defaultConnection.Stop, h]
  · intro h; simp [defaultConnection.Stop, h]
  · intro h; simp [defaultConnection.Stop, h]
  · decide

/-- C11: on the default connection `Register` is idempotent. Registering a subject
that already has a queue returns no error and leaves the connection, with its
subject-to-queue map, as it was; so registering the same name a second time changes
nothing. After any sequence of registrations on a fresh connection, `Start`
succeeds and spawns exactly one consumer for each distinct registered subject and
none for any other name. -/
theorem c11_register_idempotent :
    (∀ (c : defaultConnection) (name group : String) (q : List Bytes),
      GoMap.get c.events name = some q → c.Register name group = (none, c)) ∧
    (∀ (c : defaultConnection) (name g1 g2 : String),
      (c.Register name g1).2.Register name g2 = (none, (c.Register name g1).2)) ∧
    (∀ (subjects : List (String × String)) (s : String),
      ((defaultDriver.Connect.registerAll subjects).Start).1 = none ∧
      ((defaultDriver.Connect.registerAll subjects).Start).2.consumers.count s
        = if s ∈ subjects.map Prod.fst then 1 else 0) := by
  refine ⟨defaultConnection.Register_registered, fun c name g1 g2 => ?_, fun subjects s => ?_⟩
  · obtain ⟨q, hq⟩ := defaultConnection.Register_get_self c name g1
    exact defaultConnection.Register_registered _ _ _ q hq
  · obtain ⟨h1, h2, h3, h4⟩ := defaultConnection.registerAll_spec subjects defaultDriver.Connect
    have hrun : (defaultDriver.Connect.registerAll subjects).running = false := h1
    have hcons : (defaultDriver.Connect.registerAll subjects).consumers = [] := h2
    have hn := h3 (by simp [defaultDriver.Connect, GoMap.keys])
    simp only [defaultConnection.Start, hrun, hcons, List.nil_append]
    refine ⟨by simp, ?_⟩
    by_cases hs : s ∈ subjects.map Prod.fst
    · rw [if_pos hs]
      exact List.count_eq_one_of_mem hn ((h4 s).mpr (Or.inl hs))
    · rw [if_neg hs]
      apply List.count_eq_zero_of_not_mem
      intro hmem
      rcases (h4 s).mp hmem with h | h
      · exact hs h
      · simp [defaultDriver.Connect, GoMap.keys] at h

/-- C12, as stated, fails: filter "a" is registered before filter "b", the range
over the filter map visits "b" first, and the serve chain Setup builds holds the
hook of "b" before the hook of "a", which is not the order of registration. -/
theorem c12_chain_not_in_registration_order :
    reverseOrder.Valid ∧
    GoMap.keys twoFiltersModule.filters = ["a", "b"] ∧
    hooksOf Filter.Serve twoFiltersModule.filters
      = [(serveOnly 1).Serve, (serveOnly 2).Serve] ∧
    (Module.Setup reverseOrder twoFiltersModule).serveFilters
      = [(serveOnly 2).Serve, (serveOnly 1).Serve] ∧
    (Module.Setup reverseOrder twoFiltersModule).serveFilters
      ≠ hooksOf Filter.Serve twoFiltersModule.filters := by
  refine ⟨⟨fun fs => List.reverse_perm fs, fun hs => List.reverse_perm hs⟩, ?_, ?_, ?_, ?_⟩
  · decide
  · decide
  · decide
  · decide

/-- C12, amended: after Setup each of the four stage chains holds exactly the
non-nil hooks of its kind of the registered filters, one per filter that has one,
in the order in which the range over the filter map visited the filters; this is
a rearrangement of the order of registration, the same one for the four chains. -/
theorem c12_chains_follow_range_order (o : RangeOrder) (m : Module) (hvalid : o.Valid) :
    ((Module.Setup o m).serveFilters = hooksOf Filter.Serve (o.filters m.filters) ∧
      (Module.Setup o m).requestFilters = hooksOf Filter.Request (o.filters m.filters) ∧
      (Module.Setup o m).executeFilters = hooksOf Filter.Execute (o.filters m.filters) ∧
      (Module.Setup o m).responseFilters = hooksOf Filter.Response (o.filters m.filters)) ∧
    (o.filters m.filters).Perm m.filters ∧
    ((Module.Setup o m).serveFilters.Perm (hooksOf Filter.Serve m.filters) ∧
      (Module.Setup o m).requestFilters.Perm (hooksOf Filter.Request m.filters) ∧
      (Module.Setup o m).executeFilters.Perm (hooksOf Filter.Execute m.filters) ∧
      (Module.Setup o m).responseFilters.Perm (hooksOf Filter.Response m.filters)) := by
  have hp := hvalid.1 m.filters
  have e1 : (Module.Setup o m).serveFilters = hooksOf Filter.Serve (o.filters m.filters) :=
    hooksOf_eq Filter.Serve _
  have e2 : (Module.Setup o m).requestFilters = hooksOf Filter.Request (o.filters m.filters) :=
    hooksOf_eq Filter.Request _
  have e3 : (Module.Setup o m).executeFilters = hooksOf Filter.Execute (o.filters m.filters) :=
    hooksOf_eq Filter.Execute _
  have e4 : (Module.Setup o m).responseFilters = hooksOf Filter.Response (o.filters m.filters) :=
    hooksOf_eq Filter.Response _
  refine ⟨⟨e1, e2, e3, e4⟩, hp, ?_, ?_, ?_, ?_⟩
  · rw [e1]; exact hooksOf_perm _ _ _ hp
  · rw [e2]; exact hooksOf_perm _ _ _ hp
  · rw [e3]; exact hooksOf_perm _ _ _ hp
  · rw [e4]; exact hooksOf_perm _ _ _ hp

/-- The amended C12 at the module with filters "a" and "b", ranged over from the
last to the first. -/
theorem c12_chains_follow_range_order_witness :
    reverseOrder.Valid ∧
    (Module.Setup reverseOrder twoFiltersModule).serveFilters
      = hooksOf Filter.Serve (reverseOrder.filters twoFiltersModule.filters) ∧
    (Module.Setup reverseOrder twoFiltersModule).serveFilters.Perm
      (hooksOf Filter.Serve twoFiltersModule.filters) :=
  have hv : reverseOrder.Valid :=
    ⟨fun fs => List.reverse_perm fs, fun hs => List.reverse_perm hs⟩
  ⟨hv, (c12_chains_follow_range_order reverseOrder twoFiltersModule hv).1.1,
    (c12_chains_follow_range_order reverseOrder twoFiltersModule hv).2.2.1⟩

/-- C13: after Setup every config has a non-empty driver name, a non-empty codec
name and a non-zero weight. A registered config keeps its name and every field
that was set: only an empty driver becomes the default driver name, an empty codec
the default codec and a zero weight 1, while External, Prefix, Setting and a
non-zero weight stay as they were. When no config was registered Setup creates
exactly one config, under the default name, with those defaults. Running Setup
again, under any range order, changes no config. -/
theorem c13_setup_completes_configs :
    (∀ (o : RangeOrder) (m : Module) (name : String) (cfg : Config),
      (name, cfg) ∈ (Module.Setup o m).configs →
        cfg.Driver ≠ "" ∧ cfg.Codec ≠ "" ∧ cfg.Weight ≠ 0) ∧
    (∀ (o : RangeOrder) (m : Module), m.configs ≠ [] →
      GoMap.keys (Module.Setup o m).configs = GoMap.keys m.configs ∧
      ∀ (name : String) (cfg : Config), GoMap.get m.configs name = some cfg →
        GoMap.get (Module.Setup o m).configs name = some
          { Driver := if cfg.Driver = "" then DEFAULT else cfg.Driver
            External := cfg.External
            Codec := if cfg.Codec = "" then GOB else cfg.Codec
            Weight := if cfg.Weight = 0 then 1 else cfg.Weight
            Prefix := cfg.Prefix
            Setting := cfg.Setting }) ∧
    (∀ (o : RangeOrder) (m : Module), m.configs = [] →
      (Module.Setup o m).configs =
        [(DEFAULT, { Driver := DEFAULT, External := false, Codec := GOB, Weight := 1,
                     Prefix := "", Setting := [] })]) ∧
    (∀ (o o' : RangeOrder) (m : Module),
      (Module.Setup o' (Module.Setup o m)).configs = (Module.Setup o m).configs) := by
  refine ⟨?_, ?_, ?_, ?_⟩
  · intro o m name cfg hmem
    rw [Module.Setup_configs_eq] at hmem
    obtain ⟨e, _, he⟩ := List.mem_map.mp hmem
    have : cfg = Config.defaults e.2 := (congrArg Prod.snd he).symm
    rw [this]
    exact Config.defaults_complete e.2
  · intro o m hne
    refine ⟨Module.Setup_configs_keys o m hne, fun name cfg hget => ?_⟩
    rw [Module.Setup_configs_get o m name cfg hget, Config.defaults_eq]
  · intro o m hnil
    rw [Module.Setup_configs_eq]
    simp only [hnil, if_true, List.map_cons, List.map_nil]
    rfl
  · intro o o' m
    have hne : (Module.Setup o m).configs ≠ [] := by
      rw [Module.Setup_configs_eq]
      by_cases h : m.configs = []
      · simp [h]
      · simp [h]
    rw [Module.Setup_configs_eq o' (Module.Setup o m), if_neg hne, Module.Setup_configs_eq o m,
      List.map_map]
    apply List.map_congr_left
    intro e _
    simp [Function.comp, Config.defaults_idem]

/-- C14: after an Open of a module that was not opened, with distinct config
names, the routing table and the ring built from it contain a connection name
exactly when the weight of that connection's config at that moment is strictly
positive, and map it to that weight; no entry has a zero or negative weight. An
Open of the opened module returns it as it is, so the table stays the one of the
Open that built it. -/
theorem c14_routing_table_positive_weights (I : Infra) (m m' : Module)
    (hclosed : m.opened = false) (hkeys : (GoMap.keys m.configs).Nodup)
    (hopen : Module.Open I m = .ok m') :
    ∃ w, m'.weights = some w ∧ m'.hashring = some { weights := w } ∧
      (∀ name v, GoMap.get w name = some v ↔
        ∃ cfg, GoMap.get m.configs name = some cfg ∧ 0 < cfg.Weight ∧ v = cfg.Weight) ∧
      (∀ e ∈ w, 0 < e.2) ∧
      Module.Open I m' = .ok m' := by
  simp only [Module.Open, hclosed, Bool.false_eq_true, if_false] at hopen
  cases hoc : openConfigs m (if I.Profile = "" then INFRAGO else I.Profile) m.configs
      m.instances [] with
  | error e => simp [hoc] at hopen
  | ok r =>
    obtain ⟨i', w'⟩ := r
    simp only [hoc, Except.ok.injEq] at hopen
    subst hopen
    refine ⟨w', rfl, rfl, ?_, ?_, ?_⟩
    · intro name v
      have hget := openConfigs_weights_get m _ _ _ _ _ _ hoc hkeys name
      cases hc : GoMap.get m.configs name with
      | none =>
        have hnot := (GoMap.get_eq_none_iff _ _).mp hc
        rw [hget.1 hnot]
        simp [GoMap.get]
      | some cfg =>
        rw [hget.2 cfg (GoMap.mem_of_get _ _ _ hc)]
        by_cases hpos : cfg.Weight > 0
        · simp only [hpos, if_true, Option.some.injEq]
          constructor
          · intro hv
            exact ⟨cfg, rfl, hpos, hv.symm⟩
          · rintro ⟨c, hc', _, hv⟩
            cases hc'
            exact hv.symm
        · simp only [hpos, if_false, GoMap.get]
          constructor
          · intro hv
            cases hv
          · rintro ⟨c, hc', hp, _⟩
            cases hc'
            exact absurd hp hpos
    · exact openConfigs_weights_pos m _ _ _ _ _ _ hoc (by simp)
    · simp [Module.Open]

/-- C14 at the module with connections "a" (weight 1) and "b" (weight -1) after
Setup. -/
theorem c14_routing_table_positive_weights_witness :
    ∃ w, ((Module.Open sampleInfra (Module.Setup listOrder weightNegativeModule)).toOption.getD
            Module.initial).weights = some w ∧
      GoMap.get w "a" = some 1 ∧ GoMap.get w "b" = none :=
  let ⟨w, h1, _, h3, _, _⟩ :=
    c14_routing_table_positive_weights sampleInfra (Module.Setup listOrder weightNegativeModule)
      ((Module.Open sampleInfra (Module.Setup listOrder weightNegativeModule)).toOption.getD
        Module.initial)
      (by decide) (by decide) rfl
  ⟨w, h1, (h3 "a" 1).mpr ⟨(Config.defaults (weighted 1)), by decide, by decide, by decide⟩,
    by
      cases hb : GoMap.get w "b" with
      | none => rfl
      | some v =>
        obtain ⟨cfg, hc, hp, _⟩ := (h3 "b" v).mp hb
        have : cfg = Config.defaults (weighted (-1)) := by
          have h0 : GoMap.get (Module.Setup listOrder weightNegativeModule).configs "b"
              = some (Config.defaults (weighted (-1))) := by decide
          rw [h0] at hc
          exact (Option.some.inj hc).symm
        rw [this] at hp
        exact absurd hp (by decide)⟩

/-- C15: the configuration is frozen once the module has opened or started. For
every name, config, map of configs and settings tree, `RegisterConfig`,
`RegisterConfigs` and `Config` called while opened or started is true return
without a panic and leave the module, and so its config registry, as it was. -/
theorem c15_configuration_frozen (m : Module) (hfrozen : m.opened = true ∨ m.started = true) :
    (∀ (name : String) (cfg : Config), m.RegisterConfig name cfg = .ok m) ∧
    (∀ configs : List (String × Config), m.RegisterConfigs configs = .ok m) ∧
    (∀ global : Map, m.Config global = m) := by
  have h1 : ∀ (name : String) (cfg : Config), m.RegisterConfig name cfg = .ok m := by
    intro name cfg
    simp [Module.RegisterConfig, hfrozen]
  refine ⟨h1, ?_, ?_⟩
  · intro configs
    induction configs with
    | nil => rfl
    | cons e rest ih =>
      obtain ⟨name, cfg⟩ := e
      simp only [Module.RegisterConfigs, h1]
      exact ih
  · intro global
    simp [Module.Config, hfrozen]

/-- C15 at the opened module with connection "c1": a registration of "c2" and a
settings tree that names "c2" change nothing, while the same calls before Open
add the connection. -/
theorem c15_configuration_frozen_witness :
    frozenModule.RegisterConfig "c2" (weighted 5) = .ok frozenModule ∧
    frozenModule.Config sampleGlobal = frozenModule ∧
    GoMap.keys (oneEventModule.Config sampleGlobal).configs = ["c1", "c2", "default"] ∧
    GoMap.get (oneEventModule.Config sampleGlobal).configs "c2"
      = some { weighted 3 with Driver := DEFAULT, Codec := GOB } :=
  ⟨(c15_configuration_frozen frozenModule (Or.inl rfl)).1 "c2" (weighted 5),
    (c15_configuration_frozen frozenModule (Or.inl rfl)).2.2 sampleGlobal,
    by decide, by decide⟩

/-- C16: after a successful Open of a module that was not opened and has no
instances, with distinct config names, the instance map has exactly the configured
connection names, each once, and the instance under a name is named after it,
carries the config registered under that name and has a non-nil connection. After
Close of the opened module the instance map is empty, the routing table and the
ring are cleared and opened is false; Close of a module that is not opened returns
it as it is. -/
theorem c16_instances_after_open_and_close (I : Infra) (m m' : Module)
    (hclosed : m.opened = false) (hnone : m.instances = [])
    (hkeys : (GoMap.keys m.configs).Nodup) (hopen : Module.Open I m = .ok m') :
    (GoMap.keys m'.instances = GoMap.keys m.configs ∧
      (∀ name cfg, GoMap.get m.configs name = some cfg →
        ∃ inst conn, GoMap.get m'.instances name = some inst ∧ inst.Name = name ∧
          inst.Config = cfg ∧ inst.conn = some conn) ∧
      m'.opened = true) ∧
    ((Module.Close m').instances = [] ∧ (Module.Close m').weights = none ∧
      (Module.Close m').hashring = none ∧ (Module.Close m').opened = false) ∧
    Module.Close m = m ∧ Module.Close (Module.Close m') = Module.Close m' := by
  simp only [Module.Open, hclosed, Bool.false_eq_true, if_false] at hopen
  cases hoc : openConfigs m (if I.Profile = "" then INFRAGO else I.Profile) m.configs
      m.instances [] with
  | error e => simp [hoc] at hopen
  | ok r =>
    obtain ⟨i', w'⟩ := r
    simp only [hoc, Except.ok.injEq] at hopen
    subst hopen
    refine ⟨⟨?_, ?_, rfl⟩, ?_, ?_, ?_⟩
    · have hk := openConfigs_instances_keys m _ _ _ _ _ _ hoc hkeys (by simp [hnone, GoMap.keys])
      simpa [hnone, GoMap.keys] using hk
    · intro name cfg hget
      have hmem : name ∈ GoMap.keys m.configs := by
        by_contra hnot
        rw [(GoMap.get_eq_none_iff _ _).mpr hnot] at hget
        cases hget
      obtain ⟨inst, conn, h1, h2, h3, h4, _⟩ :=
        (openConfigs_instances m _ _ _ _ _ _ hoc name).2 hmem
      have h5 := GoMap.get_of_mem_nodup _ _ _ hkeys h4
      rw [hget] at h5
      exact ⟨inst, conn, h1, h3, (Option.some.inj h5).symm, h2⟩
    · simp [Module.Close]
    · simp [Module.Close, hclosed]
    · simp [Module.Close]

/-- C16 at the module with the connection "c1" and the event "user.created". -/
theorem c16_instances_after_open_and_close_witness :
    GoMap.keys ((Module.Open sampleInfra oneEventModule).toOption.getD
      Module.initial).instances = ["c1"] ∧
    (Module.Close ((Module.Open sampleInfra oneEventModule).toOption.getD
      Module.initial)).instances = [] :=
  have h := c16_instances_after_open_and_close sampleInfra oneEventModule
    ((Module.Open sampleInfra oneEventModule).toOption.getD Module.initial)
    (by decide) (by decide) (by decide) rfl
  ⟨h.1.1, h.2.1.1⟩

/-- C17: for every config, every mode marker among "publish." and "broadcast." and
every event name, the name `serving` recovers from the subject made of the
config's lead, the marker and the name, by stripping the lead and then one marker,
is that name; so the context `serving` builds for a message on that subject
resolves the declaration registered under the name. -/
theorem c17_subject_roundtrip (cfg : Config) (mode name : String)
    (hmode : mode = publishSubjectPrefix ∨ mode = broadcastSubjectPrefix) :
    recoverName cfg (cfg.Prefix ++ mode ++ name) = name ∧
    ∀ (I : Infra) (m : Module) (inst : Instance) (data : Bytes), inst.Config = cfg →
      (Instance.newContext I m inst (cfg.Prefix ++ mode ++ name) data).Config
        = GoMap.get m.events name := by
  have hrec := recoverName_subject cfg mode name hmode
  refine ⟨hrec, ?_⟩
  intro I m inst data hcfg
  simp only [Instance.newContext, hcfg, hrec]
  cases hev : GoMap.get m.events name with
  | none =>
    simp only []
    split
    · split <;> rfl
    · split
      · split <;> split <;> rfl
      · rfl
  | some ev =>
    simp only []
    split
    · split <;> rfl
    · split
      · split <;> split <;> rfl
      · rfl

/-- C17 at a config with the lead "app." and the event "publish.created", whose
name itself starts with a marker. -/
theorem c17_subject_roundtrip_witness :
    recoverName { weighted 1 with Prefix := "app." } ("app." ++ "broadcast." ++ "publish.created")
      = "publish.created" :=
  (c17_subject_roundtrip { weighted 1 with Prefix := "app." } "broadcast." "publish.created"
    (Or.inr rfl)).1

/-- C18: on a default connection the messages of a subject are handed to `Serve`
in the order in which they were sent. Take a connection on which the subject is
registered, start it, and take any schedule of publishes on the subject and
receives of its consumer that can happen (each send finds room, each receive finds
a message), in whatever order they interleave. The schedule runs: every receive
hands a message to `Serve`, and the messages handed over, followed by the queue
left, are the messages queued at the start followed by the payloads sent, in send
order. So of two payloads sent one after the other the first is handed over
before the second, at the positions their sends have among the messages. A
`publishMode` that returns without error is one such publish step, on the subject
of the event, of the connection it resolved. -/
theorem c18_served_in_send_order (c0 : defaultConnection) (name : String) (q : List Bytes)
    (steps : List Step) (hstop : c0.running = false)
    (hq : GoMap.get c0.events name = some q)
    (hfeasible : feasible name q.length steps = true) :
    (∃ c' served q',
      defaultConnection.run steps (c0.Start).2 [] = some (c', served) ∧
      GoMap.get c'.events name = some q' ∧
      (servedOf name served).length = receives steps ∧
      servedOf name served ++ q' = q ++ sentTo name steps ∧
      ∀ (before between after : List Step) (d1 d2 : Bytes),
        steps = before ++ Step.publish name d1 :: (between ++ Step.publish name d2 :: after) →
        (q ++ sentTo name steps)[q.length + (sentTo name before).length]? = some d1 ∧
        (q ++ sentTo name steps)[q.length + (sentTo name before).length + 1
            + (sentTo name between).length]? = some d2 ∧
        (q.length + (sentTo name before).length + 1 + (sentTo name between).length
            < receives steps →
          (servedOf name served)[q.length + (sentTo name before).length]? = some d1 ∧
          (servedOf name served)[q.length + (sentTo name before).length + 1
            + (sentTo name between).length]? = some d2)) ∧
    ∀ (I : Infra) (m m' : Module) (connName cn mode event : String)
      (values : List (Option Map)) (inst : Instance) (conn : defaultConnection),
      event ≠ "" → m.resolve I connName event = some cn →
      GoMap.get m.instances cn = some inst → inst.conn = some conn →
      m.publishMode I connName mode event values = .returned none m' →
      ∃ data conn',
        defaultConnection.run [.publish (inst.Config.Prefix ++ mode ++ event) data] conn []
          = some (conn', []) ∧
        m' = { m with
               instances := GoMap.set m.instances cn { inst with conn := some conn' } } := by
  refine ⟨?_, fun I m m' connName cn mode event values inst conn h1 h2 h3 h4 h5 =>
    Module.publishMode_run I m m' connName cn mode event values inst conn h1 h2 h3 h4 h5⟩
  obtain ⟨_, hcons, hev⟩ := defaultConnection.Start_consumers c0 name q hstop hq
  have hq1 : GoMap.get (c0.Start).2.events name = some q := by rw [hev]; exact hq
  obtain ⟨c', served, hrun, hlen⟩ :=
    defaultConnection.run_feasible name steps (c0.Start).2 [] q hcons hq1 hfeasible
  obtain ⟨q', hq', heq⟩ :=
    defaultConnection.run_fifo name steps (c0.Start).2 c' [] served hrun q hq1
  have heq' : servedOf name served ++ q' = q ++ sentTo name steps := by
    simpa [servedOf] using heq
  have hall : ∀ (sts : List Step) (c c2 : defaultConnection) (sv sv2 : List (String × Bytes)),
      (∀ s ∈ sts, ∀ n, s = Step.receive n → n = name) →
      defaultConnection.run sts c sv = some (c2, sv2) →
      (servedOf name sv2).length = (servedOf name sv).length + receives sts := by
    intro sts
    induction sts with
    | nil =>
      intro c c2 sv sv2 _ h
      simp only [defaultConnection.run, Option.some.injEq, Prod.mk.injEq] at h
      rw [← h.2]
      simp [receives]
    | cons s rest ih =>
      intro c c2 sv sv2 hs h
      have hrest : ∀ s ∈ rest, ∀ n, s = Step.receive n → n = name :=
        fun s hs' => hs s (List.mem_cons_of_mem _ hs')
      cases s with
      | publish n data =>
        simp only [defaultConnection.run] at h
        split at h
        · simpa [receives] using ih _ _ _ _ hrest h
        · cases h
      | receive n =>
        have hn : n = name := hs _ (List.mem_cons_self _ _) n rfl
        simp only [defaultConnection.run] at h
        split at h
        · rw [ih _ _ _ _ hrest h, servedOf_append]
          simp [servedOf, hn, receives]
          omega
        · cases h
  have hsteps : ∀ (len : Nat) (sts : List Step), feasible name len sts = true →
      ∀ s ∈ sts, ∀ n, s = Step.receive n → n = name := by
    intro len sts
    induction sts generalizing len with
    | nil => intro _ s hs; cases hs
    | cons s0 rest ih =>
      intro hf s hs n hsn
      cases s0 with
      | publish n0 data =>
        simp only [feasible, Bool.and_eq_true, decide_eq_true_eq] at hf
        rcases List.mem_cons.mp hs with h | h
        · rw [hsn] at h; cases h
        · exact ih _ hf.2 s h n hsn
      | receive n0 =>
        simp only [feasible, Bool.and_eq_true, decide_eq_true_eq] at hf
        rcases List.mem_cons.mp hs with h | h
        · rw [hsn] at h
          cases h
          exact hf.1.1
        · exact ih _ hf.2 s h n hsn
  have hcount : (servedOf name served).length = receives steps := by
    have := hall steps _ _ _ _ (hsteps _ _ hfeasible) hrun
    simpa [servedOf] using this
  refine ⟨c', served, q', hrun, hq', hcount, heq', ?_⟩
  intro pre mid post d1 d2 hst
  have hsent : sentTo name steps
      = sentTo name pre ++ d1 :: (sentTo name mid ++ d2 :: sentTo name post) := by
    rw [hst, sentTo_append]
    simp only [sentTo, if_true]
    rw [sentTo_append]
    simp only [sentTo, if_true]
  have h1 : (q ++ sentTo name steps)[q.length + (sentTo name pre).length]? = some d1 := by
    rw [hsent, ← List.append_assoc]
    have : q.length + (sentTo name pre).length = (q ++ sentTo name pre).length := by simp
    rw [this]
    exact getElem?_append_cons_length _ _ _
  have h2 : (q ++ sentTo name steps)[q.length + (sentTo name pre).length + 1
      + (sentTo name mid).length]? = some d2 := by
    have e : q ++ sentTo name steps
        = (q ++ sentTo name pre ++ d1 :: sentTo name mid) ++ d2 :: sentTo name post := by
      rw [hsent]; simp
    have : q.length + (sentTo name pre).length + 1 + (sentTo name mid).length
        = (q ++ sentTo name pre ++ d1 :: sentTo name mid).length := by
      simp; omega
    rw [e, this]
    exact getElem?_append_cons_length _ _ _
  refine ⟨h1, h2, fun hlt => ?_⟩
  rw [← hcount] at hlt
  rw [← heq'] at h1 h2
  constructor
  · rw [← h1, List.getElem?_append_left (by omega)]
  · rw [← h2, List.getElem?_append_left hlt]

/-- C18 on the connection with "publish.user.created" registered and one message
queued: after `Start`, two payloads are sent with a receive between them and two
receives after them, and the consumer is handed the three messages oldest
first. -/
theorem c18_served_in_send_order_witness :
    defaultConnection.run
        [.publish "publish.user.created" [1], .receive "publish.user.created",
          .publish "publish.user.created" [2], .receive "publish.user.created",
          .receive "publish.user.created"]
        (registeredConnection.Start).2 []
      = some
        ({ running := true, events := [("publish.user.created", [])],
           consumers := ["publish.user.created"],
           published := [("publish.user.created", [1]), ("publish.user.created", [2])] },
          [("publish.user.created", [0]), ("publish.user.created", [1]),
            ("publish.user.created", [2])]) ∧
    ∃ c' served q',
      defaultConnection.run
          [.publish "publish.user.created" [1], .receive "publish.user.created",
            .publish "publish.user.created" [2], .receive "publish.user.created",
            .receive "publish.user.created"]
          (registeredConnection.Start).2 [] = some (c', served) ∧
      GoMap.get c'.events "publish.user.created" = some q' ∧
      (servedOf "publish.user.created" served).length = 3 ∧
      servedOf "publish.user.created" served ++ q' = [[0]] ++ [[1], [2]] :=
  ⟨by decide,
    let ⟨c', served, q', h1, h2, h3, h4, _⟩ :=
      (c18_served_in_send_order registeredConnection "publish.user.created" [[0]]
        [.publish "publish.user.created" [1], .receive "publish.user.created",
          .publish "publish.user.created" [2], .receive "publish.user.created",
          .receive "publish.user.created"]
        (by decide) (by decide) (by decide)).1
    ⟨c', served, q', h1, h2, h3, h4⟩⟩

/-- C19: the cursor invariant `0 <= index <= len(nexts)` holds after `clear`, is kept
by `next`, which leaves the cursor and the slots already queued as they are, and is
kept by every run of `Next`. In a run of `Next` during which `clear` is not called
the queue stays as it is, the cursor never decreases, and the continuations invoked
are exactly the slots from the cursor before the run up to the cursor after it,
each once and in the order of their positions, also when a continuation calls
`Next` several times: the closure of `twiceContext` does so, and the three slots
are invoked once each, in order. -/
theorem c19_cursor_invariant :
    (∀ c : Context, c.clear.CursorOk) ∧
    (∀ (c : Context) (fs : List ctxFunc), c.CursorOk →
      (c.next fs).CursorOk ∧ (c.next fs).index = c.index ∧
        ∀ i, i < c.nexts.length → (c.next fs).nexts[i]? = c.nexts[i]?) ∧
    (∀ (m : Module) (I : Infra) (n : Nat) (c c' : Context),
      Context.Next m I n c = some c' → c.CursorOk → c'.CursorOk) ∧
    (∀ (m : Module) (I : Infra) (n : Nat) (c c' : Context) (d : List Ev),
      Context.Next m I n c = some c' → c'.trace = c.trace ++ d →
      (∀ e ∈ d, Ev.clears e = false) →
      c'.nexts = c.nexts ∧ c.index ≤ c'.index ∧
        d = slotEvents c.nexts c.index c'.index) ∧
    (∃ c', Context.Next Module.initial sampleInfra 3 twiceContext = some c' ∧
      c'.index = 3 ∧ c'.trace = [Ev.call 1, Ev.call 2, Ev.call 3]) := by
  refine ⟨?_, ?_, Next_cursor, Next_segment, ?_⟩
  · intro c
    simp [Context.CursorOk, Context.clear]
  · intro c fs hc
    refine ⟨?_, rfl, fun i hi => ?_⟩
    · simp only [Context.CursorOk, Context.next, List.length_append]
      exact Nat.le_trans hc (Nat.le_add_right _ _)
    · simp only [Context.next]
      exact List.getElem?_append_left hi
  · exact ⟨_, rfl, rfl, rfl⟩

/-- C20: on the outbound side a failed mapping is not an error. When a schema is
declared for the event name and the mapping collaborator answers with a result
that is not OK, `publishMode` goes on with the caller's own payload: it does what
it does for that payload without a declaration, so when the payload encodes it is
published unchanged on the subject of the event and no error is returned. The
mapped map replaces the payload exactly when the mapping result is nil or OK, and
a missing or nil payload is an empty map. -/
theorem c20_outbound_mapping_failure_keeps_payload (I : Infra) (m : Module)
    (connName cn mode name : String) (values : List (Option Map)) (inst : Instance)
    (conn : defaultConnection) (dec : Declare) (schema : Vars)
    (hname : name ≠ "") (hres : m.resolve I connName name = some cn)
    (hinst : GoMap.get m.instances cn = some inst) (hc : inst.conn = some conn)
    (hdec : GoMap.get m.declares name = some dec) (hargs : dec.Args = some schema) :
    (∀ res, (I.Mapping schema (firstPayload values) dec.Nullable none).2 = some res →
      res.ok = false →
      m.publishMode I connName mode name values
        = m.sendPayload I cn inst conn mode name (firstPayload values) ∧
      ∀ data, Instance.encode I inst name (firstPayload values) = .ok data →
        m.publishMode I connName mode name values = .blocked ∨
        ∃ conn', m.publishMode I connName mode name values =
            .returned none
              { m with
                instances := GoMap.set m.instances cn { inst with conn := some conn' } } ∧
          conn'.published = conn.published ++ [(inst.Config.Prefix ++ mode ++ name, data)]) ∧
    ((I.Mapping schema (firstPayload values) dec.Nullable none).2 = none ∨
      (∃ res, (I.Mapping schema (firstPayload values) dec.Nullable none).2 = some res ∧
        res.ok = true) →
      m.publishMode I connName mode name values
        = m.sendPayload I cn inst conn mode name
            (I.Mapping schema (firstPayload values) dec.Nullable none).1) ∧
    firstPayload [] = [] ∧ (∀ rest, firstPayload (none :: rest) = []) ∧
    (∀ p rest, firstPayload (some p :: rest) = p) := by
  have hpub := Module.publishMode_eq_sendPayload I m connName cn mode name values inst conn
    hname hres hinst hc
  simp only [hdec, hargs] at hpub
  refine ⟨?_, ?_, rfl, fun _ => rfl, fun _ _ => rfl⟩
  · intro res hr hok
    have heq : m.publishMode I connName mode name values
        = m.sendPayload I cn inst conn mode name (firstPayload values) := by
      rw [hpub]
      simp [hr, hok]
    refine ⟨heq, fun data henc => ?_⟩
    rw [heq]
    exact Module.sendPayload_of_encoded I m cn inst conn mode name _ data henc
  · intro h
    rw [hpub]
    rcases h with h | ⟨res, hr, hok⟩
    · simp [h]
    · simp [hr, hok]

/-- C20 at the opened module with a schema declared for "user.created" and a
mapping that always fails: the caller's payload is the one published. -/
theorem c20_outbound_mapping_failure_keeps_payload_witness :
    declaredModule.publishMode failingInfra "c1" publishSubjectPrefix "user.created"
        [some [("id", .str "x")]]
      = declaredModule.sendPayload failingInfra "c1"
          ((GoMap.get declaredModule.instances "c1").getD sampleInstance)
          (defaultDriver.Connect.registerAll
            [("broadcast.user.created", ""), ("publish.user.created", "infrago")])
          publishSubjectPrefix "user.created" [("id", .str "x")] :=
  ((c20_outbound_mapping_failure_keeps_payload failingInfra declaredModule "c1" "c1"
    publishSubjectPrefix "user.created" [some [("id", .str "x")]]
    ((GoMap.get declaredModule.instances "c1").getD sampleInstance)
    (defaultDriver.Connect.registerAll
      [("broadcast.user.created", ""), ("publish.user.created", "infrago")])
    { Args := some [("id", "int")], Nullable := false } [("id", "int")]
    (by decide) (by decide) (by decide) (by decide) (by decide) rfl).1
      { code := 400, ok := false, fail := true } rfl rfl).1

end Bus
